import Mathlib

/-!
# Sem8-DeleteDS: catalog, serialization and delete

A shallow embedding of `catalog.hpp` / `catalog.cpp`.

* `std::string` is a list of characters (`Str`).
* `std::vector` is a list.
* `std::unordered_map<std::string, V>` is an association list (`UMap V`) that is
  iterated in list order; a map object corresponds to a list with pairwise
  distinct keys.
* A member function that mutates `*this` and may throw returns the resulting
  object together with its outcome.
* Text written to a `std::ofstream` is the accumulated character list.
-/

namespace Catalog

/-- Model of `std::string`. -/
abbrev Str := List Char

/-- Failure kinds. `CannotOpenFile`, `MissingSchema`, `MalformedRow` and
`TableNotFound` are the four `std::runtime_error`s thrown in `catalog.cpp`
("Cannot open file", "Missing schema for table", "Malformed data row in table",
"Table not found"); `KeyNotFound` is the `std::out_of_range` thrown by
`unordered_map::at`; `IndexOutOfRange` is the remaining kind the specification
lists; `UncheckedAccess` stands for an access the source performs without any
check and for which therefore no exception is raised. -/
inductive Error where
  | CannotOpenFile
  | TableNotFound
  | MissingSchema
  | MalformedRow
  | KeyNotFound
  | IndexOutOfRange
  | UncheckedAccess
  deriving DecidableEq, Repr, Inhabited

/-! ## Data model (`catalog.hpp`) -/

structure ColumnMetadata where
  name : Str
  type : Str
  deriving DecidableEq, Repr, Inhabited

structure TableSchema where
  name : Str
  columns : List ColumnMetadata
  deriving DecidableEq, Repr, Inhabited

structure RecordReference where
  key_value : Str
  deriving DecidableEq, Repr, Inhabited

structure RelationshipOwner where
  table_name : Str
  links : List (RecordReference × List RecordReference)
  deriving DecidableEq, Repr, Inhabited

structure RelationshipMember where
  table_name : Str
  record_groups : List (List RecordReference)
  deriving DecidableEq, Repr, Inhabited

structure RelationshipMetadata where
  name : Str
  owner : RelationshipOwner
  member : RelationshipMember
  deriving DecidableEq, Repr, Inhabited

structure SchemaCatalog where
  schemas : List TableSchema
  deriving DecidableEq, Repr, Inhabited

structure SystemCatalog where
  schema_catalog : SchemaCatalog
  relationships : List RelationshipMetadata
  deriving DecidableEq, Repr, Inhabited

/-- Model of `std::unordered_map<std::string, V>`: the entries, listed in the
order in which the map is iterated. The C++ map iterates in an order fixed by
its hashing and its history, which the code does not control; the operations
below keep existing entries in place and put a new key last, which is one
such order among others. What is stored under each key is exact; properties
of a map that the code produces are therefore stated through `find` and
membership of keys, never through the order of the list. -/
abbrev UMap (V : Type) := List (Str × V)

namespace UMap

variable {V : Type}

/-- The keys, in iteration order. -/
def keys (m : UMap V) : List Str := m.map Prod.fst

/-- Lookup, as done by `find` / `at`: the entry stored under `k`, if any. -/
def find (m : UMap V) (k : Str) : Option V :=
  match m with
  | [] => none
  | (k', v) :: rest => if k' = k then some v else find rest k

/-- Assignment `m[k] = v`: overwrite the entry under `k`, or add one. -/
def assign (m : UMap V) (k : Str) (v : V) : UMap V :=
  match m with
  | [] => [(k, v)]
  | (k', v') :: rest => if k' = k then (k, v) :: rest else (k', v') :: assign rest k v

/-- Insertion `m.emplace(k, v)`: add an entry under `k` unless one exists. -/
def emplace (m : UMap V) (k : Str) (v : V) : UMap V :=
  match m with
  | [] => [(k, v)]
  | (k', v') :: rest => if k' = k then (k', v') :: rest else (k', v') :: emplace rest k v

/-- Removal `m.erase(k)`. -/
def erase (m : UMap V) (k : Str) : UMap V :=
  m.filter (fun e => !decide (e.1 = k))

/-- Apply `f` to the entry stored under `k` (mutation through the reference
returned by `m[k]` for a key that is present). -/
def modify (m : UMap V) (k : Str) (f : V → V) : UMap V :=
  match m with
  | [] => []
  | (k', v) :: rest => if k' = k then (k', f v) :: rest else (k', v) :: modify rest k f

end UMap

/-- Model of `class TableRecord`: the private `fields_` map. -/
structure TableRecord where
  fields_ : UMap Str
  deriving DecidableEq, Repr, Inhabited

/-- Model of `class DataTable`: the private `records_` vector. -/
structure DataTable where
  records_ : List TableRecord
  deriving DecidableEq, Repr, Inhabited

/-- Model of `class Database`. -/
structure Database where
  catalog_ : SystemCatalog
  tables_ : UMap DataTable
  deriving DecidableEq, Repr, Inhabited

/-! ## `SystemCatalog`, `TableRecord`, `DataTable` (`catalog.cpp` 11-30, `catalog.hpp` 75-83) -/

/-- Model of `SystemCatalog::add_schema`: `schema_catalog.schemas.push_back(schema)`. -/
def SystemCatalog.add_schema (c : SystemCatalog) (schema : TableSchema) : SystemCatalog :=
  { c with schema_catalog := { schemas := c.schema_catalog.schemas ++ [schema] } }

/-- Model of `SystemCatalog::add_relationship`: `relationships.push_back(relationship)`. -/
def SystemCatalog.add_relationship (c : SystemCatalog) (relationship : RelationshipMetadata) :
    SystemCatalog :=
  { c with relationships := c.relationships ++ [relationship] }

/-- A default-constructed `TableRecord`. -/
def TableRecord.empty : TableRecord := { fields_ := [] }

/-- Model of `TableRecord::set_field`: `fields_[name] = std::move(value)`. -/
def TableRecord.set_field (r : TableRecord) (name : Str) (value : Str) : TableRecord :=
  { fields_ := r.fields_.assign name value }

/-- Model of `TableRecord::get_field`: `return fields_.at(name)`, which throws
`std::out_of_range` when there is no such key. -/
def TableRecord.get_field (r : TableRecord) (name : Str) : Except Error Str :=
  match r.fields_.find name with
  | some v => .ok v
  | none => .error .KeyNotFound

/-- A default-constructed `DataTable`. -/
def DataTable.empty : DataTable := { records_ := [] }

/-- Model of `DataTable::insert_record`: `records_.push_back(record)`. -/
def DataTable.insert_record (t : DataTable) (record : TableRecord) : DataTable :=
  { records_ := t.records_ ++ [record] }

/-- Model of `DataTable::size`. -/
def DataTable.size (t : DataTable) : Nat := t.records_.length

/-- Model of `DataTable::get_record`: `return records_[index]`. `std::vector::operator[]`
performs no bounds check and raises no exception; an index past the end is an
unchecked access. -/
def DataTable.get_record (t : DataTable) (index : Nat) : Except Error TableRecord :=
  match t.records_.get? index with
  | some r => .ok r
  | none => .error .UncheckedAccess

/-- Model of `Database::set_table`: `tables_[table_name] = table`. The entry
stored under `table_name` is exact; the place of a new key in the iteration
order is not (see `UMap`). -/
def Database.set_table (db : Database) (table_name : Str) (table : DataTable) : Database :=
  { db with tables_ := db.tables_.assign table_name table }

/-- The lookup loop shared by `print`, `save_to_file` and `load_from_file`:
the first schema `s` with `s.name == table_name`, or a null pointer. -/
def find_schema (schemas : List TableSchema) (table_name : Str) : Option TableSchema :=
  match schemas with
  | [] => none
  | s :: rest => if s.name = table_name then some s else find_schema rest table_name

/-! ## `Database::DeleteDS` (`catalog.cpp` 272-299) -/

/-- Model of `Database::DeleteDS`. Returns the database after the call and the outcome. -/
def Database.DeleteDS (db : Database) (table_name : Str) : Database × Except Error Unit :=
  if db.tables_.find table_name = none then
    (db, .error .TableNotFound)
  else
    -- 1. Remove schema from catalog
    let schemas := db.catalog_.schema_catalog.schemas.filter
      (fun s => !decide (s.name = table_name))
    -- 2. Remove related relationships
    let relationships := db.catalog_.relationships.filter
      (fun rel => !(decide (rel.owner.table_name = table_name) ||
                    decide (rel.member.table_name = table_name)))
    -- 3. Remove physical data
    ({ catalog_ := { schema_catalog := { schemas := schemas }, relationships := relationships },
       tables_ := db.tables_.erase table_name },
     .ok ())

/-! ## Strings and streams -/

/-- Unsigned 64-bit subtraction `a - b` on `size_t` operands (both below
`2^64`): exact when `b <= a`, and wrapping around modulo `2^64` otherwise. -/
def size_t_sub (a b : Nat) : Nat :=
  if b ≤ a then a - b else (a + 2 ^ 64 - b) % 2 ^ 64

/-- Model of `s.substr(pos, count)` for `pos <= s.size()`: at most `count` characters
starting at `pos`. -/
def substr (s : Str) (pos count : Nat) : Str := (s.drop pos).take count

/-- Model of `s.substr(pos)` for `pos <= s.size()`. -/
def substr_from (s : Str) (pos : Nat) : Str := s.drop pos

/-- Model of `s.starts_with(p)`. -/
def starts_with (s p : Str) : Bool := p.isPrefixOf s

/-- Model of `s.find(c)`: the position of the first `c`, `none` standing for `npos`. -/
def find_char (c : Char) (s : Str) : Option Nat :=
  match s with
  | [] => none
  | x :: rest => if x = c then some 0 else (find_char c rest).map (· + 1)

/-- One call `getline(stream, x, delim)` on a stream whose unread characters
are `s`: fails when nothing is left; otherwise `x` is everything before the
first `delim` and the delimiter is consumed. -/
def getline (delim : Char) (s : Str) : Option (Str × Str) :=
  match s with
  | [] => none
  | _ :: _ => some (s.takeWhile (fun c => !decide (c = delim)),
                    (s.dropWhile (fun c => !decide (c = delim))).drop 1)

/-- The strings read by `while (getline(stream, x, delim))`. -/
def getlines (delim : Char) : Str → List Str
  | [] => []
  | c :: cs =>
    if c = delim then [] :: getlines delim cs
    else
      match getlines delim cs with
      | [] => [[c]]
      | l :: ls => (c :: l) :: ls

/-! ## `Database::save_to_file` (`catalog.cpp` 82-137) -/

/-- Lines 89-91: one `name:type` line per column. -/
def write_columns : List ColumnMetadata → Str
  | [] => []
  | col :: rest => col.name ++ ":".toList ++ col.type ++ "\n".toList ++ write_columns rest

/-- Lines 87-92: the schema sections. -/
def write_schemas : List TableSchema → Str
  | [] => []
  | schema :: rest =>
    "[SCHEMA:".toList ++ schema.name ++ "]\n".toList ++ write_columns schema.columns ++
      write_schemas rest

/-- Lines 101-105: the member keys, a comma after each but the last. -/
def write_member_refs : List RecordReference → Str
  | [] => []
  | [ref] => ref.key_value
  | ref :: ref2 :: rest => ref.key_value ++ ",".toList ++ write_member_refs (ref2 :: rest)

/-- Lines 99-107: one `Link:` line per entry of `owner.links`. -/
def write_links : List (RecordReference × List RecordReference) → Str
  | [] => []
  | (owner_ref, member_refs) :: rest =>
    "Link:".toList ++ owner_ref.key_value ++ ":".toList ++ write_member_refs member_refs ++
      "\n".toList ++ write_links rest

/-- Lines 95-108: the relationship sections. -/
def write_relationships : List RelationshipMetadata → Str
  | [] => []
  | rel :: rest =>
    "[RELATIONSHIP:".toList ++ rel.name ++ "]\n".toList ++
      "Owner:".toList ++ rel.owner.table_name ++ "\n".toList ++
      "Member:".toList ++ rel.member.table_name ++ "\n".toList ++
      write_links rel.owner.links ++ write_relationships rest

/-- Lines 124-126: the header line. -/
def write_header_names : List ColumnMetadata → Str
  | [] => []
  | col :: rest => col.name ++ "\t".toList ++ write_header_names rest

/-- Lines 124-126 with the end of line. -/
def write_header (columns : List ColumnMetadata) : Str :=
  write_header_names columns ++ "\n".toList

/-- Lines 131-133: the fields of one record; stops at the first `get_field`
that throws. Returns the text written and the outcome. -/
def write_fields (columns : List ColumnMetadata) (rec : TableRecord) : Str × Except Error Unit :=
  match columns with
  | [] => ([], .ok ())
  | col :: rest =>
    match rec.get_field col.name with
    | .error e => ([], .error e)
    | .ok v =>
      let r := write_fields rest rec
      (v ++ "\t".toList ++ r.1, r.2)

/-- Lines 129-135: one line per record, for `i = 0 .. tbl.size()-1` in order
(every `get_record(i)` is in range). -/
def write_records (columns : List ColumnMetadata) (records : List TableRecord) :
    Str × Except Error Unit :=
  match records with
  | [] => ([], .ok ())
  | rec :: rest =>
    let w := write_fields columns rec
    match w.2 with
    | .error e => (w.1, .error e)
    | .ok _ =>
      let r := write_records columns rest
      (w.1 ++ "\n".toList ++ r.1, r.2)

/-- Lines 111-136: the data sections, in the iteration order of `tables_`. -/
def write_tables (schemas : List TableSchema) (tables : UMap DataTable) :
    Str × Except Error Unit :=
  match tables with
  | [] => ([], .ok ())
  | (tbl_name, tbl) :: rest =>
    let head := "[DATA:".toList ++ tbl_name ++ "]\n".toList
    match find_schema schemas tbl_name with
    | none => (head, .error .MissingSchema)
    | some schema =>
      let w := write_records schema.columns tbl.records_
      match w.2 with
      | .error e => (head ++ write_header schema.columns ++ w.1, .error e)
      | .ok _ =>
        let r := write_tables schemas rest
        (head ++ write_header schema.columns ++ w.1 ++ r.1, r.2)

/-- Model of `Database::save_to_file`. `opened` tells whether the output file could be
opened. Returns the text written to the file and the outcome. -/
def Database.save_to_file (db : Database) (opened : Bool) : Str × Except Error Unit :=
  if !opened then ([], .error .CannotOpenFile)
  else
    let r := write_tables db.catalog_.schema_catalog.schemas db.tables_
    (write_schemas db.catalog_.schema_catalog.schemas ++
      write_relationships db.catalog_.relationships ++ r.1, r.2)

/-! ## `Database::load_from_file` (`catalog.cpp` 140-270) -/

/-- The local variables of `load_from_file`. -/
structure LoadState where
  catalog : SystemCatalog
  tables : UMap DataTable
  current_section : Str
  current_schema : Option TableSchema
  current_rel : Option RelationshipMetadata
  current_data_table : Str
  data_header_processed : Bool
  deriving DecidableEq, Repr, Inhabited

/-- The locals before the first line is read. -/
def LoadState.init : LoadState :=
  { catalog := { schema_catalog := { schemas := [] }, relationships := [] }
    tables := []
    current_section := []
    current_schema := none
    current_rel := none
    current_data_table := []
    data_header_processed := false }

/-- Lines 161-168 and 261-262: commit an in-flight schema and relationship. -/
def finalize (catalog : SystemCatalog) (current_schema : Option TableSchema)
    (current_rel : Option RelationshipMetadata) : SystemCatalog :=
  let c1 := match current_schema with
    | some s => catalog.add_schema s
    | none => catalog
  match current_rel with
  | some r => c1.add_relationship r
  | none => c1

/-- Lines 159-190: a line whose first character is an opening bracket. -/
def section_line (st : LoadState) (line : Str) : LoadState :=
  let st1 : LoadState :=
    { catalog := finalize st.catalog st.current_schema st.current_rel
      tables := st.tables
      current_section := line
      current_schema := none
      current_rel := none
      current_data_table := []
      data_header_processed := false }
  if starts_with line "[SCHEMA:".toList then
    { st1 with
      current_schema := some (TableSchema.mk (substr line 8 (size_t_sub line.length 9)) []) }
  else if starts_with line "[RELATIONSHIP:".toList then
    { st1 with
      current_rel := some (RelationshipMetadata.mk (substr line 14 (size_t_sub line.length 15))
        (RelationshipOwner.mk [] []) (RelationshipMember.mk [] [])) }
  else if starts_with line "[DATA:".toList then
    let name := substr line 6 (size_t_sub line.length 7)
    { st1 with current_data_table := name, tables := st1.tables.emplace name DataTable.empty }
  else st1

/-- Lines 194-200: a line of an open schema section. -/
def schema_line (schema : TableSchema) (line : Str) : TableSchema :=
  match find_char ':' line with
  | some colon =>
    { schema with columns := schema.columns ++
        [{ name := substr line 0 colon, type := substr_from line (colon + 1) }] }
  | none => schema

/-- Lines 211-222: the entry parsed from a `Link:` line. When no colon is
found, `colon` is `npos`: `substr(0, npos)` is the whole string and `colon+1`
wraps around to `0`. -/
def parse_link (line : Str) : RecordReference × List RecordReference :=
  let link_data := substr_from line 5
  match find_char ':' link_data with
  | some colon =>
    ({ key_value := substr link_data 0 colon },
     (getlines ',' (substr_from link_data (colon + 1))).map RecordReference.mk)
  | none =>
    ({ key_value := link_data }, (getlines ',' link_data).map RecordReference.mk)

/-- Lines 204-223: a line of an open relationship section. -/
def relationship_line (rel : RelationshipMetadata) (line : Str) : RelationshipMetadata :=
  if starts_with line "Owner:".toList then
    { rel with owner := { rel.owner with table_name := substr_from line 6 } }
  else if starts_with line "Member:".toList then
    { rel with member := { rel.member with table_name := substr_from line 7 } }
  else if starts_with line "Link:".toList then
    { rel with owner := { rel.owner with links := rel.owner.links ++ [parse_link line] } }
  else rel

/-- Lines 250-255: one `getline(iss, value, '\t')` per schema column, `iss`
being the unread part of the row. -/
def parse_record (columns : List ColumnMetadata) (iss : Str) (rec : TableRecord) :
    Except Error TableRecord :=
  match columns with
  | [] => .ok rec
  | col :: rest =>
    match getline '\t' iss with
    | none => .error .MalformedRow
    | some (value, iss') => parse_record rest iss' (rec.set_field col.name value)

/-- Lines 227-256: a line of an open data section. -/
def data_line (st : LoadState) (line : Str) : Except Error LoadState :=
  -- `tables[current_data_table]` adds an empty table when there is none
  let tables := st.tables.emplace st.current_data_table DataTable.empty
  if !st.data_header_processed then
    .ok { st with tables := tables, data_header_processed := true }
  else
    match find_schema st.catalog.schema_catalog.schemas st.current_data_table with
    | none => .error .MissingSchema
    | some schema =>
      match parse_record schema.columns line TableRecord.empty with
      | .error e => .error e
      | .ok rec =>
        .ok { st with tables :=
                tables.modify st.current_data_table (fun tbl => tbl.insert_record rec) }

/-- The body of the `while (getline(file, line))` loop, lines 156-257. -/
def step (st : LoadState) (line : Str) : Except Error LoadState :=
  if line = [] then .ok st
  else if line.head? = some '[' then .ok (section_line st line)
  else
    match st.current_schema with
    | some schema => .ok { st with current_schema := some (schema_line schema line) }
    | none =>
      match st.current_rel with
      | some rel => .ok { st with current_rel := some (relationship_line rel line) }
      | none =>
        if st.current_data_table ≠ [] then data_line st line
        else .ok st

/-- The `while` loop over the lines of the file. -/
def run (st : LoadState) : List Str → Except Error LoadState
  | [] => .ok st
  | line :: rest =>
    match step st line with
    | .error e => .error e
    | .ok st' => run st' rest

/-- Lines 265-268: the database built from the catalog and the tables. Every
loaded table is stored under its name; the iteration order of the resulting
`tables_` is that of `UMap`, not necessarily that of the C++ map. -/
def build_database (catalog : SystemCatalog) (tables : UMap DataTable) : Database :=
  tables.foldl (fun db e => db.set_table e.1 e.2) { catalog_ := catalog, tables_ := [] }

/-- Model of `Database::load_from_file`. `file` is the content of the file, `none` when
it cannot be opened. -/
def Database.load_from_file (file : Option Str) : Except Error Database :=
  match file with
  | none => .error .CannotOpenFile
  | some text =>
    match run LoadState.init (getlines '\n' text) with
    | .error e => .error e
    | .ok st =>
      .ok (build_database (finalize st.catalog st.current_schema st.current_rel) st.tables)

/-! ## `load_from_file` with the range checks of its string operations

`std::string::substr(pos, count)` throws `std::out_of_range` when
`pos > size()`, and `s[i]` is defined only for `i <= size()`. The functions
below follow `load_from_file` line by line like the ones above and return
`none` as soon as such an operation is out of range. -/

/-- Model of `s.substr(pos, count)`: `none` when `pos > s.size()`. -/
def substr_checked (s : Str) (pos count : Nat) : Option Str :=
  if pos ≤ s.length then some ((s.drop pos).take count) else none

/-- Model of `s.substr(pos)`: `none` when `pos > s.size()`. -/
def substr_from_checked (s : Str) (pos : Nat) : Option Str :=
  if pos ≤ s.length then some (s.drop pos) else none

/-- Model of `s[i]`: the character at position `i`, `none` when there is none. -/
def index_checked (s : Str) (i : Nat) : Option Char := s.get? i

/-- Lines 159-190, with the range checks of `substr`. -/
def section_line_checked (st : LoadState) (line : Str) : Option LoadState :=
  let st1 : LoadState :=
    { catalog := finalize st.catalog st.current_schema st.current_rel
      tables := st.tables
      current_section := line
      current_schema := none
      current_rel := none
      current_data_table := []
      data_header_processed := false }
  if starts_with line "[SCHEMA:".toList then
    match substr_checked line 8 (size_t_sub line.length 9) with
    | none => none
    | some name => some { st1 with current_schema := some (TableSchema.mk name []) }
  else if starts_with line "[RELATIONSHIP:".toList then
    match substr_checked line 14 (size_t_sub line.length 15) with
    | none => none
    | some name =>
      some { st1 with current_rel := some (RelationshipMetadata.mk name
        (RelationshipOwner.mk [] []) (RelationshipMember.mk [] [])) }
  else if starts_with line "[DATA:".toList then
    match substr_checked line 6 (size_t_sub line.length 7) with
    | none => none
    | some name =>
      some { st1 with current_data_table := name,
                      tables := st1.tables.emplace name DataTable.empty }
  else some st1

/-- Lines 194-200, with the range checks of `substr`. -/
def schema_line_checked (schema : TableSchema) (line : Str) : Option TableSchema :=
  match find_char ':' line with
  | some colon =>
    match substr_checked line 0 colon, substr_from_checked line (colon + 1) with
    | some name, some type =>
      some { schema with columns := schema.columns ++ [{ name := name, type := type }] }
    | _, _ => none
  | none => some schema

/-- Lines 211-222, with the range checks of `substr`. Without a colon,
`colon` is `npos`: `substr(0, npos)` is everything from position `0`, and
`colon+1` wraps around to `0`. -/
def parse_link_checked (line : Str) : Option (RecordReference × List RecordReference) :=
  match substr_from_checked line 5 with
  | none => none
  | some link_data =>
    match find_char ':' link_data with
    | some colon =>
      match substr_checked link_data 0 colon, substr_from_checked link_data (colon + 1) with
      | some owner, some rest =>
        some ({ key_value := owner }, (getlines ',' rest).map RecordReference.mk)
      | _, _ => none
    | none =>
      match substr_from_checked link_data 0,
        substr_from_checked link_data ((2 ^ 64 - 1 + 1) % 2 ^ 64) with
      | some owner, some rest =>
        some ({ key_value := owner }, (getlines ',' rest).map RecordReference.mk)
      | _, _ => none

/-- Lines 204-223, with the range checks of `substr`. -/
def relationship_line_checked (rel : RelationshipMetadata) (line : Str) :
    Option RelationshipMetadata :=
  if starts_with line "Owner:".toList then
    match substr_from_checked line 6 with
    | none => none
    | some name => some { rel with owner := { rel.owner with table_name := name } }
  else if starts_with line "Member:".toList then
    match substr_from_checked line 7 with
    | none => none
    | some name => some { rel with member := { rel.member with table_name := name } }
  else if starts_with line "Link:".toList then
    match parse_link_checked line with
    | none => none
    | some link => some { rel with owner := { rel.owner with links := rel.owner.links ++ [link] } }
  else some rel

/-- The loop body, lines 156-257, with the range checks of `line[0]` and
`substr`. -/
def step_checked (st : LoadState) (line : Str) : Option (Except Error LoadState) :=
  if line = [] then some (.ok st)
  else
    match index_checked line 0 with
    | none => none
    | some c =>
      if c = '[' then
        match section_line_checked st line with
        | none => none
        | some st' => some (.ok st')
      else
        match st.current_schema with
        | some schema =>
          match schema_line_checked schema line with
          | none => none
          | some schema' => some (.ok { st with current_schema := some schema' })
        | none =>
          match st.current_rel with
          | some rel =>
            match relationship_line_checked rel line with
            | none => none
            | some rel' => some (.ok { st with current_rel := some rel' })
          | none =>
            if st.current_data_table ≠ [] then some (data_line st line)
            else some (.ok st)

/-- The `while` loop, with the range checks. -/
def run_checked (st : LoadState) : List Str → Option (Except Error LoadState)
  | [] => some (.ok st)
  | line :: rest =>
    match step_checked st line with
    | none => none
    | some (.error e) => some (.error e)
    | some (.ok st') => run_checked st' rest

/-- Model of `Database::load_from_file` with the range checks: `none` when a
substring or index operation is out of range, otherwise the outcome. -/
def Database.load_from_file_checked (file : Option Str) : Option (Except Error Database) :=
  match file with
  | none => some (.error .CannotOpenFile)
  | some text =>
    match run_checked LoadState.init (getlines '\n' text) with
    | none => none
    | some (.error e) => some (.error e)
    | some (.ok st) =>
      some (.ok (build_database (finalize st.catalog st.current_schema st.current_rel) st.tables))

/-! ## Notions used to state the properties -/

deriving instance DecidableEq for Except

/-- The record obtained from a default-constructed one by the `set_field`
calls `calls`, in order. -/
def TableRecord.build (calls : List (Str × Str)) : TableRecord :=
  calls.foldl (fun r c => r.set_field c.1 c.2) TableRecord.empty

/-- The lines `ls`, each ended by a newline. -/
def unlines (ls : List Str) : Str := (ls.map (fun l => l ++ ['\n'])).flatten

/-- The fields `fs` joined by single tab characters. -/
def tab_joined (fs : List Str) : Str := List.intercalate ['\t'] fs

/-- The fields `fs`, each followed by a tab character. -/
def tab_terminated (fs : List Str) : Str := (fs.map (fun f => f ++ ['\t'])).flatten

/-- The stored values of record `r` for the columns `columns`, in column order
(columns without a stored value are left out). -/
def row_values (columns : List ColumnMetadata) (r : TableRecord) : List Str :=
  columns.filterMap (fun c => r.fields_.find c.name)

/-- Record `r` populates every column of `columns`. -/
def populates (columns : List ColumnMetadata) (r : TableRecord) : Prop :=
  ∀ c ∈ columns, c.name ∈ r.fields_.keys

instance (columns : List ColumnMetadata) (r : TableRecord) : Decidable (populates columns r) := by
  unfold populates; infer_instance

/-- Every record of every table that has a schema populates the columns of
that schema. -/
def records_complete (db : Database) : Prop :=
  ∀ e ∈ db.tables_, ∀ schema ∈ find_schema db.catalog_.schema_catalog.schemas e.1,
    ∀ r ∈ e.2.records_, populates schema.columns r

instance (db : Database) : Decidable (records_complete db) := by
  unfold records_complete; infer_instance

/-- The lines of a schema section (file format, section `[SCHEMA:...]`). -/
def schema_lines (s : TableSchema) : List Str :=
  ("[SCHEMA:".toList ++ s.name ++ "]".toList) ::
    s.columns.map (fun c => c.name ++ ":".toList ++ c.type)

/-- The `Link:` line of one entry of `owner.links`: the owner key, a colon,
and the member keys joined by commas. -/
def link_line (l : RecordReference × List RecordReference) : Str :=
  "Link:".toList ++ l.1.key_value ++ ":".toList ++
    List.intercalate [','] (l.2.map (fun m => m.key_value))

/-- The lines of a relationship section (file format, section `[RELATIONSHIP:...]`). -/
def relationship_lines (r : RelationshipMetadata) : List Str :=
  ("[RELATIONSHIP:".toList ++ r.name ++ "]".toList) ::
    ("Owner:".toList ++ r.owner.table_name) ::
    ("Member:".toList ++ r.member.table_name) ::
    r.owner.links.map link_line

/-- The lines of a data section as `save_to_file` writes them: every field is
followed by a tab character. -/
def data_lines (columns : List ColumnMetadata) (name : Str) (tbl : DataTable) : List Str :=
  ("[DATA:".toList ++ name ++ "]".toList) ::
    tab_terminated (columns.map (fun c => c.name)) ::
    tbl.records_.map (fun r => tab_terminated (row_values columns r))

/-- The schema name a line declares when it opens a schema section
(`catalog.cpp` 175-177), `none` for any other line. -/
def declared_schema (line : Str) : Option Str :=
  if line.head? = some '[' ∧ starts_with line "[SCHEMA:".toList = true then
    some (substr line 8 (size_t_sub line.length 9))
  else none

/-- The catalog that `load_from_file` would return if the input ended in
state `st`. -/
def LoadState.result_catalog (st : LoadState) : SystemCatalog :=
  finalize st.catalog st.current_schema st.current_rel

/-- The non-empty lines among `ls`, in order. -/
def nonempty_lines : List Str → List Str
  | [] => []
  | l :: rest => if l = [] then nonempty_lines rest else l :: nonempty_lines rest

/-- The state in which the rows of the data section `T` are read. -/
def in_rows (st : LoadState) (T : Str) (catalog : SystemCatalog) : Prop :=
  st.catalog = catalog ∧ st.current_schema = none ∧ st.current_rel = none ∧
    st.current_data_table = T ∧ st.data_header_processed = true

/-- The lines of the data section of table entry `e`, columns taken from the
first schema named like the table. -/
def table_lines (schemas : List TableSchema) (e : Str × DataTable) : List Str :=
  match find_schema schemas e.1 with
  | some schema => data_lines schema.columns e.1 e.2
  | none => []

/-- The lines of the file format for database `db`: schema sections,
relationship sections, data sections. -/
def file_lines (db : Database) : List Str :=
  db.catalog_.schema_catalog.schemas.flatMap schema_lines ++
    db.catalog_.relationships.flatMap relationship_lines ++
    db.tables_.flatMap (table_lines db.catalog_.schema_catalog.schemas)

/-- Every table of the mapping has a same-named schema. -/
def tables_have_schema (db : Database) : Prop :=
  ∀ e ∈ db.tables_, find_schema db.catalog_.schema_catalog.schemas e.1 ≠ none

instance (db : Database) : Decidable (tables_have_schema db) := by
  unfold tables_have_schema; infer_instance

/-- The string `s` does not begin with an opening bracket. -/
def no_bracket (s : Str) : Prop := s.head? ≠ some '['

instance (s : Str) : Decidable (no_bracket s) := by
  unfold no_bracket; infer_instance

/-- The relationship `r` as the file format keeps it: without `member.record_groups`. -/
def without_groups (r : RelationshipMetadata) : RelationshipMetadata :=
  { r with member := { r.member with record_groups := [] } }

/-- The link `l` can be read back from its `Link:` line: no colon in the owner
key, no comma in a member key, and the last member key is not empty. -/
def link_readable (l : RecordReference × List RecordReference) : Prop :=
  ':' ∉ l.1.key_value ∧ (∀ m ∈ l.2, ',' ∉ m.key_value) ∧ l.2.getLast? ≠ some ⟨[]⟩

/-- The record `rec` after `set_field c.name v` for the columns `cols` paired
in order with the values `vals`. -/
def set_all (rec : TableRecord) (cols : List ColumnMetadata) (vals : List Str) : TableRecord :=
  match cols, vals with
  | c :: cs, v :: vs => set_all (rec.set_field c.name v) cs vs
  | _, _ => rec

/-- Records `r` and `r'` answer every `get_field` alike. -/
def same_fields (r r' : TableRecord) : Prop := ∀ x, r'.get_field x = r.get_field x

/-- The record `r` can be read back from the row written for it under the
columns `cols`: it has a value for every column and no other field, no value
contains a tab, and the value of the first column does not begin with an
opening bracket. -/
def row_readable (cols : List ColumnMetadata) (r : TableRecord) : Prop :=
  populates cols r ∧
  (∀ k ∈ UMap.keys r.fields_, ∃ c ∈ cols, c.name = k) ∧
  (∀ kv ∈ r.fields_, '\t' ∉ kv.2) ∧
  (∀ c v, cols.head? = some c → UMap.find r.fields_ c.name = some v → no_bracket v)

/-- The record read back from the row written for `r`. -/
def reloaded (cols : List ColumnMetadata) (r : TableRecord) : TableRecord :=
  set_all TableRecord.empty cols (row_values cols r)

/-- The string `s` contains no delimiter character: tab, colon, comma, newline. -/
def clean (s : Str) : Prop := '\t' ∉ s ∧ ':' ∉ s ∧ ',' ∉ s ∧ '\n' ∉ s

instance (s : Str) : Decidable (clean s) := by
  unfold clean; infer_instance

/-- The names and values of `db` that are written to the file contain no
delimiter character. -/
def Database.clean (db : Database) : Prop :=
  (∀ s ∈ db.catalog_.schema_catalog.schemas,
    Catalog.clean s.name ∧ ∀ c ∈ s.columns, Catalog.clean c.name ∧ Catalog.clean c.type) ∧
  (∀ r ∈ db.catalog_.relationships,
    Catalog.clean r.name ∧ Catalog.clean r.owner.table_name ∧
    Catalog.clean r.member.table_name ∧
    ∀ l ∈ r.owner.links, Catalog.clean l.1.key_value ∧ ∀ m ∈ l.2, Catalog.clean m.key_value) ∧
  (∀ e ∈ db.tables_,
    Catalog.clean e.1 ∧
    ∀ r ∈ e.2.records_, ∀ kv ∈ r.fields_, Catalog.clean kv.1 ∧ Catalog.clean kv.2)

instance (db : Database) : Decidable db.clean := by
  unfold Database.clean; infer_instance

/-- What the text format needs beyond delimiter-free strings to give `db`
back: no column name begins with an opening bracket; no list of member keys
ends in an empty key; a table holding records has a non-empty name and a
schema with at least one column; a record has no field besides the schema
columns, and its value for the first column does not begin with an opening
bracket. -/
def Database.reloadable (db : Database) : Prop :=
  (∀ s ∈ db.catalog_.schema_catalog.schemas, ∀ c ∈ s.columns, no_bracket c.name) ∧
  (∀ r ∈ db.catalog_.relationships, ∀ l ∈ r.owner.links, l.2.getLast? ≠ some ⟨[]⟩) ∧
  (∀ e ∈ db.tables_, ∀ schema ∈ find_schema db.catalog_.schema_catalog.schemas e.1,
      (e.2.records_ ≠ [] → e.1 ≠ [] ∧ schema.columns ≠ []) ∧
      ∀ r ∈ e.2.records_,
        (∀ k ∈ UMap.keys r.fields_, ∃ c ∈ schema.columns, c.name = k) ∧
        (∀ c ∈ schema.columns.head?, ∀ v ∈ UMap.find r.fields_ c.name, no_bracket v))

instance (db : Database) : Decidable db.reloadable := by
  unfold Database.reloadable; infer_instance

/-- The table of entry `e` as read back from its data section. -/
def reload_table (schemas : List TableSchema) (e : Str × DataTable) : DataTable :=
  match find_schema schemas e.1 with
  | some schema => ⟨e.2.records_.map (reloaded schema.columns)⟩
  | none => e.2

/-- The hypotheses of the round-trip property as the specification states it:
a table mapping, every table with a schema, every record populating the
schema columns, no delimiter character in names and values. -/
def round_trip_premises (db : Database) : Prop :=
  (UMap.keys db.tables_).Nodup ∧ tables_have_schema db ∧ records_complete db ∧ db.clean

instance (db : Database) : Decidable (round_trip_premises db) := by
  unfold round_trip_premises; infer_instance

/-- Invariant I1: every name of the table mapping has a same-named schema. -/
def holds_I1 (db : Database) : Prop :=
  ∀ n ∈ UMap.keys db.tables_, ∃ s ∈ db.catalog_.schema_catalog.schemas, s.name = n

instance (db : Database) : Decidable (holds_I1 db) := by
  unfold holds_I1; infer_instance

/-- Invariant I2: the owner and the member table name of every relationship
have a same-named schema. -/
def holds_I2 (db : Database) : Prop :=
  ∀ r ∈ db.catalog_.relationships,
    (∃ s ∈ db.catalog_.schema_catalog.schemas, s.name = r.owner.table_name) ∧
    (∃ s ∈ db.catalog_.schema_catalog.schemas, s.name = r.member.table_name)

instance (db : Database) : Decidable (holds_I2 db) := by
  unfold holds_I2; infer_instance

/-- The relationship name a line declares when it opens a relationship
section (`catalog.cpp` 180-182), `none` for any other line. -/
def declared_relationship (line : Str) : Option Str :=
  if starts_with line "[RELATIONSHIP:".toList = true then
    some (substr line 14 (size_t_sub line.length 15))
  else none

/-- Every record of every table of `tables` has a value for every column of
the first schema of `schemas` named like the table. -/
def schema_complete (schemas : List TableSchema) (tables : UMap DataTable) : Prop :=
  ∀ e ∈ tables, ∀ r ∈ e.2.records_,
    ∃ s, find_schema schemas e.1 = some s ∧ populates s.columns r

/-- The loader reads a non-empty line that does not begin with an opening
bracket as a data row in this state: no schema or relationship section is
open, a data table name is set and the header has been skipped, so control
reaches the record parsing of `catalog.cpp` 235-256. -/
def reading_rows (st : LoadState) : Prop :=
  st.current_schema = none ∧ st.current_rel = none ∧ st.current_data_table ≠ [] ∧
    st.data_header_processed = true

instance (st : LoadState) : Decidable (reading_rows st) := by
  unfold reading_rows; infer_instance

/-- The record made of the first values of `row`, one per column of `cols`,
set under the column names in order. -/
def row_record (cols : List ColumnMetadata) (row : Str) : TableRecord :=
  set_all TableRecord.empty cols ((getlines '\t' row).take cols.length)

/-- The table mapping after `rec` is appended to the table named `T`. -/
def with_record (tables : UMap DataTable) (T : Str) (rec : TableRecord) : UMap DataTable :=
  UMap.modify (UMap.emplace tables T DataTable.empty) T (fun tbl => tbl.insert_record rec)

/-- The records held under `T` in `tables`, in order; none when there is no
such table. -/
def stored_records (tables : UMap DataTable) (T : Str) : List TableRecord :=
  match UMap.find tables T with
  | some tbl => tbl.records_
  | none => []

/-! ## Sample data -/

/-- A schema with a single column. -/
def demo_schema (n : Str) : TableSchema := ⟨n, [⟨"id".toList, "int".toList⟩]⟩

/-- A relationship without links. -/
def demo_rel (n o m : Str) : RelationshipMetadata := ⟨n, ⟨o, []⟩, ⟨m, []⟩⟩

/-- Schemas `A` and `B`, a relationship between them, and a table `A` only. -/
def demo_db : Database :=
  ⟨⟨⟨[demo_schema "A".toList, demo_schema "B".toList]⟩,
    [demo_rel "AB".toList "A".toList "B".toList]⟩,
   [("A".toList, DataTable.empty)]⟩

/-- Schema `A` only; table `A` holds a record without fields, table `B` has no schema. -/
def partial_db : Database :=
  ⟨⟨⟨[demo_schema "A".toList]⟩, []⟩,
   [("A".toList, ⟨[TableRecord.empty]⟩), ("B".toList, DataTable.empty)]⟩

/-- Schema `A` only; tables `A` (empty) and `B`. -/
def orphan_db : Database :=
  ⟨⟨⟨[demo_schema "A".toList]⟩, []⟩,
   [("A".toList, DataTable.empty), ("B".toList, DataTable.empty)]⟩

/-- The schema `City{CT#, Name, Country}` of `populate_coffee_database`. -/
def city_schema : TableSchema :=
  ⟨"City".toList,
   [⟨"CT#".toList, "string".toList⟩, ⟨"Name".toList, "string".toList⟩,
    ⟨"Country".toList, "string".toList⟩]⟩

/-- The record `ct1` of `populate_coffee_database`. -/
def ct1 : TableRecord :=
  ((TableRecord.empty.set_field "CT#".toList "CT1".toList).set_field
    "Name".toList "Seattle".toList).set_field "Country".toList "USA".toList

/-- The relationship `company_hq` of `populate_coffee_database`. -/
def company_hq : RelationshipMetadata :=
  ⟨"CompanyHQ".toList,
   ⟨"Company".toList, [(⟨"C1".toList⟩, [⟨"CT1".toList⟩]), (⟨"C2".toList⟩, [⟨"CT2".toList⟩])]⟩,
   ⟨"City".toList, [[⟨"CT1".toList⟩], [⟨"CT2".toList⟩]]⟩⟩

/-- A database with the schema `City` and the table `City` holding `ct1`. -/
def city_db : Database :=
  ⟨⟨⟨[city_schema]⟩, []⟩, [("City".toList, ⟨[ct1]⟩)]⟩

/-- A schema `T` with the three columns `a`, `b`, `c`. -/
def abc_schema : TableSchema :=
  ⟨"T".toList,
   [⟨"a".toList, "int".toList⟩, ⟨"b".toList, "int".toList⟩, ⟨"c".toList, "int".toList⟩]⟩

/-- The record `ct2` of `populate_coffee_database`. -/
def ct2 : TableRecord :=
  ((TableRecord.empty.set_field "CT#".toList "CT2".toList).set_field
    "Name".toList "Oakland".toList).set_field "Country".toList "USA".toList

/-- The schema `Company{C#, Name, HQ}` of `populate_coffee_database`. -/
def company_schema : TableSchema :=
  ⟨"Company".toList,
   [⟨"C#".toList, "string".toList⟩, ⟨"Name".toList, "string".toList⟩,
    ⟨"HQ".toList, "string".toList⟩]⟩

/-- A company record. -/
def c1 : TableRecord :=
  ((TableRecord.empty.set_field "C#".toList "C1".toList).set_field
    "Name".toList "Starbucks".toList).set_field "HQ".toList "CT1".toList

/-- Part of the database of `populate_coffee_database`: the schemas `Company`
and `City`, the relationship `CompanyHQ`, and the two tables. -/
def coffee_db : Database :=
  ⟨⟨⟨[company_schema, city_schema]⟩, [company_hq]⟩,
   [("Company".toList, ⟨[c1]⟩), ("City".toList, ⟨[ct1, ct2]⟩)]⟩

/-- A schema whose column name begins with an opening bracket. -/
def bracket_db : Database :=
  ⟨⟨⟨[⟨"T".toList, [⟨"[x".toList, "int".toList⟩]⟩]⟩, []⟩, []⟩

/-- A table with the empty name, holding one record. -/
def unnamed_db : Database :=
  ⟨⟨⟨[⟨[], [⟨"a".toList, "int".toList⟩]⟩]⟩, []⟩,
   [([], ⟨[TableRecord.empty.set_field "a".toList "1".toList]⟩)]⟩

/-- A record with a field `b` that is not a schema column. -/
def extra_field_db : Database :=
  ⟨⟨⟨[⟨"T".toList, [⟨"a".toList, "int".toList⟩]⟩]⟩, []⟩,
   [("T".toList,
     ⟨[(TableRecord.empty.set_field "a".toList "1".toList).set_field "b".toList "2".toList]⟩)]⟩

/-- A link whose only member key is the empty string. -/
def empty_key_db : Database :=
  ⟨⟨⟨[]⟩, [⟨"R".toList, ⟨"A".toList, [(⟨"C1".toList⟩, [⟨[]⟩])]⟩, ⟨"B".toList, []⟩⟩]⟩, []⟩

/-- A relationship without links whose member table name holds a newline. -/
def newline_db : Database :=
  ⟨⟨⟨[]⟩, [⟨"R".toList, ⟨"A".toList, []⟩, ⟨"B\nLink:X:Y".toList, []⟩⟩]⟩, []⟩

/-- A schema without columns and a table holding one record. -/
def no_columns_db : Database :=
  ⟨⟨⟨[⟨"T".toList, []⟩]⟩, []⟩, [("T".toList, ⟨[TableRecord.empty]⟩)]⟩

/-- Schemas `A`, `B`, `C`, relationships `A-B` and `B-C`, tables `A`, `B`, `C`;
table `B` holds one record. -/
def three_db : Database :=
  ⟨⟨⟨[demo_schema "A".toList, demo_schema "B".toList, demo_schema "C".toList]⟩,
    [demo_rel "AB".toList "A".toList "B".toList, demo_rel "BC".toList "B".toList "C".toList]⟩,
   [("A".toList, DataTable.empty),
    ("B".toList, ⟨[TableRecord.empty.set_field "id".toList "1".toList]⟩),
    ("C".toList, DataTable.empty)]⟩

/-- A text with the relationship `CompanyHQ` only, its last section being
open when the input ends. -/
def hq_text : Str :=
  "[SCHEMA:Company]\nC#:string\n[RELATIONSHIP:CompanyHQ]\nOwner:Company\nMember:City\nLink:C1:CT1\n".toList

/-- The database loaded from `hq_text`. -/
def hq_db : Database :=
  ⟨⟨⟨[⟨"Company".toList, [⟨"C#".toList, "string".toList⟩]⟩]⟩,
    [⟨"CompanyHQ".toList, ⟨"Company".toList, [(⟨"C1".toList⟩, [⟨"CT1".toList⟩])]⟩,
      ⟨"City".toList, []⟩⟩]⟩, []⟩

/-- A text with two schema sections named `T` and a data section `T`. -/
def twice_text : Str :=
  "[SCHEMA:T]\na:int\n[SCHEMA:T]\na:int\nb:int\n[DATA:T]\na\t\n1\t2\t\n".toList

/-- The database loaded from `twice_text`. -/
def twice_db : Database :=
  ⟨⟨⟨[⟨"T".toList, [⟨"a".toList, "int".toList⟩]⟩,
      ⟨"T".toList, [⟨"a".toList, "int".toList⟩, ⟨"b".toList, "int".toList⟩]⟩]⟩, []⟩,
   [("T".toList, ⟨[TableRecord.empty.set_field "a".toList "1".toList]⟩)]⟩

/-- The loader state after the schema `T`, the header of its data section and
a first row `0`, `9`. -/
def row_state : LoadState :=
  LoadState.mk ⟨⟨[⟨"T".toList, [⟨"a".toList, "int".toList⟩, ⟨"b".toList, "int".toList⟩]⟩]⟩, []⟩
    [("T".toList, ⟨[(TableRecord.empty.set_field "a".toList "0".toList).set_field "b".toList "9".toList]⟩)]
    "[DATA:T]".toList none none "T".toList true

/-! # Theorems -/

/-! ## Maps -/

namespace UMap

variable {V : Type}

theorem find_eq_none_iff (m : UMap V) (k : Str) : m.find k = none ↔ k ∉ m.keys := by
  induction m with
  | nil => simp only [UMap.find, UMap.keys, List.map_nil, List.not_mem_nil, not_false_eq_true]
  | cons e rest ih =>
    obtain ⟨k', v⟩ := e
    simp only [UMap.keys, List.map_cons, List.mem_cons, not_or] at ih ⊢
    by_cases h : k' = k
    · simp only [UMap.find, h, if_true]
      constructor
      · intro h0; cases h0
      · intro h0; exact absurd trivial h0.1
    · have h' : ¬ k = k' := fun e => h e.symm
      simp only [UMap.find, h, if_false, ih, h', not_false_eq_true, true_and]

theorem find_assign_self (m : UMap V) (k : Str) (v : V) : (m.assign k v).find k = some v := by
  induction m with
  | nil => simp [assign, find]
  | cons e rest ih =>
    obtain ⟨k', v'⟩ := e
    by_cases h : k' = k
    · simp [assign, find, h]
    · simp [assign, find, h, ih]

theorem find_assign_ne (m : UMap V) (k k' : Str) (v : V) (h : k ≠ k') :
    (m.assign k v).find k' = m.find k' := by
  induction m with
  | nil => simp [assign, find, h]
  | cons e rest ih =>
    obtain ⟨k0, v0⟩ := e
    by_cases h0 : k0 = k
    · subst h0
      simp [assign, find, h]
    · by_cases h1 : k0 = k'
      · subst h1
        simp [assign, find, h0]
      · simp [assign, find, h0, h1, ih]

theorem keys_assign (m : UMap V) (k : Str) (v : V) (x : Str) :
    x ∈ (m.assign k v).keys ↔ x = k ∨ x ∈ m.keys := by
  rw [← not_iff_not, ← find_eq_none_iff, not_or, ← find_eq_none_iff]
  by_cases h : k = x
  · subst h
    simp [find_assign_self]
  · rw [find_assign_ne m k x v h]
    have : ¬ x = k := fun e => h e.symm
    simp [this]

theorem find_erase_self (m : UMap V) (k : Str) : (m.erase k).find k = none := by
  induction m with
  | nil => rfl
  | cons e rest ih =>
    obtain ⟨k', v⟩ := e
    by_cases h : k' = k
    · simpa [UMap.erase, List.filter_cons, h] using ih
    · simpa [UMap.erase, List.filter_cons, h, UMap.find] using ih

end UMap

theorem build_keys (calls : List (Str × Str)) (r : TableRecord) (x : Str) :
    x ∈ (calls.foldl (fun r c => r.set_field c.1 c.2) r).fields_.keys ↔
      x ∈ r.fields_.keys ∨ x ∈ calls.map Prod.fst := by
  induction calls generalizing r with
  | nil => simp
  | cons c rest ih =>
    rw [List.foldl_cons, ih]
    simp only [TableRecord.set_field, UMap.keys_assign, List.map_cons, List.mem_cons]
    tauto

theorem get_field_error_iff (r : TableRecord) (x : Str) :
    r.get_field x = .error .KeyNotFound ↔ x ∉ r.fields_.keys := by
  rw [← UMap.find_eq_none_iff]
  unfold TableRecord.get_field
  cases r.fields_.find x <;> simp

/-- C4. Field lookup: on a record built by any sequence of `set_field` calls,
`get_field X` fails with `KeyNotFound` exactly when no call set `X`; and after
`set_field X v` on any record, `get_field X` returns `v`. -/
theorem get_field_spec (calls : List (Str × Str)) (r : TableRecord) (X v : Str) :
    ((TableRecord.build calls).get_field X = .error .KeyNotFound ↔ X ∉ calls.map Prod.fst) ∧
    (r.set_field X v).get_field X = .ok v := by
  constructor
  · rw [get_field_error_iff, TableRecord.build, build_keys]
    simp [TableRecord.empty, UMap.keys]
  · simp [TableRecord.get_field, TableRecord.set_field, UMap.find_assign_self]

/-- C9, as the code has it: `get_record` returns the record at position `index`
for every `index < size()`, and for no table and no index does it fail with
`IndexOutOfRange`. -/
theorem get_record_spec (t : DataTable) (index : Nat) :
    (∀ h : index < t.size, t.get_record index = .ok (t.records_.get ⟨index, h⟩)) ∧
    t.get_record index ≠ .error .IndexOutOfRange := by
  constructor
  · intro h
    simp only [DataTable.size] at h
    simp [DataTable.get_record, List.getElem?_eq_getElem h]
  · unfold DataTable.get_record
    cases t.records_.get? index <;> simp

theorem get_record_spec_witness :
    (DataTable.mk [TableRecord.empty]).get_record 0 = .ok TableRecord.empty :=
  (get_record_spec (DataTable.mk [TableRecord.empty]) 0).1 (by decide)

/-- C9 fails on the code: on the empty table, index `0 >= size()`, yet
`get_record` does not fail with `IndexOutOfRange`: the access is unchecked. -/
theorem get_record_no_bounds_check :
    DataTable.empty.size ≤ 0 ∧
    DataTable.empty.get_record 0 ≠ .error .IndexOutOfRange ∧
    DataTable.empty.get_record 0 = .error .UncheckedAccess := by
  decide

/-- C2. Delete removes all three facets: for `T` a key of the table mapping,
`DeleteDS T` succeeds and afterwards no schema is named `T`, no relationship
has `T` as owner or member table, and the table mapping has no entry `T`. -/
theorem DeleteDS_removes_all (db : Database) (T : Str) (h : T ∈ db.tables_.keys) :
    (db.DeleteDS T).2 = .ok () ∧
    (∀ s ∈ (db.DeleteDS T).1.catalog_.schema_catalog.schemas, s.name ≠ T) ∧
    (∀ rel ∈ (db.DeleteDS T).1.catalog_.relationships,
      rel.owner.table_name ≠ T ∧ rel.member.table_name ≠ T) ∧
    (db.DeleteDS T).1.tables_.find T = none ∧
    T ∉ (db.DeleteDS T).1.tables_.keys := by
  have hf : ¬ db.tables_.find T = none := by
    rw [UMap.find_eq_none_iff]; exact fun h' => h' h
  simp only [Database.DeleteDS, hf, if_false]
  refine ⟨trivial, ?_, ?_, UMap.find_erase_self _ _, ?_⟩
  · intro s hs
    simpa using (List.mem_filter.mp hs).2
  · intro rel hrel
    simpa [not_or] using (List.mem_filter.mp hrel).2
  · rw [← UMap.find_eq_none_iff]; exact UMap.find_erase_self _ _

theorem DeleteDS_removes_all_witness :
    (demo_db.DeleteDS "A".toList).2 = .ok () ∧
    (∀ s ∈ (demo_db.DeleteDS "A".toList).1.catalog_.schema_catalog.schemas, s.name ≠ "A".toList) ∧
    (∀ rel ∈ (demo_db.DeleteDS "A".toList).1.catalog_.relationships,
      rel.owner.table_name ≠ "A".toList ∧ rel.member.table_name ≠ "A".toList) ∧
    (demo_db.DeleteDS "A".toList).1.tables_.find "A".toList = none ∧
    "A".toList ∉ (demo_db.DeleteDS "A".toList).1.tables_.keys :=
  DeleteDS_removes_all demo_db "A".toList (by decide)

/-- C3. Delete of an unknown name: when `T` is not a key of the table mapping,
`DeleteDS T` fails with `TableNotFound` and the database (schemas,
relationships and table mapping) is what it was, whatever the catalog says
about `T`. -/
theorem DeleteDS_unknown (db : Database) (T : Str) (h : T ∉ db.tables_.keys) :
    (db.DeleteDS T).2 = .error .TableNotFound ∧ (db.DeleteDS T).1 = db := by
  have hf : db.tables_.find T = none := (UMap.find_eq_none_iff _ _).mpr h
  simp [Database.DeleteDS, hf]

theorem DeleteDS_unknown_witness :
    "B".toList ∉ demo_db.tables_.keys ∧
    (∃ s ∈ demo_db.catalog_.schema_catalog.schemas, s.name = "B".toList) ∧
    (∃ rel ∈ demo_db.catalog_.relationships, rel.member.table_name = "B".toList) ∧
    (demo_db.DeleteDS "B".toList).2 = .error .TableNotFound ∧
    (demo_db.DeleteDS "B".toList).1 = demo_db :=
  ⟨by decide, by decide, by decide, DeleteDS_unknown demo_db "B".toList (by decide)⟩

/-! ## Writing -/

theorem get_field_of_mem (r : TableRecord) (x : Str) (h : x ∈ r.fields_.keys) :
    ∃ v, UMap.find r.fields_ x = some v ∧ r.get_field x = .ok v := by
  cases hf : UMap.find r.fields_ x with
  | none => exact absurd h ((UMap.find_eq_none_iff _ _).mp hf)
  | some v => exact ⟨v, rfl, by simp [TableRecord.get_field, hf]⟩

theorem write_header_names_eq (columns : List ColumnMetadata) :
    write_header_names columns = tab_terminated (columns.map (fun c => c.name)) := by
  induction columns with
  | nil => rfl
  | cons c rest ih => simp [write_header_names, tab_terminated, ih]

theorem write_fields_populated (columns : List ColumnMetadata) (r : TableRecord)
    (h : populates columns r) :
    write_fields columns r = (tab_terminated (row_values columns r), .ok ()) := by
  induction columns with
  | nil => rfl
  | cons c rest ih =>
    obtain ⟨v, hv, hg⟩ := get_field_of_mem r c.name (h c (List.mem_cons_self _ _))
    have ih' := ih (fun c' hc' => h c' (List.mem_cons_of_mem _ hc'))
    simp [write_fields, hg, ih', row_values, tab_terminated, hv] at *

theorem write_fields_outcome (columns : List ColumnMetadata) (r : TableRecord) :
    (write_fields columns r).2 = .ok () ∨ (write_fields columns r).2 = .error .KeyNotFound := by
  induction columns with
  | nil => exact Or.inl rfl
  | cons c rest ih =>
    unfold write_fields
    cases hf : UMap.find r.fields_ c.name with
    | none => simp [TableRecord.get_field, hf]
    | some v => simpa [TableRecord.get_field, hf] using ih

theorem write_records_populated (columns : List ColumnMetadata) (records : List TableRecord)
    (h : ∀ r ∈ records, populates columns r) :
    write_records columns records =
      (unlines (records.map (fun r => tab_terminated (row_values columns r))), .ok ()) := by
  induction records with
  | nil => rfl
  | cons r rest ih =>
    have ih' := ih (fun r' hr' => h r' (List.mem_cons_of_mem _ hr'))
    simp [write_records, write_fields_populated columns r (h r (List.mem_cons_self _ _)), ih',
      unlines]

theorem write_records_outcome (columns : List ColumnMetadata) (records : List TableRecord) :
    (write_records columns records).2 = .ok () ∨
      (write_records columns records).2 = .error .KeyNotFound := by
  induction records with
  | nil => exact Or.inl rfl
  | cons r rest ih =>
    unfold write_records
    rcases write_fields_outcome columns r with h | h
    · simpa [h] using ih
    · simp [h]

theorem write_tables_append (schemas : List TableSchema) (pre post : UMap DataTable)
    (h : (write_tables schemas pre).2 = .ok ()) :
    write_tables schemas (pre ++ post) =
      ((write_tables schemas pre).1 ++ (write_tables schemas post).1,
       (write_tables schemas post).2) := by
  induction pre with
  | nil => simp [write_tables]
  | cons e rest ih =>
    obtain ⟨n, t⟩ := e
    simp only [write_tables, List.cons_append] at h ⊢
    cases hs : find_schema schemas n with
    | none => simp [hs] at h
    | some schema =>
      simp only [hs] at h ⊢
      cases hw : (write_records schema.columns t.records_).2 with
      | error e => simp [hw] at h
      | ok u =>
        simp only [hw] at h ⊢
        simp [ih h]

theorem write_tables_outcome (schemas : List TableSchema) (tables : UMap DataTable) :
    (write_tables schemas tables).2 = .ok () ∨
    (write_tables schemas tables).2 = .error .KeyNotFound ∨
    (write_tables schemas tables).2 = .error .MissingSchema := by
  induction tables with
  | nil => exact Or.inl rfl
  | cons e rest ih =>
    obtain ⟨n, t⟩ := e
    simp only [write_tables]
    cases hs : find_schema schemas n with
    | none => simp
    | some schema =>
      rcases write_records_outcome schema.columns t.records_ with hw | hw
      · simpa [hw] using ih
      · simp [hw]


theorem write_tables_missing (schemas : List TableSchema) (tables : UMap DataTable) (name : Str)
    (hname : name ∈ tables.keys) (hnone : find_schema schemas name = none) :
    ((write_tables schemas tables).2 = .error .MissingSchema ∨
      (write_tables schemas tables).2 = .error .KeyNotFound) ∧
    ((∀ e ∈ tables, ∀ schema, find_schema schemas e.1 = some schema →
        ∀ r ∈ e.2.records_, populates schema.columns r) →
      (write_tables schemas tables).2 = .error .MissingSchema) := by
  induction tables with
  | nil => simp only [UMap.keys, List.map_nil, List.not_mem_nil] at hname
  | cons e rest ih =>
    obtain ⟨n, t⟩ := e
    simp only [write_tables]
    cases hs : find_schema schemas n with
    | none => simp
    | some schema =>
      have hne : name ≠ n := by
        intro h; subst h; rw [hs] at hnone; cases hnone
      have hname' : name ∈ UMap.keys rest := by
        simp only [UMap.keys, List.map_cons, List.mem_cons] at hname ⊢
        rcases hname with h | h
        · exact absurd h hne
        · exact h
      obtain ⟨ih1, ih2⟩ := ih hname'
      constructor
      · rcases write_records_outcome schema.columns t.records_ with hw | hw
        · simpa [hw] using ih1
        · simp [hw]
      · intro hall
        have hw := write_records_populated schema.columns t.records_
          (hall (n, t) (List.mem_cons_self _ _) schema hs)
        simp only [hw]
        exact ih2 (fun e he => hall e (List.mem_cons_of_mem _ he))

/-- C10, as the code has it: when the table mapping contains a name without a
same-named schema, `save_to_file` (the file opening successfully) does not
complete; it fails with `MissingSchema` or `KeyNotFound`, and with
`MissingSchema` whenever every record of the tables that do have a schema
populates every column of that schema. -/
theorem save_table_without_schema (db : Database) (name : Str)
    (hname : name ∈ db.tables_.keys)
    (hnone : find_schema db.catalog_.schema_catalog.schemas name = none) :
    ((db.save_to_file true).2 = .error .MissingSchema ∨
      (db.save_to_file true).2 = .error .KeyNotFound) ∧
    (records_complete db → (db.save_to_file true).2 = .error .MissingSchema) := by
  simpa [Database.save_to_file, records_complete] using
    write_tables_missing db.catalog_.schema_catalog.schemas db.tables_ name hname hnone


theorem save_table_without_schema_witness :
    (orphan_db.save_to_file true).2 = .error .MissingSchema :=
  (save_table_without_schema orphan_db "B".toList (by decide) (by decide)).2
    (by
      intro e he schema hs r hr
      simp only [orphan_db, List.mem_cons, List.mem_singleton, List.not_mem_nil, or_false] at he
      rcases he with rfl | rfl <;> simp [DataTable.empty] at hr)

/-- C10 fails on the code: table `B` has no schema, yet the save fails with
`KeyNotFound`, raised by the record of table `A` that is written first. -/
theorem save_without_schema_key_not_found :
    "B".toList ∈ partial_db.tables_.keys ∧
    find_schema partial_db.catalog_.schema_catalog.schemas "B".toList = none ∧
    (partial_db.save_to_file true).2 = .error .KeyNotFound ∧
    (partial_db.save_to_file true).2 ≠ .error .MissingSchema := by
  decide

/-! ## Streams -/

theorem getlines_eq_getline (d : Char) (s : Str) :
    getlines d s =
      match getline d s with
      | none => []
      | some (x, rest) => x :: getlines d rest := by
  induction s with
  | nil => rfl
  | cons c cs ih =>
    by_cases h : c = d
    · simp [getlines, getline, h, List.takeWhile, List.dropWhile]
    · rw [getlines, if_neg h, ih]
      cases cs with
      | nil => simp [getline, getlines, h, List.takeWhile, List.dropWhile]
      | cons c2 cs2 =>
        simp [getline, h, List.takeWhile_cons, List.dropWhile_cons]

theorem getlines_append_delim (d : Char) (l rest : Str) (h : d ∉ l) :
    getlines d (l ++ d :: rest) = l :: getlines d rest := by
  induction l with
  | nil => simp [getlines]
  | cons c cs ih =>
    have hc : c ≠ d := fun e => h (e ▸ List.mem_cons_self _ _)
    have hcs : d ∉ cs := fun e => h (List.mem_cons_of_mem _ e)
    simp [getlines, hc, ih hcs]

theorem getlines_no_delim (d : Char) (l : Str) (h : d ∉ l) (hl : l ≠ []) :
    getlines d l = [l] := by
  induction l with
  | nil => exact absurd rfl hl
  | cons c cs ih =>
    have hc : c ≠ d := fun e => h (e ▸ List.mem_cons_self _ _)
    have hcs : d ∉ cs := fun e => h (List.mem_cons_of_mem _ e)
    cases cs with
    | nil => simp [getlines, hc]
    | cons c2 cs2 => rw [getlines, if_neg hc, ih hcs (List.cons_ne_nil _ _)]

theorem getlines_unlines (ls : List Str) (h : ∀ l ∈ ls, '\n' ∉ l) :
    getlines '\n' (unlines ls) = ls := by
  induction ls with
  | nil => rfl
  | cons l rest ih =>
    have : unlines (l :: rest) = l ++ '\n' :: unlines rest := by simp [unlines]
    rw [this, getlines_append_delim _ _ _ (h l (List.mem_cons_self _ _)),
      ih (fun l' hl' => h l' (List.mem_cons_of_mem _ hl'))]

theorem getline_append_delim (d : Char) (l rest : Str) (h : d ∉ l) :
    getline d (l ++ d :: rest) = some (l, rest) := by
  have htake : ∀ l : Str, d ∉ l →
      (l ++ d :: rest).takeWhile (fun c => !decide (c = d)) = l ∧
      (l ++ d :: rest).dropWhile (fun c => !decide (c = d)) = d :: rest := by
    intro l
    induction l with
    | nil => intro _; simp [List.takeWhile, List.dropWhile]
    | cons c cs ih =>
      intro h
      have hc : c ≠ d := fun e => h (e ▸ List.mem_cons_self _ _)
      have hcs : d ∉ cs := fun e => h (List.mem_cons_of_mem _ e)
      simp [List.takeWhile_cons, List.dropWhile_cons, hc, ih hcs]
  obtain ⟨h1, h2⟩ := htake l h
  cases l with
  | nil => simp [getline, List.takeWhile, List.dropWhile]
  | cons c cs =>
    simp only [List.cons_append] at h1 h2 ⊢
    simp only [getline, h1, h2, List.drop_succ_cons, List.drop_zero]

/-- C7, as the code has it: for a table `name` with matching schema, written
after tables `pre` that were saved without failure, and whose records populate
the schema columns, `save_to_file` writes the line `[DATA:<name>]`, then a
header line made of the schema's column names each followed by a tab
character, then one line per record made of that record's values in schema
column order, each followed by a tab character. -/
theorem save_data_section (db : Database) (pre post : UMap DataTable) (name : Str)
    (tbl : DataTable) (schema : TableSchema)
    (htables : db.tables_ = pre ++ (name, tbl) :: post)
    (hschema : find_schema db.catalog_.schema_catalog.schemas name = some schema)
    (hpre : (write_tables db.catalog_.schema_catalog.schemas pre).2 = .ok ())
    (hrec : ∀ r ∈ tbl.records_, populates schema.columns r) :
    (db.save_to_file true).1 =
      write_schemas db.catalog_.schema_catalog.schemas ++
        write_relationships db.catalog_.relationships ++
        (write_tables db.catalog_.schema_catalog.schemas pre).1 ++
        unlines (("[DATA:".toList ++ name ++ "]".toList) ::
          tab_terminated (schema.columns.map (fun c => c.name)) ::
          tbl.records_.map (fun r => tab_terminated (row_values schema.columns r))) ++
        (write_tables db.catalog_.schema_catalog.schemas post).1 ∧
    ∀ r ∈ tbl.records_,
      List.Forall₂ (fun c v => r.get_field c.name = .ok v) schema.columns
        (row_values schema.columns r) := by
  constructor
  · simp only [Database.save_to_file, htables, Bool.not_true, Bool.false_eq_true, if_false]
    rw [write_tables_append _ _ _ hpre]
    simp only [write_tables, hschema, write_records_populated _ _ hrec, write_header,
      write_header_names_eq, unlines, List.map_cons, List.flatten_cons]
    have e1 : "]\n".toList = "]".toList ++ ['\n'] := rfl
    have e2 : "\n".toList = ['\n'] := rfl
    simp only [e1, e2, List.append_assoc]
  · intro r hr
    have hp : populates schema.columns r := hrec r hr
    clear hrec hr htables hschema hpre
    generalize schema.columns = cols at hp
    induction cols with
    | nil => exact List.Forall₂.nil
    | cons c rest ih =>
      obtain ⟨v, hv, hg⟩ := get_field_of_mem r c.name (hp c (List.mem_cons_self _ _))
      have ih' := ih (fun c' hc' => hp c' (List.mem_cons_of_mem _ hc'))
      simp only [row_values, List.filterMap_cons, hv]
      exact List.Forall₂.cons hg ih'

theorem save_data_section_witness :
    (city_db.save_to_file true).1 =
      write_schemas [city_schema] ++ write_relationships [] ++ (write_tables [city_schema] []).1 ++
        unlines ["[DATA:City]".toList, "CT#\tName\tCountry\t".toList,
          "CT1\tSeattle\tUSA\t".toList] ++ (write_tables [city_schema] []).1 :=
  (save_data_section city_db [] [] "City".toList ⟨[ct1]⟩ city_schema rfl rfl rfl
    (by
      intro r hr c hc
      simp only [List.mem_singleton] at hr
      subst hr
      revert c hc
      decide)).1

/-- C7 fails on the code: for the schema `City{CT#, Name, Country}` and the
record `{CT1, Seattle, USA}`, the header and the row that are written end in
a tab character; they are not the names, respectively the values, joined by
single tabs. -/
theorem save_city_trailing_tab :
    getlines '\n' (city_db.save_to_file true).1 =
      ["[SCHEMA:City]".toList, "CT#:string".toList, "Name:string".toList,
       "Country:string".toList, "[DATA:City]".toList,
       "CT#\tName\tCountry\t".toList, "CT1\tSeattle\tUSA\t".toList] ∧
    "CT#\tName\tCountry\t".toList ≠
      tab_joined ["CT#".toList, "Name".toList, "Country".toList] ∧
    "CT1\tSeattle\tUSA\t".toList ≠
      tab_joined ["CT1".toList, "Seattle".toList, "USA".toList] ∧
    tab_joined ["CT#".toList, "Name".toList, "Country".toList] = "CT#\tName\tCountry".toList := by
  decide

/-! ## Reading: single lines -/

theorem size_t_sub_add (a b : Nat) : size_t_sub (b + a) b = a := by
  simp [size_t_sub]

theorem substr_section_name (tag name : Str) (n : Nat) (hn : tag.length = n) :
    substr (tag ++ name ++ "]".toList) n
      (size_t_sub (tag ++ name ++ "]".toList).length (n + 1)) = name := by
  have hlen : (tag ++ name ++ "]".toList).length = (n + 1) + name.length := by
    have : "]".toList.length = 1 := rfl
    simp only [List.length_append, hn, this]; omega
  rw [hlen, size_t_sub_add, substr, List.append_assoc, ← hn, List.drop_left,
    List.take_left]

theorem starts_with_second (a b c : Char) (s p : Str) (h : c ≠ b) :
    starts_with (a :: b :: s) (a :: c :: p) = false := by
  simp [starts_with, List.isPrefixOf, h]

theorem starts_with_first (b c : Char) (s p : Str) (h : c ≠ b) :
    starts_with (b :: s) (c :: p) = false := by
  simp [starts_with, List.isPrefixOf, h]

theorem step_section (st : LoadState) (rest : Str) :
    step st ('[' :: rest) = .ok (section_line st ('[' :: rest)) := by
  simp [step]

theorem section_line_schema (st : LoadState) (name : Str) :
    section_line st ("[SCHEMA:".toList ++ name ++ "]".toList) =
      { catalog := finalize st.catalog st.current_schema st.current_rel
        tables := st.tables
        current_section := "[SCHEMA:".toList ++ name ++ "]".toList
        current_schema := some ⟨name, []⟩
        current_rel := none
        current_data_table := []
        data_header_processed := false } := by
  have hs : starts_with ("[SCHEMA:".toList ++ name ++ "]".toList) "[SCHEMA:".toList = true := by
    simp [starts_with, List.append_assoc]
  simp only [section_line, hs, if_true]
  rw [substr_section_name "[SCHEMA:".toList name 8 rfl]

theorem section_line_relationship (st : LoadState) (name : Str) :
    section_line st ("[RELATIONSHIP:".toList ++ name ++ "]".toList) =
      { catalog := finalize st.catalog st.current_schema st.current_rel
        tables := st.tables
        current_section := "[RELATIONSHIP:".toList ++ name ++ "]".toList
        current_schema := none
        current_rel := some ⟨name, ⟨[], []⟩, ⟨[], []⟩⟩
        current_data_table := []
        data_header_processed := false } := by
  have hs : starts_with ("[RELATIONSHIP:".toList ++ name ++ "]".toList) "[SCHEMA:".toList
      = false := by
    have : "[RELATIONSHIP:".toList = '[' :: 'R' :: "ELATIONSHIP:".toList := rfl
    have h2 : "[SCHEMA:".toList = '[' :: 'S' :: "CHEMA:".toList := rfl
    rw [this, h2, List.cons_append, List.cons_append, List.cons_append, List.cons_append]
    exact starts_with_second _ _ _ _ _ (by decide)
  have hr : starts_with ("[RELATIONSHIP:".toList ++ name ++ "]".toList)
      "[RELATIONSHIP:".toList = true := by
    simp [starts_with, List.append_assoc]
  simp only [section_line, hs, hr, if_true, if_false, Bool.false_eq_true]
  rw [substr_section_name "[RELATIONSHIP:".toList name 14 rfl]

theorem section_line_data (st : LoadState) (name : Str) :
    section_line st ("[DATA:".toList ++ name ++ "]".toList) =
      { catalog := finalize st.catalog st.current_schema st.current_rel
        tables := st.tables.emplace name DataTable.empty
        current_section := "[DATA:".toList ++ name ++ "]".toList
        current_schema := none
        current_rel := none
        current_data_table := name
        data_header_processed := false } := by
  have hs : starts_with ("[DATA:".toList ++ name ++ "]".toList) "[SCHEMA:".toList = false := by
    have : "[DATA:".toList = '[' :: 'D' :: "ATA:".toList := rfl
    have h2 : "[SCHEMA:".toList = '[' :: 'S' :: "CHEMA:".toList := rfl
    rw [this, h2, List.cons_append, List.cons_append, List.cons_append, List.cons_append]
    exact starts_with_second _ _ _ _ _ (by decide)
  have hr : starts_with ("[DATA:".toList ++ name ++ "]".toList) "[RELATIONSHIP:".toList
      = false := by
    have : "[DATA:".toList = '[' :: 'D' :: "ATA:".toList := rfl
    have h2 : "[RELATIONSHIP:".toList = '[' :: 'R' :: "ELATIONSHIP:".toList := rfl
    rw [this, h2, List.cons_append, List.cons_append, List.cons_append, List.cons_append]
    exact starts_with_second _ _ _ _ _ (by decide)
  have hd : starts_with ("[DATA:".toList ++ name ++ "]".toList) "[DATA:".toList = true := by
    simp [starts_with, List.append_assoc]
  simp only [section_line, hs, hr, hd, if_true, if_false, Bool.false_eq_true]
  rw [substr_section_name "[DATA:".toList name 6 rfl]

theorem step_in_schema (st : LoadState) (schema : TableSchema) (line : Str)
    (hs : st.current_schema = some schema) (h1 : line ≠ []) (h2 : line.head? ≠ some '[') :
    step st line = .ok { st with current_schema := some (schema_line schema line) } := by
  simp [step, h1, h2, hs]

theorem step_in_relationship (st : LoadState) (rel : RelationshipMetadata) (line : Str)
    (hs : st.current_schema = none) (hr : st.current_rel = some rel)
    (h1 : line ≠ []) (h2 : line.head? ≠ some '[') :
    step st line = .ok { st with current_rel := some (relationship_line rel line) } := by
  simp [step, h1, h2, hs, hr]

theorem step_in_data (st : LoadState) (line : Str)
    (hs : st.current_schema = none) (hr : st.current_rel = none)
    (hd : st.current_data_table ≠ []) (h1 : line ≠ []) (h2 : line.head? ≠ some '[') :
    step st line = data_line st line := by
  simp [step, h1, h2, hs, hr, hd]

theorem step_outside (st : LoadState) (line : Str)
    (hs : st.current_schema = none) (hr : st.current_rel = none)
    (hd : st.current_data_table = []) (h2 : line.head? ≠ some '[') :
    step st line = .ok st := by
  by_cases h1 : line = []
  · simp [step, h1]
  · simp [step, h1, h2, hs, hr, hd]

theorem find_char_append (c : Char) (l rest : Str) (h : c ∉ l) :
    find_char c (l ++ c :: rest) = some l.length := by
  induction l with
  | nil => simp [find_char]
  | cons x xs ih =>
    have hx : x ≠ c := fun e => h (e ▸ List.mem_cons_self _ _)
    have hxs : c ∉ xs := fun e => h (List.mem_cons_of_mem _ e)
    simp [find_char, hx, ih hxs]

theorem schema_line_column (schema : TableSchema) (c : ColumnMetadata) (h : ':' ∉ c.name) :
    schema_line schema (c.name ++ ":".toList ++ c.type) =
      { schema with columns := schema.columns ++ [c] } := by
  have e : c.name ++ ":".toList ++ c.type = c.name ++ ':' :: c.type := by
    simp [List.append_assoc]
  rw [e]
  simp only [schema_line, find_char_append ':' c.name c.type h, substr, substr_from,
    List.drop_zero, List.take_left]
  have : List.drop (c.name.length + 1) (c.name ++ ':' :: c.type) = c.type := by
    rw [List.drop_append_eq_append_drop]
    simp
  rw [this]

/-! ## Reading: the loop -/

theorem run_append (st : LoadState) (a b : List Str) :
    run st (a ++ b) =
      match run st a with
      | .error e => .error e
      | .ok st' => run st' b := by
  induction a generalizing st with
  | nil => rfl
  | cons l rest ih =>
    simp only [List.cons_append, run]
    cases step st l with
    | error e => rfl
    | ok st1 => exact ih st1

theorem run_nonempty_lines (st : LoadState) (ls : List Str) :
    run st (nonempty_lines ls) = run st ls := by
  induction ls generalizing st with
  | nil => rfl
  | cons l rest ih =>
    by_cases h : l = []
    · subst h
      simp [run, step, ih, nonempty_lines]
    · simp only [nonempty_lines, h, if_false, run]
      cases step st l with
      | error e => rfl
      | ok st1 => exact ih st1

theorem mem_nonempty_lines (ls : List Str) (l : Str) (h : l ∈ nonempty_lines ls) : l ≠ [] := by
  induction ls with
  | nil => simp [nonempty_lines] at h
  | cons x rest ih =>
    by_cases hx : x = []
    · simp only [nonempty_lines, hx, if_true] at h
      exact ih h
    · simp only [nonempty_lines, hx, if_false, List.mem_cons] at h
      rcases h with h | h
      · exact h ▸ hx
      · exact ih h

theorem load_eq_run (text : Str) :
    Database.load_from_file (some text) =
      match run LoadState.init (nonempty_lines (getlines '\n' text)) with
      | .error e => .error e
      | .ok st => .ok (build_database st.result_catalog st.tables) := by
  unfold Database.load_from_file
  simp only [run_nonempty_lines, LoadState.result_catalog]

theorem parse_record_short (cols : List ColumnMetadata) (iss : Str) (rec : TableRecord)
    (h : (getlines '\t' iss).length < cols.length) :
    parse_record cols iss rec = .error .MalformedRow := by
  induction cols generalizing iss rec with
  | nil => simp at h
  | cons c rest ih =>
    rw [getlines_eq_getline] at h
    unfold parse_record
    cases hg : getline '\t' iss with
    | none => rfl
    | some p =>
      obtain ⟨v, iss'⟩ := p
      rw [hg] at h
      simp only [List.length_cons, Nat.add_lt_add_iff_right] at h
      exact ih iss' _ h

theorem parse_record_enough (cols : List ColumnMetadata) (iss : Str) (rec : TableRecord)
    (h : cols.length ≤ (getlines '\t' iss).length) :
    ∃ r, parse_record cols iss rec = .ok r := by
  induction cols generalizing iss rec with
  | nil => exact ⟨rec, rfl⟩
  | cons c rest ih =>
    rw [getlines_eq_getline] at h
    unfold parse_record
    cases hg : getline '\t' iss with
    | none => rw [hg] at h; simp at h
    | some p =>
      obtain ⟨v, iss'⟩ := p
      rw [hg] at h
      simp only [List.length_cons, Nat.add_le_add_iff_right] at h
      exact ih iss' _ h

theorem data_line_header (st : LoadState) (line : Str) (h : st.data_header_processed = false) :
    data_line st line =
      .ok { st with tables := st.tables.emplace st.current_data_table DataTable.empty,
                    data_header_processed := true } := by
  simp [data_line, h]

theorem data_line_missing (st : LoadState) (line : Str) (h : st.data_header_processed = true)
    (hs : find_schema st.catalog.schema_catalog.schemas st.current_data_table = none) :
    data_line st line = .error .MissingSchema := by
  simp [data_line, h, hs]

theorem data_line_row (st : LoadState) (line : Str) (schema : TableSchema)
    (h : st.data_header_processed = true)
    (hs : find_schema st.catalog.schema_catalog.schemas st.current_data_table = some schema) :
    data_line st line =
      match parse_record schema.columns line TableRecord.empty with
      | .error e => .error e
      | .ok rec =>
        let tables := st.tables.emplace st.current_data_table DataTable.empty
        .ok { st with tables :=
                tables.modify st.current_data_table (fun tbl => tbl.insert_record rec) } := by
  cases hp : parse_record schema.columns line TableRecord.empty <;>
    simp [data_line, h, hs, hp]


theorem run_rows (T : Str) (catalog : SystemCatalog) (schema : TableSchema)
    (hT : T ≠ []) (hs : find_schema catalog.schema_catalog.schemas T = some schema)
    (rows : List Str) (hrows : ∀ l ∈ rows, l ≠ [] ∧ l.head? ≠ some '[')
    (st : LoadState) (hst : in_rows st T catalog) :
    run st rows = .error .MalformedRow ∨ ∃ st', run st rows = .ok st' ∧ in_rows st' T catalog := by
  induction rows generalizing st with
  | nil => exact Or.inr ⟨st, rfl, hst⟩
  | cons l rest ih =>
    obtain ⟨h1, h2⟩ := hrows l (List.mem_cons_self _ _)
    obtain ⟨hc, hsch, hrel, hd, hh⟩ := hst
    have hstep : step st l = _ := step_in_data st l hsch hrel (hd ▸ hT) h1 h2
    rw [data_line_row st l schema hh (by rw [hc, hd]; exact hs)] at hstep
    by_cases hlen : schema.columns.length ≤ (getlines '\t' l).length
    · obtain ⟨r, hr⟩ := parse_record_enough schema.columns l TableRecord.empty hlen
      rw [hr] at hstep
      simp only [run, hstep]
      exact ih (fun l' hl' => hrows l' (List.mem_cons_of_mem _ hl')) _
        ⟨hc, hsch, hrel, hd, hh⟩
    · rw [parse_record_short schema.columns l TableRecord.empty (Nat.lt_of_not_le hlen)] at hstep
      simp only [run, hstep]
      exact Or.inl trivial

/-! ## Reading: failures -/

theorem parse_record_error (cols : List ColumnMetadata) (iss : Str) (rec : TableRecord)
    (e : Error) (h : parse_record cols iss rec = .error e) : e = .MalformedRow := by
  induction cols generalizing iss rec with
  | nil => simp [parse_record] at h
  | cons c rest ih =>
    unfold parse_record at h
    cases hg : getline '\t' iss with
    | none => rw [hg] at h; simp at h; exact h.symm
    | some p =>
      obtain ⟨v, iss'⟩ := p
      rw [hg] at h
      exact ih iss' _ h

theorem data_line_error (st : LoadState) (line : Str) (e : Error)
    (h : data_line st line = .error e) : e = .MissingSchema ∨ e = .MalformedRow := by
  unfold data_line at h
  by_cases hh : st.data_header_processed = true
  · simp only [hh, Bool.not_true, Bool.false_eq_true, if_false] at h
    cases hs : find_schema st.catalog.schema_catalog.schemas st.current_data_table with
    | none => rw [hs] at h; simp at h; exact Or.inl h.symm
    | some schema =>
      simp only [hs] at h
      cases hp : parse_record schema.columns line TableRecord.empty with
      | error e' =>
        simp only [hp, Except.error.injEq] at h
        exact Or.inr (h ▸ parse_record_error _ _ _ _ hp)
      | ok r => simp [hp] at h
  · simp [hh] at h

theorem step_error (st : LoadState) (line : Str) (e : Error)
    (h : step st line = .error e) : e = .MissingSchema ∨ e = .MalformedRow := by
  unfold step at h
  by_cases h1 : line = []
  · simp [h1] at h
  · by_cases h2 : line.head? = some '['
    · simp [h1, h2] at h
    · simp only [h1, h2, if_false] at h
      cases hs : st.current_schema with
      | some s => rw [hs] at h; simp at h
      | none =>
        rw [hs] at h
        cases hr : st.current_rel with
        | some r => rw [hr] at h; simp at h
        | none =>
          rw [hr] at h
          by_cases hd : st.current_data_table = []
          · simp [hd] at h
          · simp only [ne_eq, hd, not_false_eq_true, if_true] at h
            exact data_line_error st line e h

theorem run_error (st : LoadState) (ls : List Str) (e : Error)
    (h : run st ls = .error e) : e = .MissingSchema ∨ e = .MalformedRow := by
  induction ls generalizing st with
  | nil => simp [run] at h
  | cons l rest ih =>
    unfold run at h
    cases hs : step st l with
    | error e' =>
      rw [hs] at h
      simp at h
      exact h ▸ step_error st l e' hs
    | ok st1 => rw [hs] at h; exact ih st1 h

/-! ## Reading: the schema names in the catalog -/

theorem finalize_schemas (c : SystemCatalog) (cs : Option TableSchema)
    (cr : Option RelationshipMetadata) :
    (finalize c cs cr).schema_catalog.schemas = c.schema_catalog.schemas ++ cs.toList := by
  cases cs <;> cases cr <;>
    simp [finalize, SystemCatalog.add_schema, SystemCatalog.add_relationship]

theorem find_schema_none_iff (schemas : List TableSchema) (T : Str) :
    find_schema schemas T = none ↔ ∀ s ∈ schemas, s.name ≠ T := by
  induction schemas with
  | nil => simp [find_schema]
  | cons s rest ih =>
    by_cases h : s.name = T
    · simp [find_schema, h]
    · simp [find_schema, h, ih]

theorem schema_line_name (schema : TableSchema) (line : Str) :
    (schema_line schema line).name = schema.name := by
  unfold schema_line
  cases find_char ':' line <;> rfl

theorem data_line_catalog (st st' : LoadState) (line : Str) (h : data_line st line = .ok st') :
    st'.catalog = st.catalog ∧ st'.current_schema = st.current_schema ∧
      st'.current_rel = st.current_rel := by
  unfold data_line at h
  by_cases hh : st.data_header_processed = true
  · simp only [hh, Bool.not_true, Bool.false_eq_true, if_false] at h
    cases hs : find_schema st.catalog.schema_catalog.schemas st.current_data_table with
    | none => rw [hs] at h; simp at h
    | some schema =>
      simp only [hs] at h
      cases hp : parse_record schema.columns line TableRecord.empty with
      | error e' => simp [hp] at h
      | ok r =>
        simp only [hp, Except.ok.injEq] at h
        subst h
        exact ⟨rfl, rfl, rfl⟩
  · simp only [hh, Bool.not_false, if_true, Except.ok.injEq] at h
    subst h
    exact ⟨rfl, rfl, rfl⟩

theorem section_line_schemas (st : LoadState) (line : Str) (hb : line.head? = some '[') :
    (section_line st line).result_catalog.schema_catalog.schemas =
      st.result_catalog.schema_catalog.schemas ++
        (match declared_schema line with
         | some n => [⟨n, []⟩]
         | none => []) := by
  unfold section_line declared_schema LoadState.result_catalog
  simp only [hb, true_and]
  split_ifs <;> simp [finalize_schemas]

theorem step_schema_names (st st' : LoadState) (line : Str) (h : step st line = .ok st')
    (n : Str) (hn : ∃ s ∈ st'.result_catalog.schema_catalog.schemas, s.name = n) :
    (∃ s ∈ st.result_catalog.schema_catalog.schemas, s.name = n) ∨
      declared_schema line = some n := by
  unfold step at h
  by_cases h1 : line = []
  · simp only [h1, if_true, Except.ok.injEq] at h
    subst h
    exact Or.inl hn
  · by_cases h2 : line.head? = some '['
    · simp only [h1, h2, if_true, if_false, Except.ok.injEq] at h
      subst h
      obtain ⟨s, hs, hsn⟩ := hn
      rw [section_line_schemas st line h2, List.mem_append] at hs
      rcases hs with hs | hs
      · exact Or.inl ⟨s, hs, hsn⟩
      · cases hd : declared_schema line with
        | none => rw [hd] at hs; simp at hs
        | some m =>
          rw [hd] at hs
          simp only [List.mem_singleton] at hs
          subst hs
          exact Or.inr (by rw [← hsn])
    · simp only [h1, h2, if_false] at h
      left
      cases hs : st.current_schema with
      | some sch =>
        rw [hs] at h
        simp only [Except.ok.injEq] at h
        subst h
        obtain ⟨s, hmem, hsn⟩ := hn
        simp only [LoadState.result_catalog, finalize_schemas, hs, Option.toList_some,
          List.mem_append, List.mem_singleton] at hmem ⊢
        rcases hmem with hmem | hmem
        · exact ⟨s, Or.inl hmem, hsn⟩
        · exact ⟨sch, Or.inr rfl, by rw [← hsn, hmem, schema_line_name]⟩
      | none =>
        rw [hs] at h
        cases hr : st.current_rel with
        | some r =>
          rw [hr] at h
          simp only [Except.ok.injEq] at h
          subst h
          simpa [LoadState.result_catalog, finalize_schemas, hs] using hn
        | none =>
          rw [hr] at h
          by_cases hd : st.current_data_table = []
          · simp only [ne_eq, hd, not_true_eq_false, if_false, Except.ok.injEq] at h
            subst h
            exact hn
          · simp only [ne_eq, hd, not_false_eq_true, if_true] at h
            obtain ⟨e1, e2, e3⟩ := data_line_catalog st st' line h
            simpa [LoadState.result_catalog, e1, e2, e3] using hn

theorem run_schema_names (st st' : LoadState) (ls : List Str) (h : run st ls = .ok st')
    (n : Str) (hn : ∃ s ∈ st'.result_catalog.schema_catalog.schemas, s.name = n) :
    (∃ s ∈ st.result_catalog.schema_catalog.schemas, s.name = n) ∨
      ∃ l ∈ ls, declared_schema l = some n := by
  induction ls generalizing st with
  | nil =>
    simp only [run, Except.ok.injEq] at h
    subst h
    exact Or.inl hn
  | cons l rest ih =>
    unfold run at h
    cases hs : step st l with
    | error e => rw [hs] at h; simp at h
    | ok st1 =>
      rw [hs] at h
      rcases ih st1 h with h' | ⟨l', hl', hd⟩
      · rcases step_schema_names st st1 l hs n h' with h'' | h''
        · exact Or.inl h''
        · exact Or.inr ⟨l, List.mem_cons_self _ _, h''⟩
      · exact Or.inr ⟨l', List.mem_cons_of_mem _ hl', hd⟩

theorem getlines_length_le (d : Char) (s : Str) : (getlines d s).length ≤ s.count d + 1 := by
  induction s with
  | nil => simp [getlines]
  | cons c cs ih =>
    by_cases h : c = d
    · subst h
      simp only [getlines, if_true, List.length_cons, List.count_cons_self]
      omega
    · have hc : List.count d (c :: cs) = List.count d cs := by
        rw [List.count_cons_of_ne]; exact fun e => h e.symm
      rw [getlines, if_neg h, hc]
      cases hg : getlines d cs with
      | nil => simp
      | cons l ls => rw [hg] at ih; simpa using ih

theorem count_le_getlines_length (d : Char) (s : Str) : s.count d ≤ (getlines d s).length := by
  induction s with
  | nil => simp [getlines]
  | cons c cs ih =>
    by_cases h : c = d
    · subst h
      simp only [getlines, if_true, List.length_cons, List.count_cons_self]
      omega
    · have hc : List.count d (c :: cs) = List.count d cs := by
        rw [List.count_cons_of_ne]; exact fun e => h e.symm
      rw [getlines, if_neg h, hc]
      cases hg : getlines d cs with
      | nil =>
        rw [hg] at ih
        simp only [List.length_nil] at ih
        simp only [List.length_singleton]
        omega
      | cons l ls => rw [hg] at ih; simpa using ih

/-- State reached by the `[DATA:T]` line and the header line that follows. -/
theorem run_data_header (st : LoadState) (T hdr : Str) (hT : T ≠ [])
    (h1 : hdr ≠ []) (h2 : hdr.head? ≠ some '[') :
    ∃ st', run st [("[DATA:".toList ++ T ++ "]".toList), hdr] = .ok st' ∧
      in_rows st' T st.result_catalog := by
  have e : "[DATA:".toList ++ T ++ "]".toList = '[' :: ("DATA:".toList ++ T ++ "]".toList) := rfl
  have hstep1 : step st ("[DATA:".toList ++ T ++ "]".toList) =
      .ok (section_line st ("[DATA:".toList ++ T ++ "]".toList)) := by
    rw [e]; exact step_section st _
  rw [section_line_data] at hstep1
  simp only [run, hstep1]
  rw [step_in_data _ hdr rfl rfl hT h1 h2, data_line_header _ _ rfl]
  exact ⟨_, rfl, rfl, rfl, rfl, rfl, rfl⟩

/-- C6, as the code has it: when the non-empty lines of the input are `pre`,
then `[DATA:T]` with non-empty `T`, then a header line and a row (neither
beginning with an opening bracket), when no line of `pre` opens a schema
section named `T`, and when reading `pre` does not fail with `MalformedRow`,
then `load_from_file` fails with `MissingSchema`. -/
theorem load_missing_schema (text : Str) (pre post : List Str) (T hdr row : Str)
    (hlines : nonempty_lines (getlines '\n' text) =
      pre ++ ("[DATA:".toList ++ T ++ "]".toList) :: hdr :: row :: post)
    (hpre : run LoadState.init pre ≠ .error .MalformedRow)
    (hno : ∀ l ∈ pre, declared_schema l ≠ some T)
    (hT : T ≠ [])
    (hhdr : hdr.head? ≠ some '[') (hrow : row.head? ≠ some '[') :
    Database.load_from_file (some text) = .error .MissingSchema := by
  have hmem : ∀ l, l ∈ [hdr, row] → l ≠ [] := by
    intro l hl
    apply mem_nonempty_lines (getlines '\n' text)
    rw [hlines]
    simp only [List.mem_cons, List.mem_singleton, List.not_mem_nil, or_false] at hl
    rcases hl with rfl | rfl <;> simp
  have hh : hdr ≠ [] := hmem hdr (by simp)
  have hr : row ≠ [] := hmem row (by simp)
  rw [load_eq_run, hlines, run_append]
  cases hp : run LoadState.init pre with
  | error e =>
    rcases run_error _ _ _ hp with h | h
    · subst h; rfl
    · subst h; exact absurd hp hpre
  | ok st =>
    have hnone : find_schema st.result_catalog.schema_catalog.schemas T = none := by
      rw [find_schema_none_iff]
      intro s hs hn
      rcases run_schema_names _ _ _ hp T ⟨s, hs, hn⟩ with ⟨s0, hs0, _⟩ | ⟨l, hl, hd⟩
      · simp [LoadState.result_catalog, LoadState.init, finalize] at hs0
      · exact hno l hl hd
    obtain ⟨st1, hrun1, hc, hsch, hrel, hd, hproc⟩ := run_data_header st T hdr hT hh hhdr
    have : ("[DATA:".toList ++ T ++ "]".toList) :: hdr :: row :: post =
        [("[DATA:".toList ++ T ++ "]".toList), hdr] ++ row :: post := rfl
    simp only [this, run_append, hrun1]
    have hstep : step st1 row = .error .MissingSchema := by
      rw [step_in_data st1 row hsch hrel (hd ▸ hT) hr hrow]
      exact data_line_missing st1 row hproc (by rw [hc, hd]; exact hnone)
    simp only [run, hstep]

theorem load_missing_schema_witness :
    Database.load_from_file (some "[SCHEMA:U]\nid:int\n\n[DATA:T]\nid\n\n1\n".toList) =
      .error .MissingSchema :=
  load_missing_schema "[SCHEMA:U]\nid:int\n\n[DATA:T]\nid\n\n1\n".toList
    ["[SCHEMA:U]".toList, "id:int".toList] [] "T".toList "id".toList "1".toList
    (by decide) (by decide) (by decide) (by decide) (by decide) (by decide)

/-- C6 fails on the code: a `[DATA:T]` section without any `[SCHEMA:T]`
before it loads without failure when it has only a header line, and when it
has no line at all; the table `T` is then present and empty. The load also
succeeds for a data section with rows whose table name is empty, and it fails
with `MalformedRow` when an earlier section has a short row. -/
theorem load_data_without_rows_succeeds :
    Database.load_from_file (some "[DATA:T]\nid\n".toList) =
      .ok ⟨⟨⟨[]⟩, []⟩, [("T".toList, DataTable.empty)]⟩ ∧
    Database.load_from_file (some "[DATA:T]\n".toList) =
      .ok ⟨⟨⟨[]⟩, []⟩, [("T".toList, DataTable.empty)]⟩ ∧
    Database.load_from_file (some "[DATA:]\nid\n1\n".toList) =
      .ok ⟨⟨⟨[]⟩, []⟩, [([], DataTable.empty)]⟩ ∧
    Database.load_from_file
        (some "[SCHEMA:U]\na:x\nb:y\n[DATA:U]\nh\nv\n[DATA:T]\nid\n1\n".toList) =
      .error .MalformedRow := by
  decide

/-- C5, as the code has it: when the non-empty lines of the input are `pre`,
then `[DATA:T]` with non-empty `T`, a header line, rows `mid`, a row `row`
and further lines (header and rows not beginning with an opening bracket),
when reading `pre` succeeds and the first schema named `T` read from `pre` has
more columns than `getline` reads tab-separated fields from `row`, then
`load_from_file` fails with `MalformedRow` and returns no database. -/
theorem load_malformed_row (text : Str) (pre mid post : List Str) (T hdr row : Str)
    (st : LoadState) (schema : TableSchema)
    (hlines : nonempty_lines (getlines '\n' text) =
      pre ++ ("[DATA:".toList ++ T ++ "]".toList) :: hdr :: (mid ++ row :: post))
    (hpre : run LoadState.init pre = .ok st)
    (hschema : find_schema st.result_catalog.schema_catalog.schemas T = some schema)
    (hT : T ≠ [])
    (hhdr : hdr.head? ≠ some '[')
    (hmid : ∀ l ∈ mid, l.head? ≠ some '[')
    (hrow : row.head? ≠ some '[')
    (hfew : (getlines '\t' row).length < schema.columns.length) :
    Database.load_from_file (some text) = .error .MalformedRow := by
  have hmem : ∀ l, l ∈ hdr :: (mid ++ [row]) → l ≠ [] := by
    intro l hl
    apply mem_nonempty_lines (getlines '\n' text)
    rw [hlines]
    simp only [List.mem_cons, List.mem_append, List.mem_singleton, List.not_mem_nil,
      or_false] at hl ⊢
    tauto
  have hh : hdr ≠ [] := hmem hdr (by simp)
  have hr : row ≠ [] := hmem row (by simp)
  rw [load_eq_run, hlines, run_append, hpre]
  obtain ⟨st1, hrun1, hst1⟩ := run_data_header st T hdr hT hh hhdr
  have : ("[DATA:".toList ++ T ++ "]".toList) :: hdr :: (mid ++ row :: post) =
      [("[DATA:".toList ++ T ++ "]".toList), hdr] ++ (mid ++ row :: post) := rfl
  simp only [this, run_append, hrun1]
  rcases run_rows T st.result_catalog schema hT hschema mid
      (fun l hl => ⟨hmem l (by simp [hl]), hmid l hl⟩) st1 hst1 with hm | ⟨st2, hm, hst2⟩
  · simp only [hm]
  · obtain ⟨hc, hsch, hrel, hd, hproc⟩ := hst2
    have hstep : step st2 row = .error .MalformedRow := by
      rw [step_in_data st2 row hsch hrel (hd ▸ hT) hr hrow,
        data_line_row st2 row schema hproc (by rw [hc, hd]; exact hschema),
        parse_record_short _ _ _ hfew]
    simp only [hm, run, hstep]

theorem load_malformed_row_witness :
    Database.load_from_file
        (some "[SCHEMA:T]\na:int\nb:int\nc:int\n[DATA:T]\na\tb\tc\t\n1\t2\t3\t\n4\t5\n".toList) =
      .error .MalformedRow :=
  load_malformed_row
    "[SCHEMA:T]\na:int\nb:int\nc:int\n[DATA:T]\na\tb\tc\t\n1\t2\t3\t\n4\t5\n".toList
    ["[SCHEMA:T]".toList, "a:int".toList, "b:int".toList, "c:int".toList]
    ["1\t2\t3\t".toList] [] "T".toList "a\tb\tc\t".toList "4\t5".toList
    (LoadState.mk ⟨⟨[]⟩, []⟩ [] "[SCHEMA:T]".toList (some abc_schema) none [] false)
    abc_schema
    (by decide) (by decide) (by decide) (by decide) (by decide) (by decide) (by decide)
    (by decide)

/-- C5 fails on the code: (1) with the empty table name, the rows of the data
section are skipped and the load succeeds; (2) a row of an earlier data
section without schema makes the load fail with `MissingSchema` before the
short row is read; (3) with two schemas named `T`, the first one, of one
column, decides, and the row of two fields is accepted. -/
theorem load_short_row_not_rejected :
    Database.load_from_file (some "[SCHEMA:]\na:x\nb:y\nc:z\n[DATA:]\nh\nv1\tv2\n".toList) =
      .ok ⟨⟨⟨[⟨[], [⟨"a".toList, "x".toList⟩, ⟨"b".toList, "y".toList⟩,
                     ⟨"c".toList, "z".toList⟩]⟩]⟩, []⟩,
           [([], DataTable.empty)]⟩ ∧
    Database.load_from_file
        (some "[DATA:U]\nh\nu\n[SCHEMA:T]\na:x\nb:y\nc:z\n[DATA:T]\nh\nv1\tv2\n".toList) =
      .error .MissingSchema ∧
    (∃ db, Database.load_from_file
        (some "[SCHEMA:T]\na:x\n[SCHEMA:T]\na:x\nb:y\nc:z\n[DATA:T]\nh\nv1\tv2\n".toList) =
      .ok db) := by
  refine ⟨by decide, by decide, ⟨_, rfl⟩⟩

/-! ## Writing: the text as a list of lines -/

theorem unlines_cons (l : Str) (ls : List Str) : unlines (l :: ls) = l ++ '\n' :: unlines ls := by
  simp [unlines]

theorem unlines_append (a b : List Str) : unlines (a ++ b) = unlines a ++ unlines b := by
  simp [unlines]

theorem write_columns_eq (cols : List ColumnMetadata) :
    write_columns cols = unlines (cols.map (fun c => c.name ++ ":".toList ++ c.type)) := by
  induction cols with
  | nil => rfl
  | cons c rest ih =>
    have e : "\n".toList = ['\n'] := rfl
    simp [write_columns, ih, unlines_cons, e]

theorem write_schemas_eq (schemas : List TableSchema) :
    write_schemas schemas = unlines (schemas.flatMap schema_lines) := by
  induction schemas with
  | nil => rfl
  | cons s rest ih =>
    have e : "]\n".toList = "]".toList ++ ['\n'] := rfl
    simp [write_schemas, ih, schema_lines, unlines_cons, unlines_append, write_columns_eq, e]

theorem write_member_refs_eq (refs : List RecordReference) :
    write_member_refs refs = List.intercalate [','] (refs.map (fun m => m.key_value)) := by
  induction refs with
  | nil => rfl
  | cons r rest ih =>
    cases rest with
    | nil => simp [write_member_refs, List.intercalate]
    | cons r2 rest2 =>
      have e : ",".toList = [','] := rfl
      rw [write_member_refs, ih, e]
      simp [List.intercalate, List.intersperse]

theorem write_links_eq (links : List (RecordReference × List RecordReference)) :
    write_links links = unlines (links.map link_line) := by
  induction links with
  | nil => rfl
  | cons l rest ih =>
    obtain ⟨o, ms⟩ := l
    have e : "\n".toList = ['\n'] := rfl
    simp [write_links, ih, link_line, unlines_cons, write_member_refs_eq, e]

theorem write_relationships_eq (rels : List RelationshipMetadata) :
    write_relationships rels = unlines (rels.flatMap relationship_lines) := by
  induction rels with
  | nil => rfl
  | cons r rest ih =>
    have e : "]\n".toList = "]".toList ++ ['\n'] := rfl
    have e2 : "\n".toList = ['\n'] := rfl
    simp [write_relationships, ih, relationship_lines, unlines_cons, unlines_append,
      write_links_eq, e, e2]

theorem write_tables_eq (schemas : List TableSchema) (tables : UMap DataTable)
    (hs : ∀ e ∈ tables, ∃ schema, find_schema schemas e.1 = some schema)
    (hc : ∀ e ∈ tables, ∀ schema, find_schema schemas e.1 = some schema →
      ∀ r ∈ e.2.records_, populates schema.columns r) :
    write_tables schemas tables = (unlines (tables.flatMap (table_lines schemas)), .ok ()) := by
  induction tables with
  | nil => rfl
  | cons e rest ih =>
    obtain ⟨n, t⟩ := e
    obtain ⟨schema, hsch⟩ := hs (n, t) (List.mem_cons_self _ _)
    have hsch' : find_schema schemas n = some schema := hsch
    have hw := write_records_populated schema.columns t.records_
      (hc (n, t) (List.mem_cons_self _ _) schema hsch)
    have ih' := ih (fun e he => hs e (List.mem_cons_of_mem _ he))
      (fun e he => hc e (List.mem_cons_of_mem _ he))
    have e : "]\n".toList = "]".toList ++ ['\n'] := rfl
    have e2 : "\n".toList = ['\n'] := rfl
    simp [write_tables, hsch', hw, ih', table_lines, data_lines, unlines_cons, unlines_append,
      write_header, write_header_names_eq, e, e2]

theorem save_eq_file_lines (db : Database) (hs : tables_have_schema db)
    (hc : records_complete db) :
    db.save_to_file true = (unlines (file_lines db), .ok ()) := by
  have hs' : ∀ e ∈ db.tables_,
      ∃ schema, find_schema db.catalog_.schema_catalog.schemas e.1 = some schema :=
    fun e he => Option.ne_none_iff_exists'.mp (hs e he)
  simp [Database.save_to_file, write_schemas_eq, write_relationships_eq,
    write_tables_eq _ _ hs' hc, file_lines, unlines_append]

/-! ## Reading back schema sections -/

theorem head_append_ne (a b : Str) (c : Char) (ha : no_bracket a) (hc : c ≠ '[') :
    (a ++ c :: b) ≠ [] ∧ (a ++ c :: b).head? ≠ some '[' := by
  cases a with
  | nil => simp [hc]
  | cons x xs => simpa [no_bracket] using ha

theorem run_columns (cols : List ColumnMetadata)
    (h : ∀ c ∈ cols, ':' ∉ c.name ∧ no_bracket c.name)
    (st : LoadState) (schema : TableSchema) (hs : st.current_schema = some schema) :
    run st (cols.map (fun c => c.name ++ ":".toList ++ c.type)) =
      .ok { st with current_schema := some { schema with columns := schema.columns ++ cols } } := by
  induction cols generalizing st schema with
  | nil =>
    simp only [List.map_nil, run, List.append_nil]
    rw [← hs]
  | cons c rest ih =>
    obtain ⟨hc1, hc2⟩ := h c (List.mem_cons_self _ _)
    have e : c.name ++ ":".toList ++ c.type = c.name ++ ':' :: c.type := by
      simp [List.append_assoc]
    obtain ⟨n1, n2⟩ := head_append_ne c.name c.type ':' hc2 (by decide)
    have hstep := step_in_schema st schema (c.name ++ ":".toList ++ c.type) hs
      (by rw [e]; exact n1) (by rw [e]; exact n2)
    rw [schema_line_column schema c hc1] at hstep
    simp only [List.map_cons, run, hstep]
    rw [ih (fun c' hc' => h c' (List.mem_cons_of_mem _ hc')) _ _ rfl]
    simp

theorem run_schema_section (st : LoadState) (s : TableSchema)
    (h : ∀ c ∈ s.columns, ':' ∉ c.name ∧ no_bracket c.name) :
    run st (schema_lines s) =
      .ok { catalog := st.result_catalog
            tables := st.tables
            current_section := "[SCHEMA:".toList ++ s.name ++ "]".toList
            current_schema := some s
            current_rel := none
            current_data_table := []
            data_header_processed := false } := by
  have e : "[SCHEMA:".toList ++ s.name ++ "]".toList =
      '[' :: ("SCHEMA:".toList ++ s.name ++ "]".toList) := rfl
  have hstep : step st ("[SCHEMA:".toList ++ s.name ++ "]".toList) =
      .ok (section_line st ("[SCHEMA:".toList ++ s.name ++ "]".toList)) := by
    rw [e]; exact step_section st _
  rw [section_line_schema] at hstep
  simp only [schema_lines, run, hstep]
  rw [run_columns s.columns h _ ⟨s.name, []⟩ rfl]
  simp [LoadState.result_catalog]

theorem finalize_relationships (c : SystemCatalog) (cs : Option TableSchema)
    (cr : Option RelationshipMetadata) :
    (finalize c cs cr).relationships = c.relationships ++ cr.toList := by
  cases cs <;> cases cr <;>
    simp [finalize, SystemCatalog.add_schema, SystemCatalog.add_relationship]

theorem run_schemas (schemas : List TableSchema)
    (h : ∀ s ∈ schemas, ∀ c ∈ s.columns, ':' ∉ c.name ∧ no_bracket c.name)
    (st : LoadState) :
    ∃ st', run st (schemas.flatMap schema_lines) = .ok st' ∧
      st'.result_catalog.schema_catalog.schemas =
        st.result_catalog.schema_catalog.schemas ++ schemas ∧
      st'.result_catalog.relationships = st.result_catalog.relationships ∧
      st'.tables = st.tables := by
  induction schemas generalizing st with
  | nil => exact ⟨st, rfl, by simp, rfl, rfl⟩
  | cons s rest ih =>
    have hrun := run_schema_section st s (h s (List.mem_cons_self _ _))
    obtain ⟨st', h1, h2, h3, h4⟩ := ih (fun s' hs' => h s' (List.mem_cons_of_mem _ hs')) _
    refine ⟨st', ?_, ?_, ?_, ?_⟩
    · simp only [List.flatMap_cons, run_append, hrun]
      exact h1
    · rw [h2]
      simp [LoadState.result_catalog, finalize_schemas]
    · rw [h3]
      simp [LoadState.result_catalog, finalize_relationships]
    · rw [h4]

/-! ## Reading back relationship sections -/

theorem getlines_intercalate (keys : List Str) (h : ∀ k ∈ keys, ',' ∉ k)
    (hl : keys.getLast? ≠ some []) :
    getlines ',' (List.intercalate [','] keys) = keys := by
  induction keys with
  | nil => rfl
  | cons k rest ih =>
    cases rest with
    | nil =>
      have hk : k ≠ [] := by
        intro e; subst e; exact hl rfl
      simpa [List.intercalate] using getlines_no_delim ',' k (h k (List.mem_cons_self _ _)) hk
    | cons k2 rest2 =>
      have e : List.intercalate [','] (k :: k2 :: rest2) =
          k ++ ',' :: List.intercalate [','] (k2 :: rest2) := by
        simp [List.intercalate, List.intersperse]
      rw [e, getlines_append_delim ',' k _ (h k (List.mem_cons_self _ _)),
        ih (fun k' hk' => h k' (List.mem_cons_of_mem _ hk'))
          (by simpa [List.getLast?_cons_cons] using hl)]

theorem parse_link_line (l : RecordReference × List RecordReference) (h : link_readable l) :
    parse_link (link_line l) = l := by
  obtain ⟨o, ms⟩ := l
  obtain ⟨h1, h2, h3⟩ := h
  have e : link_line (o, ms) =
      "Link:".toList ++ (o.key_value ++ ':' :: List.intercalate [','] (ms.map (fun m => m.key_value)))
      := by
    simp [link_line, List.append_assoc]
  have hkeys : getlines ',' (List.intercalate [','] (ms.map (fun m => m.key_value))) =
      ms.map (fun m => m.key_value) := by
    apply getlines_intercalate
    · intro k hk
      obtain ⟨m, hm, rfl⟩ := List.mem_map.mp hk
      exact h2 m hm
    · intro hlast
      apply h3
      rw [List.getLast?_map] at hlast
      cases hg : ms.getLast? with
      | none => rw [hg] at hlast; cases hlast
      | some m =>
        rw [hg] at hlast
        simp only [Option.map_some', Option.some.injEq] at hlast
        cases m
        simp_all
  have hdrop : substr_from (link_line (o, ms)) 5 =
      o.key_value ++ ':' :: List.intercalate [','] (ms.map (fun m => m.key_value)) := by
    rw [e]; rfl
  have hd : List.drop (o.key_value.length + 1)
      (o.key_value ++ ':' :: List.intercalate [','] (ms.map (fun m => m.key_value))) =
      List.intercalate [','] (ms.map (fun m => m.key_value)) := by
    rw [List.drop_append_eq_append_drop]
    simp
  have hid : (RecordReference.mk ∘ fun m => m.key_value) = id := by
    funext m; rfl
  unfold parse_link
  simp only [hdrop, find_char_append ':' _ _ h1]
  simp only [substr, substr_from, List.drop_zero, List.take_left, hd, hkeys, List.map_map, hid,
    List.map_id]

theorem relationship_line_owner (rel : RelationshipMetadata) (o : Str) :
    relationship_line rel ("Owner:".toList ++ o) =
      { rel with owner := { rel.owner with table_name := o } } := by
  have hs : starts_with ("Owner:".toList ++ o) "Owner:".toList = true := by
    simp [starts_with]
  simp only [relationship_line, hs, if_true]
  rfl

theorem relationship_line_member (rel : RelationshipMetadata) (m : Str) :
    relationship_line rel ("Member:".toList ++ m) =
      { rel with member := { rel.member with table_name := m } } := by
  have h0 : starts_with ("Member:".toList ++ m) "Owner:".toList = false :=
    starts_with_first _ _ _ _ (by decide)
  have hs : starts_with ("Member:".toList ++ m) "Member:".toList = true := by
    simp [starts_with]
  simp only [relationship_line, h0, hs, if_true, if_false, Bool.false_eq_true]
  rfl

theorem relationship_line_link (rel : RelationshipMetadata)
    (l : RecordReference × List RecordReference) (h : link_readable l) :
    relationship_line rel (link_line l) =
      { rel with owner := { rel.owner with links := rel.owner.links ++ [l] } } := by
  have e : link_line l = "Link:".toList ++
      (l.1.key_value ++ ":".toList ++ List.intercalate [','] (l.2.map (fun m => m.key_value)))
      := by
    simp [link_line, List.append_assoc]
  have h0 : starts_with (link_line l) "Owner:".toList = false := by
    rw [e]; exact starts_with_first _ _ _ _ (by decide)
  have h1 : starts_with (link_line l) "Member:".toList = false := by
    rw [e]; exact starts_with_first _ _ _ _ (by decide)
  have hs : starts_with (link_line l) "Link:".toList = true := by
    rw [e]; simp [starts_with]
  simp only [relationship_line, h0, h1, hs, if_true, if_false, Bool.false_eq_true]
  rw [parse_link_line l h]

theorem link_line_head (l : RecordReference × List RecordReference) :
    link_line l ≠ [] ∧ (link_line l).head? ≠ some '[' := by
  have e : link_line l = 'L' :: ("ink:".toList ++ l.1.key_value ++ ":".toList ++
      List.intercalate [','] (l.2.map (fun m => m.key_value))) := rfl
  rw [e]
  simp

theorem run_links (links : List (RecordReference × List RecordReference))
    (h : ∀ l ∈ links, link_readable l)
    (st : LoadState) (rel : RelationshipMetadata)
    (hs : st.current_schema = none) (hr : st.current_rel = some rel) :
    run st (links.map link_line) =
      .ok { st with current_rel := some (RelationshipMetadata.mk rel.name
              (RelationshipOwner.mk rel.owner.table_name (rel.owner.links ++ links))
              rel.member) } := by
  induction links generalizing st rel with
  | nil =>
    simp only [List.map_nil, run, List.append_nil]
    rw [← hr]
  | cons l rest ih =>
    obtain ⟨n1, n2⟩ := link_line_head l
    have hstep := step_in_relationship st rel (link_line l) hs hr n1 n2
    rw [relationship_line_link rel l (h l (List.mem_cons_self _ _))] at hstep
    simp only [List.map_cons, run, hstep]
    rw [ih (fun l' hl' => h l' (List.mem_cons_of_mem _ hl')) _ _ (by exact hs) (by rfl)]
    simp

theorem run_relationship_section (st : LoadState) (r : RelationshipMetadata)
    (h : ∀ l ∈ r.owner.links, link_readable l) :
    run st (relationship_lines r) =
      .ok { catalog := st.result_catalog
            tables := st.tables
            current_section := "[RELATIONSHIP:".toList ++ r.name ++ "]".toList
            current_schema := none
            current_rel := some (without_groups r)
            current_data_table := []
            data_header_processed := false } := by
  have e : "[RELATIONSHIP:".toList ++ r.name ++ "]".toList =
      '[' :: ("RELATIONSHIP:".toList ++ r.name ++ "]".toList) := rfl
  have hstep : step st ("[RELATIONSHIP:".toList ++ r.name ++ "]".toList) =
      .ok (section_line st ("[RELATIONSHIP:".toList ++ r.name ++ "]".toList)) := by
    rw [e]; exact step_section st _
  rw [section_line_relationship] at hstep
  have eo : "Owner:".toList ++ r.owner.table_name = 'O' :: ("wner:".toList ++ r.owner.table_name)
      := rfl
  have em : "Member:".toList ++ r.member.table_name =
      'M' :: ("ember:".toList ++ r.member.table_name) := rfl
  simp only [relationship_lines, run, hstep]
  rw [step_in_relationship _ _ ("Owner:".toList ++ r.owner.table_name) rfl rfl
    (by rw [eo]; simp) (by rw [eo]; simp), relationship_line_owner]
  simp only []
  rw [step_in_relationship _ _ ("Member:".toList ++ r.member.table_name) rfl rfl
    (by rw [em]; simp) (by rw [em]; simp), relationship_line_member]
  simp only []
  rw [run_links r.owner.links h _ _ rfl rfl]
  simp [LoadState.result_catalog, without_groups]

theorem run_relationships (rels : List RelationshipMetadata)
    (h : ∀ r ∈ rels, ∀ l ∈ r.owner.links, link_readable l)
    (st : LoadState) :
    ∃ st', run st (rels.flatMap relationship_lines) = .ok st' ∧
      st'.result_catalog.schema_catalog.schemas = st.result_catalog.schema_catalog.schemas ∧
      st'.result_catalog.relationships =
        st.result_catalog.relationships ++ rels.map without_groups ∧
      st'.tables = st.tables := by
  induction rels generalizing st with
  | nil => exact ⟨st, rfl, rfl, by simp, rfl⟩
  | cons r rest ih =>
    have hrun := run_relationship_section st r (h r (List.mem_cons_self _ _))
    obtain ⟨st', h1, h2, h3, h4⟩ := ih (fun r' hr' => h r' (List.mem_cons_of_mem _ hr')) _
    refine ⟨st', ?_, ?_, ?_, ?_⟩
    · simp only [List.flatMap_cons, run_append, hrun]
      exact h1
    · rw [h2]
      simp [LoadState.result_catalog, finalize_schemas]
    · rw [h3]
      simp [LoadState.result_catalog, finalize_relationships]
    · rw [h4]

/-! ## Maps, continued -/

theorem UMap.keys_append {V : Type} (a b : UMap V) :
    UMap.keys (a ++ b) = UMap.keys a ++ UMap.keys b := by
  simp only [UMap.keys, List.map_append]

theorem UMap.emplace_of_not_mem {V : Type} (m : UMap V) (k : Str) (v : V)
    (h : k ∉ UMap.keys m) : UMap.emplace m k v = m ++ [(k, v)] := by
  induction m with
  | nil => rfl
  | cons e rest ih =>
    obtain ⟨k', v'⟩ := e
    simp only [UMap.keys, List.map_cons, List.mem_cons, not_or] at h
    have hne : ¬ k' = k := fun e => h.1 e.symm
    simp only [UMap.emplace, hne, if_false, List.cons_append, ih h.2]

theorem UMap.emplace_of_mem {V : Type} (m : UMap V) (k : Str) (v : V)
    (h : k ∈ UMap.keys m) : UMap.emplace m k v = m := by
  induction m with
  | nil => simp only [UMap.keys, List.map_nil, List.not_mem_nil] at h
  | cons e rest ih =>
    obtain ⟨k', v'⟩ := e
    by_cases hk : k' = k
    · simp only [UMap.emplace, hk, if_true]
    · simp only [UMap.keys, List.map_cons, List.mem_cons] at h
      rcases h with h | h
      · exact absurd h.symm hk
      · simp only [UMap.emplace, hk, if_false, ih h]

theorem UMap.assign_of_not_mem {V : Type} (m : UMap V) (k : Str) (v : V)
    (h : k ∉ UMap.keys m) : UMap.assign m k v = m ++ [(k, v)] := by
  induction m with
  | nil => rfl
  | cons e rest ih =>
    obtain ⟨k', v'⟩ := e
    simp only [UMap.keys, List.map_cons, List.mem_cons, not_or] at h
    have hne : ¬ k' = k := fun e => h.1 e.symm
    simp only [UMap.assign, hne, if_false, List.cons_append, ih h.2]

theorem UMap.modify_append {V : Type} (m : UMap V) (k : Str) (v : V) (f : V → V)
    (h : k ∉ UMap.keys m) : UMap.modify (m ++ [(k, v)]) k f = m ++ [(k, f v)] := by
  induction m with
  | nil => simp [UMap.modify]
  | cons e rest ih =>
    obtain ⟨k', v'⟩ := e
    simp only [UMap.keys, List.map_cons, List.mem_cons, not_or] at h
    have hne : ¬ k' = k := fun e => h.1 e.symm
    have ih' := ih h.2
    simp only [List.cons_append, UMap.modify, hne, if_false, List.append_eq, ih']

theorem UMap.mem_of_find {V : Type} (m : UMap V) (k : Str) (v : V)
    (h : UMap.find m k = some v) : (k, v) ∈ m := by
  induction m with
  | nil => simp [UMap.find] at h
  | cons e rest ih =>
    obtain ⟨k', v'⟩ := e
    by_cases hk : k' = k
    · simp only [UMap.find, hk, if_true, Option.some.injEq] at h
      subst hk; subst h
      exact List.mem_cons_self _ _
    · simp only [UMap.find, hk, if_false] at h
      exact List.mem_cons_of_mem _ (ih h)

/-! ## Reading back records -/

theorem tab_terminated_cons (v : Str) (vs : List Str) :
    tab_terminated (v :: vs) = v ++ '\t' :: tab_terminated vs := by
  simp [tab_terminated]

theorem parse_record_terminated (cols : List ColumnMetadata) (vals : List Str)
    (rec : TableRecord) (hlen : cols.length = vals.length) (ht : ∀ v ∈ vals, '\t' ∉ v) :
    parse_record cols (tab_terminated vals) rec = .ok (set_all rec cols vals) := by
  induction cols generalizing vals rec with
  | nil =>
    cases vals with
    | nil => rfl
    | cons v vs => simp at hlen
  | cons c cs ih =>
    cases vals with
    | nil => simp at hlen
    | cons v vs =>
      simp only [List.length_cons, Nat.add_right_cancel_iff] at hlen
      rw [tab_terminated_cons, parse_record,
        getline_append_delim '\t' v _ (ht v (List.mem_cons_self _ _))]
      exact ih vs _ hlen (fun v' hv' => ht v' (List.mem_cons_of_mem _ hv'))

theorem row_values_populated (cols : List ColumnMetadata) (r : TableRecord)
    (h : populates cols r) :
    List.Forall₂ (fun c v => UMap.find r.fields_ c.name = some v) cols (row_values cols r) := by
  induction cols with
  | nil => exact List.Forall₂.nil
  | cons c rest ih =>
    obtain ⟨v, hv, _⟩ := get_field_of_mem r c.name (h c (List.mem_cons_self _ _))
    have ih' := ih (fun c' hc' => h c' (List.mem_cons_of_mem _ hc'))
    simp only [row_values, List.filterMap_cons, hv]
    exact List.Forall₂.cons hv ih'

theorem set_all_find (cols : List ColumnMetadata) (vals : List Str) (r acc : TableRecord)
    (h : List.Forall₂ (fun c v => UMap.find r.fields_ c.name = some v) cols vals)
    (hacc : ∀ x v, UMap.find acc.fields_ x = some v → UMap.find r.fields_ x = some v) :
    (∀ x v, UMap.find (set_all acc cols vals).fields_ x = some v →
      UMap.find r.fields_ x = some v) ∧
    (∀ x, x ∈ UMap.keys (set_all acc cols vals).fields_ ↔
      x ∈ UMap.keys acc.fields_ ∨ ∃ c ∈ cols, c.name = x) := by
  induction h generalizing acc with
  | nil =>
    refine ⟨fun x v hx => hacc x v ?_, fun x => ?_⟩
    · simpa only [set_all] using hx
    · simp only [set_all, List.not_mem_nil, false_and, exists_false, or_false]
  | @cons c v cs vs hcv _ ih =>
    have hacc' : ∀ x w, UMap.find (acc.set_field c.name v).fields_ x = some w →
        UMap.find r.fields_ x = some w := by
      intro x w hx
      by_cases hxc : c.name = x
      · subst hxc
        simp only [TableRecord.set_field, UMap.find_assign_self, Option.some.injEq] at hx
        rw [← hx]; exact hcv
      · simp only [TableRecord.set_field, UMap.find_assign_ne _ _ _ _ hxc] at hx
        exact hacc x w hx
    obtain ⟨ih1, ih2⟩ := ih (acc.set_field c.name v) hacc'
    refine ⟨ih1, ?_⟩
    intro x
    rw [set_all, ih2 x]
    simp only [TableRecord.set_field, UMap.keys_assign, List.mem_cons, exists_eq_or_imp]
    constructor
    · rintro ((h | h) | h)
      · exact Or.inr (Or.inl h.symm)
      · exact Or.inl h
      · exact Or.inr (Or.inr h)
    · rintro (h | h | h)
      · exact Or.inl (Or.inr h)
      · exact Or.inl (Or.inl h.symm)
      · exact Or.inr h

theorem set_all_same (cols : List ColumnMetadata) (r : TableRecord)
    (hp : populates cols r) (honly : ∀ k ∈ UMap.keys r.fields_, ∃ c ∈ cols, c.name = k) :
    same_fields r (set_all TableRecord.empty cols (row_values cols r)) := by
  obtain ⟨h1, h2⟩ := set_all_find cols (row_values cols r) r TableRecord.empty
    (row_values_populated cols r hp) (by intro x v hx; simp [TableRecord.empty, UMap.find] at hx)
  intro x
  cases hf : UMap.find (set_all TableRecord.empty cols (row_values cols r)).fields_ x with
  | some v =>
    simp only [TableRecord.get_field, hf, h1 x v hf]
  | none =>
    have hx : x ∉ UMap.keys r.fields_ := by
      intro hx
      have := (h2 x).mpr (Or.inr (honly x hx))
      exact ((UMap.find_eq_none_iff _ _).mp hf) this
    simp only [TableRecord.get_field, hf, (UMap.find_eq_none_iff _ _).mpr hx]

/-! ## Reading back data sections -/

theorem row_values_mem (cols : List ColumnMetadata) (r : TableRecord) (v : Str)
    (h : v ∈ row_values cols r) : ∃ k, (k, v) ∈ r.fields_ := by
  simp only [row_values, List.mem_filterMap] at h
  obtain ⟨c, _, hc⟩ := h
  exact ⟨c.name, UMap.mem_of_find _ _ _ hc⟩

theorem row_line_head (cols : List ColumnMetadata) (r : TableRecord) (hc : cols ≠ [])
    (h : row_readable cols r) :
    tab_terminated (row_values cols r) ≠ [] ∧
      (tab_terminated (row_values cols r)).head? ≠ some '[' := by
  obtain ⟨hp, _, _, hb⟩ := h
  cases cols with
  | nil => exact absurd rfl hc
  | cons c cs =>
    obtain ⟨v, hv, _⟩ := get_field_of_mem r c.name (hp c (List.mem_cons_self _ _))
    simp only [row_values, List.filterMap_cons, hv, tab_terminated_cons]
    exact head_append_ne v _ '\t' (hb c v rfl hv) (by decide)

theorem parse_row (cols : List ColumnMetadata) (r : TableRecord) (h : row_readable cols r) :
    parse_record cols (tab_terminated (row_values cols r)) TableRecord.empty =
      .ok (reloaded cols r) := by
  obtain ⟨hp, _, ht, _⟩ := h
  apply parse_record_terminated
  · exact (List.Forall₂.length_eq (row_values_populated cols r hp))
  · intro v hv
    obtain ⟨k, hk⟩ := row_values_mem cols r v hv
    exact ht (k, v) hk

theorem run_record_rows (schema : TableSchema) (name : Str) (catalog : SystemCatalog)
    (base : UMap DataTable) (hname : name ≠ []) (hbase : name ∉ UMap.keys base)
    (hs : find_schema catalog.schema_catalog.schemas name = some schema)
    (hcols : schema.columns ≠ [])
    (records : List TableRecord) (hr : ∀ r ∈ records, row_readable schema.columns r)
    (st : LoadState) (acc : List TableRecord)
    (hst : in_rows st name catalog) (htab : st.tables = base ++ [(name, ⟨acc⟩)]) :
    ∃ st', run st (records.map (fun r => tab_terminated (row_values schema.columns r))) = .ok st' ∧
      in_rows st' name catalog ∧
      st'.tables = base ++ [(name, ⟨acc ++ records.map (reloaded schema.columns)⟩)] := by
  induction records generalizing st acc with
  | nil => exact ⟨st, rfl, hst, by simpa using htab⟩
  | cons r rest ih =>
    obtain ⟨hc, hsch, hrel, hd, hh⟩ := hst
    have hrr := hr r (List.mem_cons_self _ _)
    obtain ⟨n1, n2⟩ := row_line_head schema.columns r hcols hrr
    have hkey : name ∈ UMap.keys st.tables := by
      rw [htab, UMap.keys_append]
      simp [UMap.keys]
    have hstep : step st (tab_terminated (row_values schema.columns r)) =
        .ok { st with tables := base ++ [(name, ⟨acc ++ [reloaded schema.columns r]⟩)] } := by
      rw [step_in_data st _ hsch hrel (hd ▸ hname) n1 n2,
        data_line_row st _ schema hh (by rw [hc, hd]; exact hs), parse_row _ _ hrr]
      simp only [hd, UMap.emplace_of_mem _ _ _ hkey]
      rw [htab, UMap.modify_append _ _ _ _ hbase]
      rfl
    simp only [List.map_cons, run, hstep]
    obtain ⟨st', h1, h2, h3⟩ := ih (fun r' hr' => hr r' (List.mem_cons_of_mem _ hr'))
      { st with tables := base ++ [(name, ⟨acc ++ [reloaded schema.columns r]⟩)] }
      (acc ++ [reloaded schema.columns r]) ⟨hc, hsch, hrel, hd, hh⟩ rfl
    exact ⟨st', h1, h2, by simpa [List.append_assoc] using h3⟩

theorem step_header (st : LoadState) (hdr : Str) (h2 : hdr.head? ≠ some '[')
    (hs : st.current_schema = none) (hr : st.current_rel = none)
    (hp : st.data_header_processed = false)
    (hkey : st.current_data_table ∈ UMap.keys st.tables) :
    ∃ st', step st hdr = .ok st' ∧ st'.catalog = st.catalog ∧ st'.tables = st.tables ∧
      st'.current_schema = none ∧ st'.current_rel = none ∧
      st'.current_data_table = st.current_data_table ∧
      (hdr ≠ [] → st.current_data_table ≠ [] → st'.data_header_processed = true) := by
  by_cases h1 : hdr = []
  · exact ⟨st, by simp [step, h1], rfl, rfl, hs, hr, rfl, fun h => absurd h1 h⟩
  · by_cases hd : st.current_data_table = []
    · exact ⟨st, step_outside st hdr hs hr hd h2, rfl, rfl, hs, hr, rfl, fun _ h => absurd hd h⟩
    · refine ⟨{ st with tables := st.tables.emplace st.current_data_table DataTable.empty,
                        data_header_processed := true }, ?_, ?_⟩
      · rw [step_in_data st hdr hs hr hd h1 h2, data_line_header st hdr hp]
      · exact ⟨rfl, UMap.emplace_of_mem _ _ _ hkey, hs, hr, rfl, fun _ _ => rfl⟩

theorem header_line_head (cols : List ColumnMetadata) (h : ∀ c ∈ cols, no_bracket c.name) :
    (tab_terminated (cols.map (fun c => c.name))).head? ≠ some '[' ∧
      (cols ≠ [] → tab_terminated (cols.map (fun c => c.name)) ≠ []) := by
  cases cols with
  | nil => simp [tab_terminated]
  | cons c cs =>
    simp only [List.map_cons, tab_terminated_cons]
    obtain ⟨n1, n2⟩ := head_append_ne c.name (tab_terminated (cs.map (fun c => c.name))) '\t'
      (h c (List.mem_cons_self _ _)) (by decide)
    exact ⟨n2, fun _ => n1⟩

theorem run_data_section (st : LoadState) (schema : TableSchema) (name : Str) (tbl : DataTable)
    (hs : find_schema st.result_catalog.schema_catalog.schemas name = some schema)
    (hkey : name ∉ UMap.keys st.tables)
    (hcols : ∀ c ∈ schema.columns, no_bracket c.name)
    (hne : tbl.records_ ≠ [] → name ≠ [] ∧ schema.columns ≠ [])
    (hr : ∀ r ∈ tbl.records_, row_readable schema.columns r) :
    ∃ st', run st (data_lines schema.columns name tbl) = .ok st' ∧
      st'.result_catalog = st.result_catalog ∧
      st'.tables = st.tables ++ [(name, ⟨tbl.records_.map (reloaded schema.columns)⟩)] := by
  have e : "[DATA:".toList ++ name ++ "]".toList = '[' :: ("DATA:".toList ++ name ++ "]".toList)
    := rfl
  have hstep1 : step st ("[DATA:".toList ++ name ++ "]".toList) =
      .ok (section_line st ("[DATA:".toList ++ name ++ "]".toList)) := by
    rw [e]; exact step_section st _
  rw [section_line_data, UMap.emplace_of_not_mem _ _ _ hkey] at hstep1
  obtain ⟨hh1, hh2⟩ := header_line_head schema.columns hcols
  obtain ⟨st2, hstep2, c2, t2, s2, r2, d2, p2⟩ := step_header
    (LoadState.mk (finalize st.catalog st.current_schema st.current_rel)
      (st.tables ++ [(name, DataTable.empty)]) ("[DATA:".toList ++ name ++ "]".toList)
      none none name false)
    (tab_terminated (schema.columns.map (fun c => c.name))) hh1 rfl rfl rfl
    (show name ∈ UMap.keys (st.tables ++ [(name, DataTable.empty)]) by
      rw [UMap.keys_append]; simp [UMap.keys])
  simp only [data_lines, run, hstep1, hstep2]
  by_cases hrec : tbl.records_ = []
  · refine ⟨st2, by simp [hrec, run], ?_, ?_⟩
    · simp only [LoadState.result_catalog, c2, s2, r2, finalize]
    · simp only [t2, hrec, List.map_nil]
      rfl
  · obtain ⟨hn, hc⟩ := hne hrec
    obtain ⟨st3, h1, ⟨c3, s3, r3, _, _⟩, t3⟩ := run_record_rows schema name st.result_catalog
      st.tables hn hkey hs hc tbl.records_ hr st2 [] ⟨c2, s2, r2, d2, p2 (hh2 hc) hn⟩ t2
    refine ⟨st3, h1, ?_, ?_⟩
    · simp only [LoadState.result_catalog, c3, s3, r3, finalize]
    · simpa using t3

/-! ## Reading back a whole file -/

theorem find_schema_mem (schemas : List TableSchema) (name : Str) (schema : TableSchema)
    (h : find_schema schemas name = some schema) : schema ∈ schemas := by
  induction schemas with
  | nil => simp [find_schema] at h
  | cons s rest ih =>
    by_cases hs : s.name = name
    · simp only [find_schema, hs, if_true, Option.some.injEq] at h
      subst h
      exact List.mem_cons_self _ _
    · simp only [find_schema, hs, if_false] at h
      exact List.mem_cons_of_mem _ (ih h)

theorem run_tables (schemas : List TableSchema) (tables : UMap DataTable) (st : LoadState)
    (hsch : st.result_catalog.schema_catalog.schemas = schemas)
    (hnodup : (UMap.keys st.tables ++ UMap.keys tables).Nodup)
    (hall : ∀ e ∈ tables, ∃ schema, find_schema schemas e.1 = some schema ∧
      (∀ c ∈ schema.columns, no_bracket c.name) ∧
      (e.2.records_ ≠ [] → e.1 ≠ [] ∧ schema.columns ≠ []) ∧
      ∀ r ∈ e.2.records_, row_readable schema.columns r) :
    ∃ st', run st (tables.flatMap (table_lines schemas)) = .ok st' ∧
      st'.result_catalog = st.result_catalog ∧
      st'.tables = st.tables ++ tables.map (fun e => (e.1, reload_table schemas e)) := by
  induction tables generalizing st with
  | nil => exact ⟨st, rfl, rfl, by simp⟩
  | cons e rest ih =>
    obtain ⟨name, tbl⟩ := e
    obtain ⟨schema, hs, hc, hne, hr⟩ := hall (name, tbl) (List.mem_cons_self _ _)
    have hs' : find_schema schemas name = some schema := hs
    have hkey : name ∉ UMap.keys st.tables := by
      intro hmem
      have := List.nodup_append.mp hnodup
      exact this.2.2 hmem (by simp [UMap.keys])
    obtain ⟨st1, h1, c1, t1⟩ := run_data_section st schema name tbl (by rw [hsch]; exact hs')
      hkey hc hne hr
    have hnodup1 : (UMap.keys st1.tables ++ UMap.keys rest).Nodup := by
      rw [t1, UMap.keys_append]
      simpa [UMap.keys, List.append_assoc] using hnodup
    obtain ⟨st2, h2, c2, t2⟩ := ih st1 (by rw [c1]; exact hsch) hnodup1
      (fun e he => hall e (List.mem_cons_of_mem _ he))
    refine ⟨st2, ?_, by rw [c2, c1], ?_⟩
    · simp only [List.flatMap_cons, run_append, table_lines, hs', h1]
      exact h2
    · rw [t2, t1]
      simp [reload_table, hs', List.append_assoc]

theorem build_database_append (catalog : SystemCatalog) (tables acc : UMap DataTable)
    (h : (UMap.keys acc ++ UMap.keys tables).Nodup) :
    tables.foldl (fun (db : Database) e => db.set_table e.1 e.2) (Database.mk catalog acc) =
      Database.mk catalog (acc ++ tables) := by
  induction tables generalizing acc with
  | nil => simp
  | cons e rest ih =>
    obtain ⟨k, v⟩ := e
    have hk : k ∉ UMap.keys acc := by
      intro hmem
      exact (List.nodup_append.mp h).2.2 hmem (by simp [UMap.keys])
    have hstep : (Database.mk catalog acc).set_table k v = Database.mk catalog (acc ++ [(k, v)]) := by
      simp only [Database.set_table, UMap.assign_of_not_mem _ _ _ hk]
    rw [List.foldl_cons, hstep, ih (acc ++ [(k, v)])
      (by rw [UMap.keys_append]; simpa [UMap.keys, List.append_assoc] using h)]
    simp [List.append_assoc]

theorem build_database_nodup (catalog : SystemCatalog) (tables : UMap DataTable)
    (h : (UMap.keys tables).Nodup) :
    build_database catalog tables = { catalog_ := catalog, tables_ := tables } := by
  rw [build_database, build_database_append catalog tables [] (by simpa [UMap.keys] using h)]
  simp

theorem keys_map_snd {V W : Type} (m : UMap V) (f : Str × V → W) :
    UMap.keys (m.map (fun e => (e.1, f e))) = UMap.keys m := by
  simp only [UMap.keys, List.map_map]
  rfl

theorem find_map_snd {V W : Type} (m : UMap V) (f : Str × V → W) (n : Str) (t : V)
    (h : UMap.find m n = some t) :
    UMap.find (m.map (fun e => (e.1, f e))) n = some (f (n, t)) := by
  induction m with
  | nil => simp [UMap.find] at h
  | cons e rest ih =>
    obtain ⟨k, v⟩ := e
    by_cases hk : k = n
    · simp only [UMap.find, hk, if_true, Option.some.injEq] at h
      subst hk; subst h
      simp [UMap.find]
    · simp only [UMap.find, hk, if_false] at h
      simp only [List.map_cons, UMap.find, hk, if_false]
      exact ih h

/-! ## The written lines contain no newline -/

theorem mem_tab_terminated (c : Char) (vals : List Str) (h : c ∈ tab_terminated vals) :
    c = '\t' ∨ ∃ v ∈ vals, c ∈ v := by
  induction vals with
  | nil => simp [tab_terminated] at h
  | cons v vs ih =>
    rw [tab_terminated_cons] at h
    simp only [List.mem_append, List.mem_cons] at h
    rcases h with h | h | h
    · exact Or.inr ⟨v, List.mem_cons_self _ _, h⟩
    · exact Or.inl h
    · rcases ih h with h' | ⟨v', hv', hc⟩
      · exact Or.inl h'
      · exact Or.inr ⟨v', List.mem_cons_of_mem _ hv', hc⟩

theorem mem_intercalate (c : Char) (keys : List Str) (h : c ∈ List.intercalate [','] keys) :
    c = ',' ∨ ∃ k ∈ keys, c ∈ k := by
  induction keys with
  | nil => simp [List.intercalate] at h
  | cons k rest ih =>
    cases rest with
    | nil =>
      simp only [List.intercalate, List.intersperse, List.flatten_cons, List.flatten_nil,
        List.append_nil] at h
      exact Or.inr ⟨k, List.mem_cons_self _ _, h⟩
    | cons k2 rest2 =>
      have e : List.intercalate [','] (k :: k2 :: rest2) =
          k ++ ',' :: List.intercalate [','] (k2 :: rest2) := by
        simp [List.intercalate, List.intersperse]
      rw [e] at h
      simp only [List.mem_append, List.mem_cons] at h
      rcases h with h | h | h
      · exact Or.inr ⟨k, List.mem_cons_self _ _, h⟩
      · exact Or.inl h
      · rcases ih h with h' | ⟨k', hk', hc⟩
        · exact Or.inl h'
        · exact Or.inr ⟨k', List.mem_cons_of_mem _ hk', hc⟩

theorem schema_lines_no_newline (s : TableSchema)
    (h : clean s.name ∧ ∀ c ∈ s.columns, clean c.name ∧ clean c.type) :
    ∀ l ∈ schema_lines s, '\n' ∉ l := by
  intro l hl
  simp only [schema_lines, List.mem_cons, List.mem_map] at hl
  rcases hl with rfl | ⟨c, hc, rfl⟩
  · have h1 : '\n' ∉ "[SCHEMA:".toList := by decide
    have h2 : '\n' ∉ "]".toList := by decide
    simp only [List.mem_append, not_or]
    exact ⟨⟨h1, h.1.2.2.2⟩, h2⟩
  · have h1 : '\n' ∉ ":".toList := by decide
    obtain ⟨hn, ht⟩ := h.2 c hc
    simp only [List.mem_append, not_or]
    exact ⟨⟨hn.2.2.2, h1⟩, ht.2.2.2⟩

theorem relationship_lines_no_newline (r : RelationshipMetadata)
    (h : clean r.name ∧ clean r.owner.table_name ∧ clean r.member.table_name ∧
      ∀ l ∈ r.owner.links, clean l.1.key_value ∧ ∀ m ∈ l.2, clean m.key_value) :
    ∀ l ∈ relationship_lines r, '\n' ∉ l := by
  intro l hl
  simp only [relationship_lines, List.mem_cons, List.mem_map] at hl
  rcases hl with rfl | rfl | rfl | ⟨lk, hlk, rfl⟩
  · have h1 : '\n' ∉ "[RELATIONSHIP:".toList := by decide
    have h2 : '\n' ∉ "]".toList := by decide
    simp only [List.mem_append, not_or]
    exact ⟨⟨h1, h.1.2.2.2⟩, h2⟩
  · have h1 : '\n' ∉ "Owner:".toList := by decide
    simp only [List.mem_append, not_or]
    exact ⟨h1, h.2.1.2.2.2⟩
  · have h1 : '\n' ∉ "Member:".toList := by decide
    simp only [List.mem_append, not_or]
    exact ⟨h1, h.2.2.1.2.2.2⟩
  · have h1 : '\n' ∉ "Link:".toList := by decide
    have h2 : '\n' ∉ ":".toList := by decide
    obtain ⟨ho, hm⟩ := h.2.2.2 lk hlk
    simp only [link_line, List.mem_append, not_or]
    refine ⟨⟨⟨h1, ho.2.2.2⟩, h2⟩, ?_⟩
    intro hmem
    rcases mem_intercalate _ _ hmem with hc | ⟨k, hk, hc⟩
    · exact absurd hc (by decide)
    · obtain ⟨m, hm', rfl⟩ := List.mem_map.mp hk
      exact (hm m hm').2.2.2 hc

theorem data_lines_no_newline (cols : List ColumnMetadata) (name : Str) (tbl : DataTable)
    (hname : clean name) (hcols : ∀ c ∈ cols, clean c.name)
    (hvals : ∀ r ∈ tbl.records_, ∀ kv ∈ r.fields_, clean kv.2) :
    ∀ l ∈ data_lines cols name tbl, '\n' ∉ l := by
  intro l hl
  simp only [data_lines, List.mem_cons, List.mem_map] at hl
  rcases hl with rfl | rfl | ⟨r, hr, rfl⟩
  · have h1 : '\n' ∉ "[DATA:".toList := by decide
    have h2 : '\n' ∉ "]".toList := by decide
    simp only [List.mem_append, not_or]
    exact ⟨⟨h1, hname.2.2.2⟩, h2⟩
  · intro hmem
    rcases mem_tab_terminated _ _ hmem with hc | ⟨v, hv, hc⟩
    · exact absurd hc (by decide)
    · obtain ⟨c, hc', rfl⟩ := List.mem_map.mp hv
      exact (hcols c hc').2.2.2 hc
  · intro hmem
    rcases mem_tab_terminated _ _ hmem with hc | ⟨v, hv, hc⟩
    · exact absurd hc (by decide)
    · obtain ⟨k, hk⟩ := row_values_mem cols r v hv
      exact (hvals r hr (k, v) hk).2.2.2 hc

theorem file_lines_no_newline (db : Database) (h : db.clean) :
    ∀ l ∈ file_lines db, '\n' ∉ l := by
  obtain ⟨h1, h2, h3⟩ := h
  intro l hl
  simp only [file_lines, List.mem_append, List.mem_flatMap] at hl
  rcases hl with (⟨s, hs, hl⟩ | ⟨r, hr, hl⟩) | ⟨e, he, hl⟩
  · exact schema_lines_no_newline s (h1 s hs) l hl
  · exact relationship_lines_no_newline r (h2 r hr) l hl
  · unfold table_lines at hl
    cases hf : find_schema db.catalog_.schema_catalog.schemas e.1 with
    | none => rw [hf] at hl; simp at hl
    | some schema =>
      rw [hf] at hl
      have hmem := find_schema_mem _ _ _ hf
      exact data_lines_no_newline schema.columns e.1 e.2 (h3 e he).1
        (fun c hc => ((h1 schema hmem).2 c hc).1)
        (fun r hr kv hkv => ((h3 e he).2 r hr kv hkv).2) l hl

/-! ## Round trip -/

theorem forall₂_map_of_forall {α β : Type} (R : α → β → Prop) (f : α → β) (l : List α)
    (h : ∀ a ∈ l, R a (f a)) : List.Forall₂ R l (l.map f) := by
  induction l with
  | nil => exact List.Forall₂.nil
  | cons a rest ih =>
    exact List.Forall₂.cons (h a (List.mem_cons_self _ _))
      (ih (fun a' ha' => h a' (List.mem_cons_of_mem _ ha')))

theorem load_file_lines (db : Database)
    (hmap : (UMap.keys db.tables_).Nodup)
    (hschema : tables_have_schema db) (hcomplete : records_complete db)
    (hclean : db.clean) (hre : db.reloadable) :
    Database.load_from_file (some (unlines (file_lines db))) =
      .ok { catalog_ := { schema_catalog := db.catalog_.schema_catalog
                          relationships := db.catalog_.relationships.map without_groups }
            tables_ := db.tables_.map
              (fun e => (e.1, reload_table db.catalog_.schema_catalog.schemas e)) } := by
  obtain ⟨c1, c2, c3⟩ := hclean
  obtain ⟨r1, r2, r3⟩ := hre
  obtain ⟨st1, hrun1, s1, l1, t1⟩ := run_schemas db.catalog_.schema_catalog.schemas
    (fun s hs c hc => ⟨((c1 s hs).2 c hc).1.2.1, r1 s hs c hc⟩) LoadState.init
  obtain ⟨st2, hrun2, s2, l2, t2⟩ := run_relationships db.catalog_.relationships
    (fun r hr l hl => ⟨((c2 r hr).2.2.2 l hl).1.2.1,
      fun m hm => (((c2 r hr).2.2.2 l hl).2 m hm).2.2.1, r2 r hr l hl⟩) st1
  have hs2 : st2.result_catalog.schema_catalog.schemas = db.catalog_.schema_catalog.schemas := by
    rw [s2, s1]; simp [LoadState.result_catalog, LoadState.init, finalize]
  have hl2 : st2.result_catalog.relationships = db.catalog_.relationships.map without_groups := by
    rw [l2, l1]; simp [LoadState.result_catalog, LoadState.init, finalize]
  have ht2 : st2.tables = [] := by rw [t2, t1]; rfl
  obtain ⟨st3, hrun3, c3', t3⟩ := run_tables db.catalog_.schema_catalog.schemas db.tables_ st2 hs2
    (by rw [ht2]; simpa [UMap.keys] using hmap)
    (by
      intro e he
      obtain ⟨schema, hsch⟩ := Option.ne_none_iff_exists'.mp (hschema e he)
      have hmem := find_schema_mem _ _ _ hsch
      obtain ⟨q1, q2⟩ := r3 e he schema hsch
      refine ⟨schema, hsch, r1 schema hmem, q1, ?_⟩
      intro r hr
      exact ⟨hcomplete e he schema hsch r hr, (q2 r hr).1,
        fun kv hkv => ((c3 e he).2 r hr kv hkv).2.1,
        fun c v hc hv => (q2 r hr).2 c hc v hv⟩)
  have hrun : run LoadState.init (file_lines db) = .ok st3 := by
    simp only [file_lines, run_append, hrun1, hrun2, hrun3]
  have hnodup : (UMap.keys st3.tables).Nodup := by
    rw [t3, ht2, List.nil_append, keys_map_snd]
    exact hmap
  unfold Database.load_from_file
  simp only [getlines_unlines _ (file_lines_no_newline db ⟨c1, c2, c3⟩), hrun]
  have hcat : finalize st3.catalog st3.current_schema st3.current_rel = st3.result_catalog := rfl
  rw [hcat, build_database_nodup _ _ hnodup, t3, ht2, c3']
  have : st2.result_catalog = { schema_catalog := db.catalog_.schema_catalog
                                relationships := db.catalog_.relationships.map without_groups }
      := by
    cases hrc : st2.result_catalog with
    | mk sc rels =>
      rw [hrc] at hs2 hl2
      cases sc
      simp only [SystemCatalog.mk.injEq] at *
      cases hdb : db.catalog_.schema_catalog
      rw [hdb] at hs2
      simp_all
  rw [this]
  rfl

/-- C1, as the code has it: for every database whose table mapping has
pairwise distinct keys (iterated in any order), whose tables all have a
same-named schema, whose records populate every schema column, whose written
names and values contain no tab, colon, comma or newline, and which is
`reloadable` (no column name begins with an opening bracket, no member-key
list ends in an empty key, a table holding records has a non-empty name and at
least one column, records have no field outside the schema, first-column
values do not begin with an opening bracket), `save_to_file` succeeds and
`load_from_file` of the written text succeeds with the same schemas, the same
relationships up to `member.record_groups`, the same set of table names (each
once; nothing is said of the order in which the tables are iterated), and for
each table the same number of records in the same order answering every
`get_field` alike. -/
theorem save_load_round_trip (db : Database)
    (hmap : (UMap.keys db.tables_).Nodup)
    (hschema : tables_have_schema db) (hcomplete : records_complete db)
    (hclean : db.clean) (hre : db.reloadable) :
    (db.save_to_file true).2 = .ok () ∧
    ∃ db', Database.load_from_file (some (db.save_to_file true).1) = .ok db' ∧
      db'.catalog_.schema_catalog = db.catalog_.schema_catalog ∧
      db'.catalog_.relationships = db.catalog_.relationships.map without_groups ∧
      (∀ n, n ∈ UMap.keys db'.tables_ ↔ n ∈ UMap.keys db.tables_) ∧
      (UMap.keys db'.tables_).Nodup ∧
      ∀ n t, UMap.find db.tables_ n = some t →
        ∃ t', UMap.find db'.tables_ n = some t' ∧
          List.Forall₂ same_fields t.records_ t'.records_ := by
  rw [save_eq_file_lines db hschema hcomplete]
  refine ⟨rfl, _, load_file_lines db hmap hschema hcomplete hclean hre, rfl, rfl,
    fun n => by rw [keys_map_snd], by rw [keys_map_snd]; exact hmap, ?_⟩
  intro n t hfind
  refine ⟨_, find_map_snd _ _ n t hfind, ?_⟩
  have hmem := UMap.mem_of_find _ _ _ hfind
  obtain ⟨schema, hsch⟩ := Option.ne_none_iff_exists'.mp (hschema (n, t) hmem)
  have hsch' : find_schema db.catalog_.schema_catalog.schemas n = some schema := hsch
  simp only [reload_table, hsch']
  apply forall₂_map_of_forall
  intro r hr
  exact set_all_same schema.columns r (hcomplete (n, t) hmem schema hsch' r hr)
    ((hre.2.2 (n, t) hmem schema hsch').2 r hr).1


theorem save_load_round_trip_witness :
    (coffee_db.save_to_file true).2 = .ok () ∧
    ∃ db', Database.load_from_file (some (coffee_db.save_to_file true).1) = .ok db' ∧
      db'.catalog_.schema_catalog = coffee_db.catalog_.schema_catalog ∧
      db'.catalog_.relationships = coffee_db.catalog_.relationships.map without_groups ∧
      (∀ n, n ∈ UMap.keys db'.tables_ ↔ n ∈ UMap.keys coffee_db.tables_) ∧
      (UMap.keys db'.tables_).Nodup ∧
      ∀ n t, UMap.find coffee_db.tables_ n = some t →
        ∃ t', UMap.find db'.tables_ n = some t' ∧
          List.Forall₂ same_fields t.records_ t'.records_ :=
  save_load_round_trip coffee_db (by decide) (by decide) (by decide) (by decide) (by decide)

/-- C1 fails on the code. Each of these databases meets the premises of the
round trip as stated, and is not given back by `load_from_file` of its saved
text: a column name beginning with an opening bracket is read as a section
line and the column is lost; the records of a table with the empty name are
skipped; a field that is not a schema column is not written; a member-key
list made of one empty key is read back empty; the rows of a schema without
columns are empty lines and are skipped. -/
theorem round_trip_losses :
    (round_trip_premises bracket_db ∧
      Database.load_from_file (some (bracket_db.save_to_file true).1) =
        .ok ⟨⟨⟨[⟨"T".toList, []⟩]⟩, []⟩, []⟩) ∧
    (round_trip_premises unnamed_db ∧
      Database.load_from_file (some (unnamed_db.save_to_file true).1) =
        .ok ⟨unnamed_db.catalog_, [([], ⟨[]⟩)]⟩) ∧
    (round_trip_premises extra_field_db ∧
      Database.load_from_file (some (extra_field_db.save_to_file true).1) =
        .ok ⟨extra_field_db.catalog_,
          [("T".toList, ⟨[TableRecord.empty.set_field "a".toList "1".toList]⟩)]⟩ ∧
      (TableRecord.empty.set_field "a".toList "1".toList).get_field "b".toList =
        .error .KeyNotFound ∧
      ((TableRecord.empty.set_field "a".toList "1".toList).set_field
        "b".toList "2".toList).get_field "b".toList = .ok "2".toList) ∧
    (round_trip_premises empty_key_db ∧
      Database.load_from_file (some (empty_key_db.save_to_file true).1) =
        .ok ⟨⟨⟨[]⟩, [⟨"R".toList, ⟨"A".toList, [(⟨"C1".toList⟩, [])]⟩, ⟨"B".toList, []⟩⟩]⟩,
             []⟩) ∧
    (round_trip_premises no_columns_db ∧
      Database.load_from_file (some (no_columns_db.save_to_file true).1) =
        .ok ⟨no_columns_db.catalog_, [("T".toList, ⟨[]⟩)]⟩) := by
  decide

/-- C8, as the code has it: `save_to_file` writes, between the schema sections
and the data sections, the lines `relationship_lines` of every relationship in
order, that is after `[RELATIONSHIP:..]`, `Owner:..` and `Member:..` exactly
one line `Link:<ownerKey>:<memberKey1>,<memberKey2>,...` per entry of
`owner.links`, in link order and member-key order; and when the database
meets the conditions of the round trip (among them: no delimiter character in
the keys, and no member-key list ending in an empty key), `load_from_file` of
the written text yields relationships with the identical `owner.links`. -/
theorem link_round_trip (db : Database)
    (hmap : (UMap.keys db.tables_).Nodup)
    (hschema : tables_have_schema db) (hcomplete : records_complete db)
    (hclean : db.clean) (hre : db.reloadable) :
    (db.save_to_file true).1 =
      write_schemas db.catalog_.schema_catalog.schemas ++
        unlines (db.catalog_.relationships.flatMap relationship_lines) ++
        (write_tables db.catalog_.schema_catalog.schemas db.tables_).1 ∧
    (∀ r ∈ db.catalog_.relationships,
      (relationship_lines r).drop 3 = r.owner.links.map link_line) ∧
    ∃ db', Database.load_from_file (some (db.save_to_file true).1) = .ok db' ∧
      db'.catalog_.relationships.map (fun r => r.owner.links) =
        db.catalog_.relationships.map (fun r => r.owner.links) := by
  refine ⟨?_, fun r _ => rfl, ?_⟩
  · simp only [Database.save_to_file, Bool.not_true, Bool.false_eq_true, if_false,
      write_relationships_eq]
  · rw [save_eq_file_lines db hschema hcomplete]
    refine ⟨_, load_file_lines db hmap hschema hcomplete hclean hre, ?_⟩
    simp only [List.map_map]
    rfl

theorem link_round_trip_witness :
    relationship_lines company_hq =
      ["[RELATIONSHIP:CompanyHQ]".toList, "Owner:Company".toList, "Member:City".toList,
       "Link:C1:CT1".toList, "Link:C2:CT2".toList] ∧
    ∃ db', Database.load_from_file (some (coffee_db.save_to_file true).1) = .ok db' ∧
      db'.catalog_.relationships.map (fun r => r.owner.links) =
        [[(⟨"C1".toList⟩, [⟨"CT1".toList⟩]), (⟨"C2".toList⟩, [⟨"CT2".toList⟩])]] :=
  ⟨by decide,
   (link_round_trip coffee_db (by decide) (by decide) (by decide) (by decide) (by decide)).2.2⟩

/-- C8 fails on the code: the keys `C1` and the empty string contain no
delimiter character, the link `(C1, [""])` is written as `Link:C1:`, and it
is read back as `(C1, [])`. The keys alone do not decide either: with a
newline in the member table name, a relationship without links is read back
with one. -/
theorem link_round_trip_losses :
    (∀ r ∈ empty_key_db.catalog_.relationships, ∀ l ∈ r.owner.links,
      clean l.1.key_value ∧ ∀ m ∈ l.2, clean m.key_value) ∧
    empty_key_db.catalog_.relationships.map (fun r => r.owner.links) =
      [[(⟨"C1".toList⟩, [⟨[]⟩])]] ∧
    empty_key_db.save_to_file true =
      ("[RELATIONSHIP:R]\nOwner:A\nMember:B\nLink:C1:\n".toList, .ok ()) ∧
    (Database.load_from_file (some (empty_key_db.save_to_file true).1)).map
        (fun db' => db'.catalog_.relationships.map (fun r => r.owner.links)) =
      .ok [[(⟨"C1".toList⟩, [])]] ∧
    newline_db.catalog_.relationships.map (fun r => r.owner.links) = [[]] ∧
    (Database.load_from_file (some (newline_db.save_to_file true).1)).map
        (fun db' => db'.catalog_.relationships.map (fun r => r.owner.links)) =
      .ok [[(⟨"X".toList⟩, [⟨"Y".toList⟩])]] := by
  decide

/-! ## Delete: invariants and frame -/

theorem UMap.find_erase_ne {V : Type} (m : UMap V) (k n : Str) (h : n ≠ k) :
    UMap.find (UMap.erase m k) n = UMap.find m n := by
  induction m with
  | nil => rfl
  | cons e rest ih =>
    obtain ⟨k', v⟩ := e
    have ih' : UMap.find (List.filter (fun e => !decide (e.1 = k)) rest) n = UMap.find rest n := ih
    by_cases hk : k' = k
    · have hkn : ¬ k' = n := fun e => h (e.symm.trans hk)
      simp only [UMap.erase, List.filter_cons, hk, decide_True, Bool.not_true,
        Bool.false_eq_true, if_false, UMap.find, ih']
      subst hk
      simp only [hkn, if_false]
    · simp only [UMap.erase, List.filter_cons, hk, decide_False, Bool.not_false, if_true,
        UMap.find, ih']

theorem UMap.mem_keys_erase {V : Type} (m : UMap V) (k n : Str)
    (h : n ∈ UMap.keys (UMap.erase m k)) : n ∈ UMap.keys m ∧ n ≠ k := by
  have hne : n ≠ k := by
    intro e
    subst e
    exact ((UMap.find_eq_none_iff _ _).mp (UMap.find_erase_self m n)) h
  refine ⟨?_, hne⟩
  by_contra hn
  have h1 := (UMap.find_eq_none_iff _ _).mpr hn
  rw [← UMap.find_erase_ne m k n hne] at h1
  exact ((UMap.find_eq_none_iff _ _).mp h1) h

theorem DeleteDS_ok (db : Database) (T : Str) (h : ¬ UMap.find db.tables_ T = none) :
    db.DeleteDS T =
      ({ catalog_ :=
          { schema_catalog :=
              { schemas := db.catalog_.schema_catalog.schemas.filter
                  (fun s => !decide (s.name = T)) }
            relationships := db.catalog_.relationships.filter
              (fun rel => !(decide (rel.owner.table_name = T) ||
                            decide (rel.member.table_name = T))) }
         tables_ := UMap.erase db.tables_ T },
       .ok ()) := by
  simp only [Database.DeleteDS, h, if_false]

/-- C11. Delete preserves catalog-data consistency: when I1 and I2 hold before
`DeleteDS T` and the call succeeds, I1 and I2 hold for the database after the
call. -/
theorem DeleteDS_preserves_invariants (db : Database) (T : Str)
    (h1 : holds_I1 db) (h2 : holds_I2 db) (hok : (db.DeleteDS T).2 = .ok ()) :
    holds_I1 (db.DeleteDS T).1 ∧ holds_I2 (db.DeleteDS T).1 := by
  have hf : ¬ UMap.find db.tables_ T = none := by
    intro hnone
    simp [Database.DeleteDS, hnone] at hok
  rw [DeleteDS_ok db T hf]
  constructor
  · intro n hn
    obtain ⟨hmem, hne⟩ := UMap.mem_keys_erase _ _ _ hn
    obtain ⟨s, hs, hsn⟩ := h1 n hmem
    exact ⟨s, List.mem_filter.mpr ⟨hs, by simp [hsn, hne]⟩, hsn⟩
  · intro r hr
    obtain ⟨hr1, hr2⟩ := List.mem_filter.mp hr
    simp only [Bool.not_eq_true', Bool.or_eq_false_iff, decide_eq_false_iff_not] at hr2
    obtain ⟨⟨s, hs, hsn⟩, ⟨s', hs', hsn'⟩⟩ := h2 r hr1
    exact ⟨⟨s, List.mem_filter.mpr ⟨hs, by simp [hsn, hr2.1]⟩, hsn⟩,
      ⟨s', List.mem_filter.mpr ⟨hs', by simp [hsn', hr2.2]⟩, hsn'⟩⟩

theorem DeleteDS_preserves_invariants_witness :
    holds_I1 three_db ∧ holds_I2 three_db ∧
    holds_I1 (three_db.DeleteDS "B".toList).1 ∧ holds_I2 (three_db.DeleteDS "B".toList).1 :=
  ⟨by decide, by decide,
   DeleteDS_preserves_invariants three_db "B".toList (by decide) (by decide) (by decide)⟩

/-- C17. Delete frame: for `T` a key of the table mapping, after `DeleteDS T`
the schemas are the schemas whose name differs from `T` and the relationships
are the relationships with neither side equal to `T`, each a sublist of the
original list (same entries, same relative order), and every table name other
than `T` is mapped to the table it was mapped to. -/
theorem DeleteDS_frame (db : Database) (T : Str) (h : T ∈ UMap.keys db.tables_) :
    (db.DeleteDS T).1.catalog_.schema_catalog.schemas =
      db.catalog_.schema_catalog.schemas.filter (fun s => decide (s.name ≠ T)) ∧
    List.Sublist (db.DeleteDS T).1.catalog_.schema_catalog.schemas
      db.catalog_.schema_catalog.schemas ∧
    (db.DeleteDS T).1.catalog_.relationships =
      db.catalog_.relationships.filter
        (fun r => decide (r.owner.table_name ≠ T ∧ r.member.table_name ≠ T)) ∧
    List.Sublist (db.DeleteDS T).1.catalog_.relationships db.catalog_.relationships ∧
    (∀ n, n ≠ T → UMap.find (db.DeleteDS T).1.tables_ n = UMap.find db.tables_ n) ∧
    (∀ n, n ∈ UMap.keys (db.DeleteDS T).1.tables_ ↔ n ∈ UMap.keys db.tables_ ∧ n ≠ T) := by
  have hf : ¬ UMap.find db.tables_ T = none := by
    rw [UMap.find_eq_none_iff]; exact fun h' => h' h
  rw [DeleteDS_ok db T hf]
  refine ⟨?_, List.filter_sublist _, ?_, List.filter_sublist _,
    fun n hn => UMap.find_erase_ne _ _ _ hn, ?_⟩
  · show List.filter _ _ = List.filter _ _
    congr 1
    funext s
    simp
  · show List.filter _ _ = List.filter _ _
    congr 1
    funext r
    simp [not_or]
  · intro n
    constructor
    · exact UMap.mem_keys_erase _ _ _
    · rintro ⟨hmem, hne⟩
      by_contra hn
      have h1 := (UMap.find_eq_none_iff _ _).mpr hn
      rw [UMap.find_erase_ne _ _ _ hne] at h1
      exact ((UMap.find_eq_none_iff _ _).mp h1) hmem

theorem DeleteDS_frame_witness :
    (three_db.DeleteDS "B".toList).1 =
      ⟨⟨⟨[demo_schema "A".toList, demo_schema "C".toList]⟩, []⟩,
       [("A".toList, DataTable.empty), ("C".toList, DataTable.empty)]⟩ ∧
    (three_db.DeleteDS "A".toList).1.catalog_.relationships =
      [demo_rel "BC".toList "B".toList "C".toList] ∧
    UMap.find (three_db.DeleteDS "A".toList).1.tables_ "B".toList =
      UMap.find three_db.tables_ "B".toList :=
  ⟨by decide, by decide,
   (DeleteDS_frame three_db "A".toList (by decide)).2.2.2.2.1 "B".toList (by decide)⟩

/-! ## Empty lines -/

theorem getlines_eq_nil (d : Char) (s : Str) (h : getlines d s = []) : s = [] := by
  cases s with
  | nil => rfl
  | cons c cs =>
    exfalso
    by_cases hc : c = d
    · simp [getlines, hc] at h
    · rw [getlines, if_neg hc] at h
      cases hg : getlines d cs with
      | nil => rw [hg] at h; cases h
      | cons l ls => rw [hg] at h; cases h

theorem getlines_cons_ne (d c : Char) (s : Str) (hc : ¬ c = d) :
    getlines d (c :: s) =
      match getlines d s with
      | [] => [[c]]
      | l :: ls => (c :: l) :: ls := by
  cases h : getlines d s <;> simp [getlines, hc, h]

theorem getlines_append_line_start (d : Char) (p q : Str)
    (hp : p = [] ∨ p.getLast? = some d) :
    getlines d (p ++ q) = getlines d p ++ getlines d q := by
  induction p with
  | nil => rfl
  | cons c cs ih =>
    have hlast : (c :: cs).getLast? = some d := by
      rcases hp with h | h
      · cases h
      · exact h
    by_cases hc : c = d
    · have hcs : cs = [] ∨ cs.getLast? = some d := by
        cases cs with
        | nil => exact Or.inl rfl
        | cons c2 cs2 => exact Or.inr (by simpa [List.getLast?_cons_cons] using hlast)
      simp only [List.cons_append, getlines, hc, if_true, List.append_eq, ih hcs]
    · cases cs with
      | nil =>
        simp only [List.getLast?_singleton, Option.some.injEq] at hlast
        exact absurd hlast hc
      | cons c2 cs2 =>
        have hcs : (c2 :: cs2).getLast? = some d := by
          simpa [List.getLast?_cons_cons] using hlast
        have ih' := ih (Or.inr hcs)
        rw [List.cons_append, getlines_cons_ne d c _ hc, ih', getlines_cons_ne d c _ hc]
        cases hg : getlines d (c2 :: cs2) with
        | nil => exact absurd (getlines_eq_nil d _ hg) (List.cons_ne_nil _ _)
        | cons l ls => rfl

theorem nonempty_lines_append (a b : List Str) :
    nonempty_lines (a ++ b) = nonempty_lines a ++ nonempty_lines b := by
  induction a with
  | nil => rfl
  | cons l rest ih =>
    by_cases h : l = []
    · simp only [List.cons_append, nonempty_lines, h, if_true, List.append_eq, ih]
    · simp only [List.cons_append, nonempty_lines, h, if_false, List.append_eq, ih]

theorem nonempty_lines_insert (p q : Str) (hp : p = [] ∨ p.getLast? = some '\n') :
    nonempty_lines (getlines '\n' (p ++ '\n' :: q)) = nonempty_lines (getlines '\n' (p ++ q)) := by
  rw [getlines_append_line_start '\n' p _ hp, getlines_append_line_start '\n' p q hp,
    nonempty_lines_append, nonempty_lines_append]
  simp [getlines, nonempty_lines]

/-- C20. Empty lines are ignored everywhere: two input texts with the same
sequence of non-empty lines give the same outcome of `load_from_file`, the
same database or the same error; in particular inserting (or removing) an
empty line at the start of the text or after any newline does not change the
outcome. -/
theorem load_ignores_empty_lines :
    (∀ t1 t2 : Str,
      nonempty_lines (getlines '\n' t1) = nonempty_lines (getlines '\n' t2) →
      Database.load_from_file (some t1) = Database.load_from_file (some t2)) ∧
    (∀ p q : Str, (p = [] ∨ p.getLast? = some '\n') →
      Database.load_from_file (some (p ++ '\n' :: q)) = Database.load_from_file (some (p ++ q))) := by
  have h1 : ∀ t1 t2 : Str,
      nonempty_lines (getlines '\n' t1) = nonempty_lines (getlines '\n' t2) →
      Database.load_from_file (some t1) = Database.load_from_file (some t2) := by
    intro t1 t2 h
    rw [load_eq_run, load_eq_run, h]
  exact ⟨h1, fun p q hp => h1 _ _ (nonempty_lines_insert p q hp)⟩

theorem load_ignores_empty_lines_witness :
    Database.load_from_file
        (some "[SCHEMA:T]\na:int\n[DATA:T]\n\na\t\n\n1\t\n\n2\t\n".toList) =
      Database.load_from_file (some "[SCHEMA:T]\na:int\n[DATA:T]\na\t\n1\t\n2\t\n".toList) ∧
    Database.load_from_file (some ("[DATA:T]\n".toList ++ '\n' :: "h\nrow\n".toList)) =
      Database.load_from_file (some ("[DATA:T]\n".toList ++ "h\nrow\n".toList)) :=
  ⟨load_ignores_empty_lines.1 _ _ (by decide),
   load_ignores_empty_lines.2 "[DATA:T]\n".toList "h\nrow\n".toList (by decide)⟩

/-! ## The header line -/

theorem starts_with_data (dl : Str) (h : starts_with dl "[DATA:".toList = true) :
    dl.head? = some '[' ∧ starts_with dl "[SCHEMA:".toList = false ∧
      starts_with dl "[RELATIONSHIP:".toList = false := by
  have e : "[DATA:".toList = '[' :: 'D' :: "ATA:".toList := rfl
  have e1 : "[SCHEMA:".toList = '[' :: 'S' :: "CHEMA:".toList := rfl
  have e2 : "[RELATIONSHIP:".toList = '[' :: 'R' :: "ELATIONSHIP:".toList := rfl
  rw [e] at h
  cases dl with
  | nil => simp [starts_with] at h
  | cons a rest =>
    cases rest with
    | nil => simp [starts_with, List.isPrefixOf] at h
    | cons b rest2 =>
      simp only [starts_with, List.isPrefixOf, Bool.and_eq_true, beq_iff_eq] at h
      obtain ⟨ha, hb, _⟩ := h
      subst ha; subst hb
      rw [e1, e2]
      exact ⟨rfl, starts_with_second _ _ _ _ _ (by decide),
        starts_with_second _ _ _ _ _ (by decide)⟩

theorem step_data_header_indep (st : LoadState) (dl hdr hdr' : Str)
    (hdl : starts_with dl "[DATA:".toList = true)
    (h1 : hdr ≠ []) (h2 : hdr.head? ≠ some '[') (h1' : hdr' ≠ []) (h2' : hdr'.head? ≠ some '[') :
    step (section_line st dl) hdr = step (section_line st dl) hdr' := by
  obtain ⟨_, hs, hr⟩ := starts_with_data dl hdl
  have hsec : (section_line st dl).current_schema = none ∧
      (section_line st dl).current_rel = none ∧
      (section_line st dl).data_header_processed = false := by
    refine ⟨?_, ?_, ?_⟩ <;>
      simp only [section_line, hs, hr, hdl, if_true, if_false, Bool.false_eq_true]
  obtain ⟨c1, c2, c3⟩ := hsec
  by_cases hd : (section_line st dl).current_data_table = []
  · rw [step_outside _ hdr c1 c2 hd h2, step_outside _ hdr' c1 c2 hd h2']
  · rw [step_in_data _ hdr c1 c2 hd h1 h2, step_in_data _ hdr' c1 c2 hd h1' h2',
      data_line_header _ hdr c3, data_line_header _ hdr' c3]

/-- C12. The header is discarded on read: when two input texts have the same
non-empty lines except for the line that follows a `[DATA:..]` line, and that
line does not begin with an opening bracket in either text, `load_from_file`
gives the same outcome for both. -/
theorem load_ignores_header (text text' : Str) (pre post : List Str) (dl hdr hdr' : Str)
    (hlines : nonempty_lines (getlines '\n' text) = pre ++ dl :: hdr :: post)
    (hlines' : nonempty_lines (getlines '\n' text') = pre ++ dl :: hdr' :: post)
    (hdl : starts_with dl "[DATA:".toList = true)
    (hhdr : hdr.head? ≠ some '[') (hhdr' : hdr'.head? ≠ some '[') :
    Database.load_from_file (some text) = Database.load_from_file (some text') := by
  have h1 : hdr ≠ [] := by
    apply mem_nonempty_lines (getlines '\n' text)
    rw [hlines]; simp
  have h1' : hdr' ≠ [] := by
    apply mem_nonempty_lines (getlines '\n' text')
    rw [hlines']; simp
  obtain ⟨hb, _, _⟩ := starts_with_data dl hdl
  have hstep : ∀ st, step st dl = .ok (section_line st dl) := by
    intro st
    cases dl with
    | nil => simp at hb
    | cons a rest =>
      simp only [List.head?_cons, Option.some.injEq] at hb
      subst hb
      exact step_section st rest
  rw [load_eq_run, load_eq_run, hlines, hlines', run_append, run_append]
  cases hp : run LoadState.init pre with
  | error e => rfl
  | ok st =>
    simp only [run, hstep st, step_data_header_indep st dl hdr hdr' hdl h1 hhdr h1' hhdr']

theorem load_ignores_header_witness :
    Database.load_from_file (some "[SCHEMA:T]\na:int\nb:int\n[DATA:T]\na\tb\t\n1\t2\t\n".toList) =
      Database.load_from_file
        (some "[SCHEMA:T]\na:int\nb:int\n[DATA:T]\nb, a and more\n1\t2\t\n".toList) :=
  load_ignores_header _ _ ["[SCHEMA:T]".toList, "a:int".toList, "b:int".toList]
    ["1\t2\t".toList] "[DATA:T]".toList "a\tb\t".toList "b, a and more".toList
    (by decide) (by decide) (by decide) (by decide) (by decide)

/-! ## Reading: case analysis of one step -/

theorem data_line_cases (st st' : LoadState) (line : Str) (h : data_line st line = .ok st') :
    (st.data_header_processed = false ∧
      st' = { st with tables := st.tables.emplace st.current_data_table DataTable.empty,
                      data_header_processed := true }) ∨
    (st.data_header_processed = true ∧
      ∃ schema rec,
        find_schema st.catalog.schema_catalog.schemas st.current_data_table = some schema ∧
        parse_record schema.columns line TableRecord.empty = .ok rec ∧
        st' = LoadState.mk st.catalog
          (UMap.modify (UMap.emplace st.tables st.current_data_table DataTable.empty)
            st.current_data_table (fun tbl => tbl.insert_record rec))
          st.current_section st.current_schema st.current_rel st.current_data_table
          st.data_header_processed) := by
  by_cases hh : st.data_header_processed = true
  · right
    refine ⟨hh, ?_⟩
    cases hs : find_schema st.catalog.schema_catalog.schemas st.current_data_table with
    | none => rw [data_line_missing st line hh hs] at h; cases h
    | some schema =>
      rw [data_line_row st line schema hh hs] at h
      cases hp : parse_record schema.columns line TableRecord.empty with
      | error e => simp [hp] at h
      | ok rec =>
        simp only [hp, Except.ok.injEq] at h
        exact ⟨schema, rec, rfl, hp, h.symm⟩
  · left
    have hf : st.data_header_processed = false := by simpa using hh
    rw [data_line_header st line hf] at h
    simp only [Except.ok.injEq] at h
    exact ⟨hf, h.symm⟩

theorem step_cases (st st' : LoadState) (line : Str) (h : step st line = .ok st') :
    (line = [] ∧ st' = st) ∨
    (line.head? = some '[' ∧ st' = section_line st line) ∨
    (line.head? ≠ some '[' ∧ ∃ schema, st.current_schema = some schema ∧
      st' = { st with current_schema := some (schema_line schema line) }) ∨
    (line.head? ≠ some '[' ∧ st.current_schema = none ∧ ∃ rel, st.current_rel = some rel ∧
      st' = { st with current_rel := some (relationship_line rel line) }) ∨
    (line.head? ≠ some '[' ∧ st.current_schema = none ∧ st.current_rel = none ∧
      st.current_data_table ≠ [] ∧ data_line st line = .ok st') ∨
    (line.head? ≠ some '[' ∧ st.current_schema = none ∧ st.current_rel = none ∧
      st.current_data_table = [] ∧ st' = st) := by
  by_cases h1 : line = []
  · left
    simp only [step, h1, if_true, Except.ok.injEq] at h
    exact ⟨h1, h.symm⟩
  · by_cases h2 : line.head? = some '['
    · right; left
      simp only [step, h1, h2, if_true, if_false, Except.ok.injEq] at h
      exact ⟨h2, h.symm⟩
    · right; right
      cases hs : st.current_schema with
      | some schema =>
        left
        rw [step_in_schema st schema line hs h1 h2] at h
        simp only [Except.ok.injEq] at h
        exact ⟨h2, schema, rfl, h.symm⟩
      | none =>
        right
        cases hr : st.current_rel with
        | some rel =>
          left
          rw [step_in_relationship st rel line hs hr h1 h2] at h
          simp only [Except.ok.injEq] at h
          exact ⟨h2, rfl, rel, rfl, by rw [← h, hs]⟩
        | none =>
          right
          by_cases hd : st.current_data_table = []
          · right
            rw [step_outside st line hs hr hd h2] at h
            simp only [Except.ok.injEq] at h
            exact ⟨h2, rfl, rfl, hd, h.symm⟩
          · left
            rw [step_in_data st line hs hr hd h1 h2] at h
            exact ⟨h2, rfl, rfl, hd, h⟩

theorem run_invariant (P : LoadState → Prop)
    (hstep : ∀ st line st', P st → step st line = .ok st' → P st')
    (st st' : LoadState) (ls : List Str) (h0 : P st) (h : run st ls = .ok st') : P st' := by
  induction ls generalizing st with
  | nil =>
    simp only [run, Except.ok.injEq] at h
    exact h ▸ h0
  | cons l rest ih =>
    unfold run at h
    cases hs : step st l with
    | error e => simp [hs] at h
    | ok st1 =>
      simp only [hs] at h
      exact ih st1 (hstep st l st1 h0 hs) h

theorem build_database_catalog (catalog : SystemCatalog) (tables : UMap DataTable) :
    (build_database catalog tables).catalog_ = catalog := by
  unfold build_database
  generalize hdb : Database.mk catalog [] = db
  have hc : db.catalog_ = catalog := by rw [← hdb]
  clear hdb
  induction tables generalizing db with
  | nil => exact hc
  | cons e rest ih => exact ih _ (by simpa [Database.set_table] using hc)

theorem load_ok (text : Str) (db : Database)
    (h : Database.load_from_file (some text) = .ok db) :
    ∃ st, run LoadState.init (getlines '\n' text) = .ok st ∧
      db = build_database st.result_catalog st.tables := by
  unfold Database.load_from_file at h
  cases hr : run LoadState.init (getlines '\n' text) with
  | error e => simp [hr] at h
  | ok st =>
    simp only [hr, Except.ok.injEq] at h
    exact ⟨st, rfl, h.symm⟩

/-! ## Relationships in the loaded catalog -/

theorem starts_with_relationship (line : Str)
    (h : starts_with line "[RELATIONSHIP:".toList = true) :
    line.head? = some '[' ∧ starts_with line "[SCHEMA:".toList = false := by
  have e : "[RELATIONSHIP:".toList = '[' :: 'R' :: "ELATIONSHIP:".toList := rfl
  have e1 : "[SCHEMA:".toList = '[' :: 'S' :: "CHEMA:".toList := rfl
  rw [e] at h
  cases line with
  | nil => simp [starts_with] at h
  | cons a rest =>
    cases rest with
    | nil => simp [starts_with, List.isPrefixOf] at h
    | cons b rest2 =>
      simp only [starts_with, List.isPrefixOf, Bool.and_eq_true, beq_iff_eq] at h
      obtain ⟨ha, hb, _⟩ := h
      subst ha; subst hb
      rw [e1]
      exact ⟨rfl, starts_with_second _ _ _ _ _ (by decide)⟩

theorem starts_with_schema (line : Str) (h : starts_with line "[SCHEMA:".toList = true) :
    line.head? = some '[' := by
  have e : "[SCHEMA:".toList = '[' :: "SCHEMA:".toList := rfl
  rw [e] at h
  cases line with
  | nil => simp [starts_with] at h
  | cons a rest =>
    simp only [starts_with, List.isPrefixOf, Bool.and_eq_true, beq_iff_eq] at h
    rw [h.1]
    rfl

theorem section_line_relationships (st : LoadState) (line : Str) :
    (section_line st line).result_catalog.relationships =
      st.result_catalog.relationships ++
        (match declared_relationship line with
         | some n => [⟨n, ⟨[], []⟩, ⟨[], []⟩⟩]
         | none => []) := by
  by_cases hr : starts_with line "[RELATIONSHIP:".toList = true
  · obtain ⟨_, hs⟩ := starts_with_relationship line hr
    simp only [section_line, declared_relationship, LoadState.result_catalog, hs, hr, if_true,
      if_false, Bool.false_eq_true, finalize_relationships, Option.toList_some]
  · have hr' : starts_with line "[RELATIONSHIP:".toList = false := by simpa using hr
    unfold section_line declared_relationship LoadState.result_catalog
    simp only [hr', Bool.false_eq_true, if_false]
    split_ifs <;> simp [finalize_relationships]

theorem relationship_line_frame (rel : RelationshipMetadata) (line : Str) :
    (relationship_line rel line).name = rel.name ∧
      (relationship_line rel line).member.record_groups = rel.member.record_groups := by
  unfold relationship_line
  split_ifs <;> exact ⟨rfl, rfl⟩

theorem step_relationships (st st' : LoadState) (line : Str) (h : step st line = .ok st') :
    st'.result_catalog.relationships.map (fun r => (r.name, r.member.record_groups)) =
      st.result_catalog.relationships.map (fun r => (r.name, r.member.record_groups)) ++
        (declared_relationship line).toList.map (fun n => (n, [])) := by
  have hnone : line.head? ≠ some '[' → declared_relationship line = none := by
    intro hb
    unfold declared_relationship
    split_ifs with hr
    · exact absurd (starts_with_relationship line hr).1 hb
    · rfl
  rcases step_cases st st' line h with ⟨h1, rfl⟩ | ⟨_, rfl⟩ | ⟨hb, schema, hs, rfl⟩ |
    ⟨hb, hs, rel, hr, rfl⟩ | ⟨hb, hs, hr, hd, hdl⟩ | ⟨hb, _, _, _, rfl⟩
  · subst h1
    simp [declared_relationship, starts_with]
  · rw [section_line_relationships]
    cases declared_relationship line <;> simp
  · rw [hnone hb]
    simp [LoadState.result_catalog, finalize_relationships]
  · rw [hnone hb]
    simp [LoadState.result_catalog, finalize_relationships, hr, relationship_line_frame]
  · rw [hnone hb]
    obtain ⟨e1, e2, e3⟩ := data_line_catalog st st' line hdl
    simp [LoadState.result_catalog, e1, e2, e3]
  · rw [hnone hb]
    simp

theorem run_relationships_loaded (st st' : LoadState) (ls : List Str)
    (h : run st ls = .ok st') :
    st'.result_catalog.relationships.map (fun r => (r.name, r.member.record_groups)) =
      st.result_catalog.relationships.map (fun r => (r.name, r.member.record_groups)) ++
        (ls.filterMap declared_relationship).map (fun n => (n, [])) := by
  induction ls generalizing st with
  | nil =>
    simp only [run, Except.ok.injEq] at h
    subst h
    simp
  | cons l rest ih =>
    unfold run at h
    cases hs : step st l with
    | error e => simp [hs] at h
    | ok st1 =>
      simp only [hs] at h
      rw [ih st1 h, step_relationships st st1 l hs]
      cases hd : declared_relationship l <;> simp [List.filterMap_cons, hd]

theorem write_relationships_without_groups (rels : List RelationshipMetadata) :
    write_relationships (rels.map without_groups) = write_relationships rels := by
  induction rels with
  | nil => rfl
  | cons r rest ih => simp [write_relationships, without_groups, ih]

/-- C14. `member.record_groups` is not serialized: two databases that differ
only in the `member.record_groups` of their relationships are saved to the
same text with the same outcome; and every relationship of a database
returned by `load_from_file` has empty `member.record_groups`. -/
theorem record_groups_not_serialized :
    (∀ (db1 db2 : Database) (opened : Bool),
      db1.catalog_.schema_catalog = db2.catalog_.schema_catalog →
      db1.tables_ = db2.tables_ →
      db1.catalog_.relationships.map without_groups =
        db2.catalog_.relationships.map without_groups →
      db1.save_to_file opened = db2.save_to_file opened) ∧
    (∀ (text : Str) (db : Database), Database.load_from_file (some text) = .ok db →
      ∀ r ∈ db.catalog_.relationships, r.member.record_groups = []) := by
  constructor
  · intro db1 db2 opened h1 h2 h3
    have hw : write_relationships db1.catalog_.relationships =
        write_relationships db2.catalog_.relationships := by
      rw [← write_relationships_without_groups db1.catalog_.relationships, h3,
        write_relationships_without_groups]
    simp only [Database.save_to_file, h1, h2, hw]
  · intro text db h r hr
    obtain ⟨st, hrun, rfl⟩ := load_ok text db h
    rw [build_database_catalog] at hr
    have hf := run_relationships_loaded _ _ _ hrun
    have hmem : (r.name, r.member.record_groups) ∈
        st.result_catalog.relationships.map (fun r => (r.name, r.member.record_groups)) :=
      List.mem_map.mpr ⟨r, hr, rfl⟩
    rw [hf] at hmem
    simp only [LoadState.result_catalog, LoadState.init, finalize, List.map_nil, List.nil_append,
      List.mem_map, Prod.mk.injEq] at hmem
    obtain ⟨n, _, _, hg⟩ := hmem
    exact hg.symm


theorem record_groups_not_serialized_witness :
    company_hq.member.record_groups ≠ [] ∧
    coffee_db.save_to_file true =
      (Database.mk ⟨coffee_db.catalog_.schema_catalog, [without_groups company_hq]⟩
        coffee_db.tables_).save_to_file true ∧
    ∀ r ∈ hq_db.catalog_.relationships, r.member.record_groups = [] :=
  ⟨by decide,
   record_groups_not_serialized.1 coffee_db
     (Database.mk ⟨coffee_db.catalog_.schema_catalog, [without_groups company_hq]⟩
        coffee_db.tables_) true rfl rfl (by decide),
   record_groups_not_serialized.2 hq_text hq_db (by decide)⟩

/-! ## Sections in the loaded catalog -/

theorem step_schema_list (st st' : LoadState) (line : Str) (h : step st line = .ok st') :
    st'.result_catalog.schema_catalog.schemas.map (fun s => s.name) =
      st.result_catalog.schema_catalog.schemas.map (fun s => s.name) ++
        (declared_schema line).toList := by
  have hnone : line.head? ≠ some '[' → declared_schema line = none := by
    intro hb
    simp [declared_schema, hb]
  rcases step_cases st st' line h with ⟨h1, rfl⟩ | ⟨hb, rfl⟩ | ⟨hb, schema, hs, rfl⟩ |
    ⟨hb, hs, rel, hr, rfl⟩ | ⟨hb, hs, hr, hd, hdl⟩ | ⟨hb, _, _, _, rfl⟩
  · subst h1
    simp [declared_schema]
  · rw [section_line_schemas st line hb]
    cases declared_schema line <;> simp
  · rw [hnone hb]
    simp [LoadState.result_catalog, finalize_schemas, hs, schema_line_name]
  · rw [hnone hb]
    simp [LoadState.result_catalog, finalize_schemas]
  · rw [hnone hb]
    obtain ⟨e1, e2, e3⟩ := data_line_catalog st st' line hdl
    simp [LoadState.result_catalog, e1, e2, e3]
  · rw [hnone hb]
    simp

theorem run_schema_list (st st' : LoadState) (ls : List Str) (h : run st ls = .ok st') :
    st'.result_catalog.schema_catalog.schemas.map (fun s => s.name) =
      st.result_catalog.schema_catalog.schemas.map (fun s => s.name) ++
        ls.filterMap declared_schema := by
  induction ls generalizing st with
  | nil =>
    simp only [run, Except.ok.injEq] at h
    subst h
    simp
  | cons l rest ih =>
    unfold run at h
    cases hs : step st l with
    | error e => simp [hs] at h
    | ok st1 =>
      simp only [hs] at h
      rw [ih st1 h, step_schema_list st st1 l hs]
      cases hd : declared_schema l <;> simp [List.filterMap_cons, hd]

theorem length_declared_schema (ls : List Str) :
    (ls.filterMap declared_schema).length =
      (ls.filter (fun l => starts_with l "[SCHEMA:".toList)).length := by
  induction ls with
  | nil => rfl
  | cons l rest ih =>
    by_cases h : starts_with l "[SCHEMA:".toList = true
    · have hd : declared_schema l = some (substr l 8 (size_t_sub l.length 9)) := by
        simp only [declared_schema, starts_with_schema l h, h, and_self, if_true]
      simp only [List.filterMap_cons, hd, List.filter_cons, h, if_true, List.length_cons, ih]
    · have hd : declared_schema l = none := by
        simp only [declared_schema, h, and_false, if_false, Bool.false_eq_true]
      simp only [List.filterMap_cons, hd, List.filter_cons, h, if_false, ih, Bool.false_eq_true]

theorem length_declared_relationship (ls : List Str) :
    (ls.filterMap declared_relationship).length =
      (ls.filter (fun l => starts_with l "[RELATIONSHIP:".toList)).length := by
  induction ls with
  | nil => rfl
  | cons l rest ih =>
    by_cases h : starts_with l "[RELATIONSHIP:".toList = true
    · have hd : declared_relationship l = some (substr l 14 (size_t_sub l.length 15)) := by
        simp only [declared_relationship, h, if_true]
      simp only [List.filterMap_cons, hd, List.filter_cons, h, if_true, List.length_cons, ih]
    · have hd : declared_relationship l = none := by
        simp only [declared_relationship, h, if_false, Bool.false_eq_true]
      simp only [List.filterMap_cons, hd, List.filter_cons, h, if_false, ih, Bool.false_eq_true]

/-- C15. Section finalization: when `load_from_file` succeeds, the schemas of
the loaded catalog are, in file order, one per line beginning with `[SCHEMA:`
and named as that line declares, and the relationships are, in file order, one
per line beginning with `[RELATIONSHIP:`; the section still open when the
input ends is among them. -/
theorem load_sections_in_order (text : Str) (db : Database)
    (h : Database.load_from_file (some text) = .ok db) :
    db.catalog_.schema_catalog.schemas.map (fun s => s.name) =
      (getlines '\n' text).filterMap declared_schema ∧
    db.catalog_.relationships.map (fun r => r.name) =
      (getlines '\n' text).filterMap declared_relationship ∧
    db.catalog_.schema_catalog.schemas.length =
      ((getlines '\n' text).filter (fun l => starts_with l "[SCHEMA:".toList)).length ∧
    db.catalog_.relationships.length =
      ((getlines '\n' text).filter (fun l => starts_with l "[RELATIONSHIP:".toList)).length := by
  obtain ⟨st, hrun, rfl⟩ := load_ok text db h
  rw [build_database_catalog]
  have hs := run_schema_list _ _ _ hrun
  have hr := run_relationships_loaded _ _ _ hrun
  have hs' : st.result_catalog.schema_catalog.schemas.map (fun s => s.name) =
      (getlines '\n' text).filterMap declared_schema := by
    rw [hs]; simp [LoadState.result_catalog, LoadState.init, finalize]
  have hr' : st.result_catalog.relationships.map (fun r => r.name) =
      (getlines '\n' text).filterMap declared_relationship := by
    have := congrArg (List.map Prod.fst) hr
    simpa [LoadState.result_catalog, LoadState.init, finalize, List.map_map,
      Function.comp_def] using this
  refine ⟨hs', hr', ?_, ?_⟩
  · rw [← length_declared_schema, ← hs', List.length_map]
  · rw [← length_declared_relationship, ← hr', List.length_map]

theorem load_sections_in_order_witness :
    hq_db.catalog_.schema_catalog.schemas.map (fun s => s.name) = ["Company".toList] ∧
    hq_db.catalog_.relationships.map (fun r => r.name) = ["CompanyHQ".toList] ∧
    (getlines '\n' hq_text).getLast? = some "Link:C1:CT1".toList :=
  ⟨(load_sections_in_order hq_text hq_db (by decide)).1.trans (by decide),
   (load_sections_in_order hq_text hq_db (by decide)).2.1.trans (by decide),
   by decide⟩

/-! ## Loaded records are schema-complete -/

theorem find_schema_append (a b : List TableSchema) (n : Str) (s : TableSchema)
    (h : find_schema a n = some s) : find_schema (a ++ b) n = some s := by
  induction a with
  | nil => simp [find_schema] at h
  | cons x rest ih =>
    by_cases hx : x.name = n
    · simpa [find_schema, hx] using h
    · simp only [find_schema, hx, if_false] at h
      simpa [find_schema, hx] using ih h

theorem schema_complete_append (a b : List TableSchema) (tables : UMap DataTable)
    (h : schema_complete a tables) : schema_complete (a ++ b) tables := by
  intro e he r hr
  obtain ⟨s, hs, hp⟩ := h e he r hr
  exact ⟨s, find_schema_append a b e.1 s hs, hp⟩

theorem UMap.mem_emplace {V : Type} (m : UMap V) (k : Str) (v : V) (e : Str × V)
    (h : e ∈ UMap.emplace m k v) : e ∈ m ∨ e = (k, v) := by
  induction m with
  | nil =>
    simp only [UMap.emplace, List.mem_singleton] at h
    exact Or.inr h
  | cons x rest ih =>
    obtain ⟨k', v'⟩ := x
    by_cases hk : k' = k
    · simp only [UMap.emplace, hk, if_true] at h
      exact Or.inl (hk ▸ h)
    · simp only [UMap.emplace, hk, if_false, List.mem_cons] at h
      rcases h with h | h
      · exact Or.inl (h ▸ List.mem_cons_self _ _)
      · rcases ih h with h' | h'
        · exact Or.inl (List.mem_cons_of_mem _ h')
        · exact Or.inr h'

theorem UMap.mem_modify {V : Type} (m : UMap V) (k : Str) (f : V → V) (e : Str × V)
    (h : e ∈ UMap.modify m k f) : e ∈ m ∨ ∃ v, (k, v) ∈ m ∧ e = (k, f v) := by
  induction m with
  | nil => simp [UMap.modify] at h
  | cons x rest ih =>
    obtain ⟨k', v'⟩ := x
    by_cases hk : k' = k
    · simp only [UMap.modify, hk, if_true, List.mem_cons] at h
      rcases h with h | h
      · exact Or.inr ⟨v', hk ▸ List.mem_cons_self _ _, h⟩
      · exact Or.inl (List.mem_cons_of_mem _ h)
    · simp only [UMap.modify, hk, if_false, List.mem_cons] at h
      rcases h with h | h
      · exact Or.inl (h ▸ List.mem_cons_self _ _)
      · rcases ih h with h' | ⟨v, hv, he⟩
        · exact Or.inl (List.mem_cons_of_mem _ h')
        · exact Or.inr ⟨v, List.mem_cons_of_mem _ hv, he⟩

theorem UMap.mem_assign {V : Type} (m : UMap V) (k : Str) (v : V) (e : Str × V)
    (h : e ∈ UMap.assign m k v) : e ∈ m ∨ e = (k, v) := by
  induction m with
  | nil =>
    simp only [UMap.assign, List.mem_singleton] at h
    exact Or.inr h
  | cons x rest ih =>
    obtain ⟨k', v'⟩ := x
    by_cases hk : k' = k
    · simp only [UMap.assign, hk, if_true, List.mem_cons] at h
      rcases h with h | h
      · exact Or.inr h
      · exact Or.inl (List.mem_cons_of_mem _ h)
    · simp only [UMap.assign, hk, if_false, List.mem_cons] at h
      rcases h with h | h
      · exact Or.inl (h ▸ List.mem_cons_self _ _)
      · rcases ih h with h' | h'
        · exact Or.inl (List.mem_cons_of_mem _ h')
        · exact Or.inr h'

theorem build_database_mem (catalog : SystemCatalog) (tables : UMap DataTable)
    (e : Str × DataTable) (h : e ∈ (build_database catalog tables).tables_) : e ∈ tables := by
  unfold build_database at h
  have key : ∀ (l : UMap DataTable) (db : Database),
      e ∈ (l.foldl (fun db x => db.set_table x.1 x.2) db).tables_ → e ∈ db.tables_ ∨ e ∈ l := by
    intro l
    induction l with
    | nil => intro db h; exact Or.inl h
    | cons x rest ih =>
      intro db h
      rcases ih _ h with h' | h'
      · rcases UMap.mem_assign _ _ _ _ h' with h'' | h''
        · exact Or.inl h''
        · exact Or.inr (h'' ▸ List.mem_cons_self _ _)
      · exact Or.inr (List.mem_cons_of_mem _ h')
  rcases key tables _ h with h' | h'
  · cases h'
  · exact h'

theorem parse_record_populates (cols : List ColumnMetadata) (iss : Str) (acc rec : TableRecord)
    (h : parse_record cols iss acc = .ok rec) :
    populates cols rec ∧ ∀ x ∈ UMap.keys acc.fields_, x ∈ UMap.keys rec.fields_ := by
  induction cols generalizing iss acc with
  | nil =>
    simp only [parse_record, Except.ok.injEq] at h
    subst h
    exact ⟨fun c hc => (by cases hc), fun x hx => hx⟩
  | cons c cs ih =>
    unfold parse_record at h
    cases hg : getline '\t' iss with
    | none => simp [hg] at h
    | some p =>
      obtain ⟨v, iss'⟩ := p
      simp only [hg] at h
      obtain ⟨ih1, ih2⟩ := ih iss' _ h
      have hc : c.name ∈ UMap.keys (acc.set_field c.name v).fields_ :=
        (UMap.keys_assign _ _ _ _).mpr (Or.inl rfl)
      refine ⟨?_, ?_⟩
      · intro c' hc'
        simp only [List.mem_cons] at hc'
        rcases hc' with rfl | hc'
        · exact ih2 _ hc
        · exact ih1 c' hc'
      · intro x hx
        exact ih2 x ((UMap.keys_assign _ _ _ _).mpr (Or.inr hx))

theorem step_schema_complete (st st' : LoadState) (line : Str)
    (h0 : schema_complete st.catalog.schema_catalog.schemas st.tables)
    (h : step st line = .ok st') :
    schema_complete st'.catalog.schema_catalog.schemas st'.tables := by
  rcases step_cases st st' line h with ⟨_, rfl⟩ | ⟨_, rfl⟩ | ⟨_, schema, _, rfl⟩ |
    ⟨_, _, rel, _, rfl⟩ | ⟨_, _, _, _, hdl⟩ | ⟨_, _, _, _, rfl⟩
  · exact h0
  · have hcat : ∀ t, schema_complete
        (finalize st.catalog st.current_schema st.current_rel).schema_catalog.schemas t →
        schema_complete (section_line st line).catalog.schema_catalog.schemas t := by
      intro t ht
      unfold section_line
      split_ifs <;> exact ht
    have hbase : schema_complete
        (finalize st.catalog st.current_schema st.current_rel).schema_catalog.schemas st.tables := by
      rw [finalize_schemas]
      exact schema_complete_append _ _ _ h0
    apply hcat
    intro e he r hr
    have hmem : e ∈ st.tables ∨ e.2.records_ = [] := by
      unfold section_line at he
      split_ifs at he
      · exact Or.inl he
      · exact Or.inl he
      · rcases UMap.mem_emplace _ _ _ _ he with h' | h'
        · exact Or.inl h'
        · exact Or.inr (by rw [h']; rfl)
      · exact Or.inl he
    rcases hmem with h' | h'
    · exact hbase e h' r hr
    · rw [h'] at hr; cases hr
  · exact h0
  · exact h0
  · rcases data_line_cases st st' line hdl with ⟨_, rfl⟩ | ⟨_, schema, rec, hs, hp, rfl⟩
    · intro e he r hr
      rcases UMap.mem_emplace _ _ _ _ he with h' | h'
      · exact h0 e h' r hr
      · rw [h'] at hr; cases hr
    · intro e he r hr
      rcases UMap.mem_modify _ _ _ _ he with h' | ⟨v, hv, rfl⟩
      · rcases UMap.mem_emplace _ _ _ _ h' with h'' | h''
        · exact h0 e h'' r hr
        · rw [h''] at hr; cases hr
      · simp only [DataTable.insert_record, List.mem_append, List.mem_singleton] at hr
        rcases hr with hr | rfl
        · rcases UMap.mem_emplace _ _ _ _ hv with h'' | h''
          · exact h0 _ h'' r hr
          · simp only [Prod.mk.injEq] at h''
            rw [h''.2] at hr; cases hr
        · exact ⟨schema, hs, (parse_record_populates _ _ _ _ hp).1⟩
  · exact h0

/-- C19. Loaded records are schema-complete: when `load_from_file` succeeds,
every record of every loaded table `T` has a value for every column of the
first schema named `T` in the loaded catalog, and `get_field` on such a column
returns a value. -/
theorem load_schema_complete (text : Str) (db : Database)
    (h : Database.load_from_file (some text) = .ok db) :
    schema_complete db.catalog_.schema_catalog.schemas db.tables_ ∧
    ∀ T tbl, UMap.find db.tables_ T = some tbl → ∀ r ∈ tbl.records_,
      ∃ s, find_schema db.catalog_.schema_catalog.schemas T = some s ∧
        ∀ c ∈ s.columns, ∃ v, r.get_field c.name = .ok v := by
  obtain ⟨st, hrun, rfl⟩ := load_ok text db h
  have hinv : schema_complete st.catalog.schema_catalog.schemas st.tables :=
    run_invariant (fun st => schema_complete st.catalog.schema_catalog.schemas st.tables)
      (fun st line st' => step_schema_complete st st' line) _ _ _
      (by intro e he; cases he) hrun
  have hfinal : schema_complete
      (build_database st.result_catalog st.tables).catalog_.schema_catalog.schemas
      (build_database st.result_catalog st.tables).tables_ := by
    rw [build_database_catalog]
    intro e he r hr
    have he' := build_database_mem _ _ _ he
    obtain ⟨s, hs, hp⟩ := hinv e he' r hr
    refine ⟨s, ?_, hp⟩
    rw [LoadState.result_catalog, finalize_schemas]
    exact find_schema_append _ _ _ _ hs
  refine ⟨hfinal, ?_⟩
  intro T tbl hfind r hr
  obtain ⟨s, hs, hp⟩ := hfinal (T, tbl) (UMap.mem_of_find _ _ _ hfind) r hr
  refine ⟨s, hs, ?_⟩
  intro c hc
  obtain ⟨v, _, hv⟩ := get_field_of_mem r c.name (hp c hc)
  exact ⟨v, hv⟩


theorem load_schema_complete_witness :
    ∃ s, find_schema coffee_db.catalog_.schema_catalog.schemas "City".toList = some s ∧
      ∀ c ∈ s.columns, ∃ v, ct2.get_field c.name = .ok v :=
  (load_schema_complete
    ("[SCHEMA:Company]\nC#:string\nName:string\nHQ:string\n".toList ++
      "[SCHEMA:City]\nCT#:string\nName:string\nCountry:string\n".toList ++
      "[DATA:Company]\nh\nC1\tStarbucks\tCT1\t\n".toList ++
      "[DATA:City]\nh\nCT1\tSeattle\tUSA\t\nCT2\tOakland\tUSA\t\n".toList)
    ⟨⟨coffee_db.catalog_.schema_catalog, []⟩, coffee_db.tables_⟩ (by decide)).2 "City".toList ⟨[ct1, ct2]⟩ (by decide) ct2
    (by decide)

/-! ## Rows with more values than columns -/

theorem parse_record_take (cols : List ColumnMetadata) (iss : Str) (acc : TableRecord)
    (h : cols.length ≤ (getlines '\t' iss).length) :
    parse_record cols iss acc =
      .ok (set_all acc cols ((getlines '\t' iss).take cols.length)) := by
  induction cols generalizing iss acc with
  | nil => simp [parse_record, set_all]
  | cons c cs ih =>
    rw [getlines_eq_getline] at h ⊢
    unfold parse_record
    cases hg : getline '\t' iss with
    | none => rw [hg] at h; simp at h
    | some p =>
      obtain ⟨v, iss'⟩ := p
      rw [hg] at h
      simp only [List.length_cons, Nat.add_le_add_iff_right] at h
      simp only [List.length_cons, List.take_succ_cons, set_all]
      exact ih iss' _ h

theorem set_all_keys (cols : List ColumnMetadata) (vals : List Str) (acc : TableRecord)
    (hlen : cols.length = vals.length) (x : Str) :
    x ∈ UMap.keys (set_all acc cols vals).fields_ ↔
      x ∈ UMap.keys acc.fields_ ∨ ∃ c ∈ cols, c.name = x := by
  induction cols generalizing vals acc with
  | nil => simp [set_all]
  | cons c cs ih =>
    cases vals with
    | nil => simp at hlen
    | cons v vs =>
      simp only [List.length_cons, Nat.add_right_cancel_iff] at hlen
      rw [set_all, ih vs _ hlen]
      simp only [TableRecord.set_field, UMap.keys_assign, List.mem_cons, exists_eq_or_imp]
      constructor
      · rintro ((h | h) | h)
        · exact Or.inr (Or.inl h.symm)
        · exact Or.inl h
        · exact Or.inr (Or.inr h)
      · rintro (h | h | h)
        · exact Or.inl (Or.inr h)
        · exact Or.inl (Or.inl h.symm)
        · exact Or.inr h

theorem set_all_find_other (cols : List ColumnMetadata) (vals : List Str) (acc : TableRecord)
    (x : Str) (hx : ∀ c ∈ cols, c.name ≠ x) :
    UMap.find (set_all acc cols vals).fields_ x = UMap.find acc.fields_ x := by
  induction cols generalizing vals acc with
  | nil => simp [set_all]
  | cons c cs ih =>
    cases vals with
    | nil => simp [set_all]
    | cons v vs =>
      rw [set_all, ih vs _ (fun c' hc' => hx c' (List.mem_cons_of_mem _ hc'))]
      exact UMap.find_assign_ne _ _ _ _ (hx c (List.mem_cons_self _ _))

theorem set_all_get (cols : List ColumnMetadata) (vals : List Str) (acc : TableRecord)
    (hlen : cols.length = vals.length) (hnodup : (cols.map (fun c => c.name)).Nodup) :
    List.Forall₂ (fun c v => (set_all acc cols vals).get_field c.name = .ok v) cols vals := by
  induction cols generalizing vals acc with
  | nil =>
    cases vals with
    | nil => exact List.Forall₂.nil
    | cons v vs => simp at hlen
  | cons c cs ih =>
    cases vals with
    | nil => simp at hlen
    | cons v vs =>
      simp only [List.length_cons, Nat.add_right_cancel_iff] at hlen
      simp only [List.map_cons, List.nodup_cons, List.mem_map, not_exists, not_and] at hnodup
      refine List.Forall₂.cons ?_ ?_
      · have hfind : UMap.find (set_all acc (c :: cs) (v :: vs)).fields_ c.name = some v := by
          rw [set_all, set_all_find_other cs vs _ c.name (fun c' hc' => hnodup.1 c' hc')]
          exact UMap.find_assign_self _ _ _
        simp only [TableRecord.get_field, hfind]
      · exact ih vs _ hlen hnodup.2

theorem step_row (st : LoadState) (row : Str) (schema : TableSchema) (hst : reading_rows st)
    (hs : find_schema st.catalog.schema_catalog.schemas st.current_data_table = some schema)
    (h1 : row ≠ []) (h2 : row.head? ≠ some '[') :
    step st row =
      match parse_record schema.columns row TableRecord.empty with
      | .error e => .error e
      | .ok rec => .ok { st with tables := with_record st.tables st.current_data_table rec } := by
  obtain ⟨c1, c2, c3, c4⟩ := hst
  rw [step_in_data st row c1 c2 c3 h1 h2, data_line_row st row schema c4 hs]
  cases parse_record schema.columns row TableRecord.empty <;> rfl

theorem UMap.find_emplace_self {V : Type} (m : UMap V) (k : Str) (v : V) :
    UMap.find (UMap.emplace m k v) k = some ((UMap.find m k).getD v) := by
  induction m with
  | nil => simp [UMap.emplace, UMap.find]
  | cons e rest ih =>
    obtain ⟨k', v'⟩ := e
    by_cases h : k' = k
    · simp [UMap.emplace, UMap.find, h]
    · simp [UMap.emplace, UMap.find, h, ih]

theorem UMap.find_emplace_ne {V : Type} (m : UMap V) (k n : Str) (v : V) (h : n ≠ k) :
    UMap.find (UMap.emplace m k v) n = UMap.find m n := by
  induction m with
  | nil => simp [UMap.emplace, UMap.find, Ne.symm h]
  | cons e rest ih =>
    obtain ⟨k', v'⟩ := e
    by_cases h' : k' = k
    · simp [UMap.emplace, UMap.find, h']
    · by_cases h2 : k' = n
      · subst h2
        simp [UMap.emplace, UMap.find, h']
      · simp [UMap.emplace, UMap.find, h', h2, ih]

theorem UMap.find_modify_self {V : Type} (m : UMap V) (k : Str) (f : V → V) :
    UMap.find (UMap.modify m k f) k = (UMap.find m k).map f := by
  induction m with
  | nil => simp [UMap.modify, UMap.find]
  | cons e rest ih =>
    obtain ⟨k', v'⟩ := e
    by_cases h : k' = k
    · simp [UMap.modify, UMap.find, h]
    · simp [UMap.modify, UMap.find, h, ih]

theorem UMap.find_modify_ne {V : Type} (m : UMap V) (k n : Str) (f : V → V) (h : n ≠ k) :
    UMap.find (UMap.modify m k f) n = UMap.find m n := by
  induction m with
  | nil => simp [UMap.modify, UMap.find]
  | cons e rest ih =>
    obtain ⟨k', v'⟩ := e
    by_cases h' : k' = k
    · have h2 : ¬ k = n := fun e => h e.symm
      simp [UMap.modify, UMap.find, h', h2]
    · by_cases h2 : k' = n
      · subst h2
        simp [UMap.modify, UMap.find, h']
      · simp [UMap.modify, UMap.find, h', h2, ih]

theorem with_record_stored (tables : UMap DataTable) (T : Str) (rec : TableRecord) :
    (∃ tbl, UMap.find (with_record tables T rec) T = some tbl ∧
      tbl.records_ = stored_records tables T ++ [rec]) ∧
    ∀ n, n ≠ T → UMap.find (with_record tables T rec) n = UMap.find tables n := by
  constructor
  · rw [with_record, UMap.find_modify_self, UMap.find_emplace_self]
    cases h : UMap.find tables T with
    | none => exact ⟨_, rfl, by simp [stored_records, h, DataTable.insert_record, DataTable.empty]⟩
    | some t => exact ⟨_, rfl, by simp [stored_records, h, DataTable.insert_record]⟩
  · intro n hn
    rw [with_record, UMap.find_modify_ne _ _ _ _ hn, UMap.find_emplace_ne _ _ _ _ hn]

/-- C13. Extra fields are ignored: a data row from which `getline` reads at
least as many tab-separated values as the `n` columns of its schema, in
particular a row with more than `n` values, does not fail; afterwards the
table of the open data section holds the records it held before, in order,
followed by one new record, every other table is as before, and so are the
catalog and the open section; the new record is made of the first `n` values,
set under the schema's column names in order (its fields are the column names,
and with pairwise distinct column names each column holds its value); and any
row with the same first `n` values in its place gives the same outcome of
`load_from_file`. -/
theorem load_ignores_extra_fields (text text' : Str) (pre post : List Str) (row row' : Str)
    (st : LoadState) (schema : TableSchema)
    (hlines : nonempty_lines (getlines '\n' text) = pre ++ row :: post)
    (hlines' : nonempty_lines (getlines '\n' text') = pre ++ row' :: post)
    (hpre : run LoadState.init pre = .ok st) (hst : reading_rows st)
    (hschema : find_schema st.catalog.schema_catalog.schemas st.current_data_table = some schema)
    (hrow : row.head? ≠ some '[') (hrow' : row'.head? ≠ some '[')
    (hmore : schema.columns.length ≤ (getlines '\t' row).length)
    (hsame : (getlines '\t' row').take schema.columns.length =
      (getlines '\t' row).take schema.columns.length) :
    step st row =
      .ok { st with tables := with_record st.tables st.current_data_table (row_record schema.columns row) } ∧
    (∃ st' tbl, step st row = .ok st' ∧
      UMap.find st'.tables st.current_data_table = some tbl ∧
      tbl.records_ =
        stored_records st.tables st.current_data_table ++ [row_record schema.columns row] ∧
      (∀ n, n ≠ st.current_data_table → UMap.find st'.tables n = UMap.find st.tables n) ∧
      st'.catalog = st.catalog ∧ st'.current_data_table = st.current_data_table) ∧
    (∀ x, x ∈ UMap.keys (row_record schema.columns row).fields_ ↔
      ∃ c ∈ schema.columns, c.name = x) ∧
    ((schema.columns.map (fun c => c.name)).Nodup →
      List.Forall₂ (fun c v => (row_record schema.columns row).get_field c.name = .ok v)
        schema.columns ((getlines '\t' row).take schema.columns.length)) ∧
    Database.load_from_file (some text) = Database.load_from_file (some text') := by
  have h1 : row ≠ [] := by
    apply mem_nonempty_lines (getlines '\n' text)
    rw [hlines]; simp
  have h1' : row' ≠ [] := by
    apply mem_nonempty_lines (getlines '\n' text')
    rw [hlines']; simp
  have hle : schema.columns.length ≤ (getlines '\t' row).length := hmore
  have hle' : schema.columns.length ≤ (getlines '\t' row').length := by
    have := congrArg List.length hsame
    simp only [List.length_take] at this
    omega
  have hlen : schema.columns.length =
      ((getlines '\t' row).take schema.columns.length).length := by
    simp only [List.length_take]; omega
  have hstep : step st row =
      .ok { st with tables := with_record st.tables st.current_data_table (row_record schema.columns row) } := by
    rw [step_row st row schema hst hschema h1 hrow, parse_record_take _ _ _ hle]
    rfl
  have hstep' : step st row' = step st row := by
    rw [hstep, step_row st row' schema hst hschema h1' hrow', parse_record_take _ _ _ hle',
      hsame]
    rfl
  obtain ⟨⟨tbl, hfind, hrecs⟩, hother⟩ :=
    with_record_stored st.tables st.current_data_table (row_record schema.columns row)
  refine ⟨hstep, ⟨_, tbl, hstep, hfind, hrecs, hother, rfl, rfl⟩, ?_, ?_, ?_⟩
  · intro x
    rw [row_record, set_all_keys _ _ _ hlen]
    simp [TableRecord.empty, UMap.keys]
  · intro hnodup
    exact set_all_get _ _ _ hlen hnodup
  · rw [load_eq_run, load_eq_run, hlines, hlines', run_append, run_append, hpre]
    simp only [run, hstep']

theorem load_ignores_extra_fields_witness :
    (∃ st' tbl, step row_state "1\t2\t3\textra".toList = .ok st' ∧
      UMap.find st'.tables "T".toList = some tbl ∧
      tbl.records_ =
        [(TableRecord.empty.set_field "a".toList "0".toList).set_field "b".toList "9".toList] ++
          [row_record [⟨"a".toList, "int".toList⟩, ⟨"b".toList, "int".toList⟩]
            "1\t2\t3\textra".toList] ∧
      (∀ n, n ≠ "T".toList → UMap.find st'.tables n = UMap.find row_state.tables n) ∧
      st'.catalog = row_state.catalog ∧ st'.current_data_table = "T".toList) ∧
    Database.load_from_file
        (some "[SCHEMA:T]\na:int\nb:int\n[DATA:T]\nh\n0\t9\t\n1\t2\t3\textra\n".toList) =
      Database.load_from_file
        (some "[SCHEMA:T]\na:int\nb:int\n[DATA:T]\nh\n0\t9\t\n1\t2\t\n".toList) ∧
    Database.load_from_file
        (some "[SCHEMA:T]\na:int\nb:int\n[DATA:T]\nh\n0\t9\t\n1\t2\t3\textra\n".toList) =
      .ok ⟨row_state.catalog,
        [("T".toList,
          ⟨[(TableRecord.empty.set_field "a".toList "0".toList).set_field "b".toList "9".toList,
            (TableRecord.empty.set_field "a".toList "1".toList).set_field "b".toList
              "2".toList]⟩)]⟩ ∧
    row_record [⟨"a".toList, "int".toList⟩, ⟨"b".toList, "int".toList⟩] "1\t2\t3\textra".toList =
      (TableRecord.empty.set_field "a".toList "1".toList).set_field "b".toList "2".toList :=
  have h := load_ignores_extra_fields
      "[SCHEMA:T]\na:int\nb:int\n[DATA:T]\nh\n0\t9\t\n1\t2\t3\textra\n".toList
      "[SCHEMA:T]\na:int\nb:int\n[DATA:T]\nh\n0\t9\t\n1\t2\t\n".toList
      ["[SCHEMA:T]".toList, "a:int".toList, "b:int".toList, "[DATA:T]".toList, "h".toList,
        "0\t9\t".toList] []
      "1\t2\t3\textra".toList "1\t2\t".toList row_state
      ⟨"T".toList, [⟨"a".toList, "int".toList⟩, ⟨"b".toList, "int".toList⟩]⟩
      (by decide) (by decide) (by decide) (by decide) (by decide) (by decide) (by decide)
      (by decide) (by decide)
  ⟨h.2.1, h.2.2.2.2, by decide, by decide⟩

/-! ## Several schemas of the same name -/

theorem find_schema_first (pre post : List TableSchema) (s : TableSchema)
    (hfirst : ∀ s' ∈ pre, s'.name ≠ s.name) :
    find_schema (pre ++ s :: post) s.name = some s := by
  induction pre with
  | nil => simp [find_schema]
  | cons x rest ih =>
    have hx : ¬ x.name = s.name := hfirst x (List.mem_cons_self _ _)
    simp only [List.cons_append, find_schema, hx, if_false]
    exact ih (fun s' hs' => hfirst s' (List.mem_cons_of_mem _ hs'))

/-- C16. Duplicate names resolve to the first match: `add_schema` appends
without any uniqueness check; when the catalog holds the schemas
`pre ++ s :: post` and no schema of `pre` is named like `s`, the lookup by
name finds `s`, whatever `post` holds; `save_to_file` writes the header and
the rows of the table named like `s` with the columns of `s`; `load_from_file`
parses a row of that data section with the columns of `s`; and the row leaves
the catalog, later duplicates included, as it is. -/
theorem duplicate_schemas_first_match (pre post : List TableSchema) (s : TableSchema)
    (hfirst : ∀ s' ∈ pre, s'.name ≠ s.name) :
    (∀ (c : SystemCatalog) (s2 : TableSchema),
      (c.add_schema s2).schema_catalog.schemas = c.schema_catalog.schemas ++ [s2]) ∧
    find_schema (pre ++ s :: post) s.name = some s ∧
    (∀ (rels : List RelationshipMetadata) (tbl : DataTable) (rest : UMap DataTable),
      ∃ tail, ((Database.mk ⟨⟨pre ++ s :: post⟩, rels⟩ ((s.name, tbl) :: rest)).save_to_file
          true).1 =
        write_schemas (pre ++ s :: post) ++ write_relationships rels ++
          ("[DATA:".toList ++ s.name ++ "]\n".toList ++ write_header s.columns ++
            (write_records s.columns tbl.records_).1 ++ tail)) ∧
    (∀ (st : LoadState) (row : Str), reading_rows st →
      st.catalog.schema_catalog.schemas = pre ++ s :: post → st.current_data_table = s.name →
      row ≠ [] → row.head? ≠ some '[' →
      step st row =
        match parse_record s.columns row TableRecord.empty with
        | .error e => .error e
        | .ok rec => .ok { st with tables := with_record st.tables s.name rec }) := by
  have hfind := find_schema_first pre post s hfirst
  refine ⟨fun c s2 => rfl, hfind, ?_, ?_⟩
  · intro rels tbl rest
    simp only [Database.save_to_file, Bool.not_true, Bool.false_eq_true, if_false, write_tables,
      hfind]
    cases hw : (write_records s.columns tbl.records_).2 with
    | error e => exact ⟨[], by simp⟩
    | ok u => exact ⟨(write_tables (pre ++ s :: post) rest).1, by simp [List.append_assoc]⟩
  · intro st row hst hcat hcdt h1 h2
    have hs : find_schema st.catalog.schema_catalog.schemas st.current_data_table = some s := by
      rw [hcat, hcdt]; exact hfind
    rw [step_row st row s hst hs h1 h2, hcdt]

theorem duplicate_schemas_first_match_witness :
    find_schema twice_db.catalog_.schema_catalog.schemas "T".toList =
      some ⟨"T".toList, [⟨"a".toList, "int".toList⟩]⟩ ∧
    Database.load_from_file (some twice_text) = .ok twice_db ∧
    twice_db.save_to_file true =
      ("[SCHEMA:T]\na:int\n[SCHEMA:T]\na:int\nb:int\n[DATA:T]\na\t\n1\t\n".toList, .ok ()) :=
  ⟨(duplicate_schemas_first_match [] [⟨"T".toList, [⟨"a".toList, "int".toList⟩,
      ⟨"b".toList, "int".toList⟩]⟩] ⟨"T".toList, [⟨"a".toList, "int".toList⟩]⟩
      (by decide)).2.1,
   by decide, by decide⟩

/-! ## The string operations of the loader stay in range -/

theorem starts_with_length (s p : Str) (h : starts_with s p = true) : p.length ≤ s.length := by
  unfold starts_with at h
  exact (List.isPrefixOf_iff_prefix.mp h).length_le

theorem find_char_lt (c : Char) (s : Str) (i : Nat) (h : find_char c s = some i) :
    i < s.length := by
  induction s generalizing i with
  | nil => simp [find_char] at h
  | cons x rest ih =>
    by_cases hx : x = c
    · simp only [find_char, hx, if_true, Option.some.injEq] at h
      subst h
      simp
    · simp only [find_char, hx, if_false, Option.map_eq_some'] at h
      obtain ⟨j, hj, rfl⟩ := h
      have := ih j hj
      simp only [List.length_cons]
      omega

theorem substr_checked_eq (s : Str) (pos count : Nat) (h : pos ≤ s.length) :
    substr_checked s pos count = some (substr s pos count) := by
  simp [substr_checked, substr, h]

theorem substr_from_checked_eq (s : Str) (pos : Nat) (h : pos ≤ s.length) :
    substr_from_checked s pos = some (substr_from s pos) := by
  simp [substr_from_checked, substr_from, h]

theorem section_line_checked_eq (st : LoadState) (line : Str) :
    section_line_checked st line = some (section_line st line) := by
  unfold section_line_checked section_line
  split_ifs with h1 h2 h3
  · simp only [substr_checked_eq line 8 _ (starts_with_length _ _ h1)]
  · simp only [substr_checked_eq line 14 _ (starts_with_length _ _ h2)]
  · simp only [substr_checked_eq line 6 _ (starts_with_length _ _ h3)]
  · rfl

theorem schema_line_checked_eq (schema : TableSchema) (line : Str) :
    schema_line_checked schema line = some (schema_line schema line) := by
  unfold schema_line_checked schema_line
  cases hf : find_char ':' line with
  | none => rfl
  | some colon =>
    have hlt := find_char_lt _ _ _ hf
    simp only [substr_checked_eq line 0 colon (Nat.zero_le _),
      substr_from_checked_eq line (colon + 1) hlt]

theorem parse_link_checked_eq (line : Str) (h : starts_with line "Link:".toList = true) :
    parse_link_checked line = some (parse_link line) := by
  unfold parse_link_checked parse_link
  have h5 : 5 ≤ line.length := starts_with_length _ _ h
  simp only [substr_from_checked_eq line 5 h5]
  cases hf : find_char ':' (substr_from line 5) with
  | none =>
    have e : (2 ^ 64 - 1 + 1) % 2 ^ 64 = 0 := by norm_num
    simp only [e, substr_from_checked_eq _ 0 (Nat.zero_le _)]
    rfl
  | some colon =>
    have hlt := find_char_lt _ _ _ hf
    simp only [substr_checked_eq _ 0 colon (Nat.zero_le _),
      substr_from_checked_eq _ (colon + 1) hlt]


theorem relationship_line_checked_eq (rel : RelationshipMetadata) (line : Str) :
    relationship_line_checked rel line = some (relationship_line rel line) := by
  unfold relationship_line_checked relationship_line
  split_ifs with h1 h2 h3
  · simp only [substr_from_checked_eq line 6 (starts_with_length _ _ h1)]
  · simp only [substr_from_checked_eq line 7 (starts_with_length _ _ h2)]
  · simp only [parse_link_checked_eq line h3]
  · rfl

theorem step_checked_eq (st : LoadState) (line : Str) :
    step_checked st line = some (step st line) := by
  unfold step_checked step
  by_cases h1 : line = []
  · simp only [h1, if_true]
  · simp only [h1, if_false]
    cases line with
    | nil => exact absurd rfl h1
    | cons c rest =>
      simp only [index_checked, List.get?_cons_zero, List.head?_cons, Option.some.injEq]
      by_cases hc : c = '['
      · simp only [hc, if_true, section_line_checked_eq]
      · simp only [hc, if_false]
        cases st.current_schema with
        | some schema => simp only [schema_line_checked_eq]
        | none =>
          cases st.current_rel with
          | some rel => simp only [relationship_line_checked_eq]
          | none => split_ifs <;> rfl

theorem run_checked_eq (st : LoadState) (ls : List Str) :
    run_checked st ls = some (run st ls) := by
  induction ls generalizing st with
  | nil => rfl
  | cons l rest ih =>
    simp only [run_checked, run, step_checked_eq]
    cases step st l with
    | error e => rfl
    | ok st' => exact ih st'

/-- C18. The parser is total and has only two failure modes: for every input
text, no substring or index operation of `load_from_file` is out of range
(the loader with range checks returns the outcome of `load_from_file`), and
the outcome is a database, `MissingSchema` or `MalformedRow`. -/
theorem load_total (text : Str) :
    Database.load_from_file_checked (some text) = some (Database.load_from_file (some text)) ∧
    ((∃ db, Database.load_from_file (some text) = .ok db) ∨
      Database.load_from_file (some text) = .error .MissingSchema ∨
      Database.load_from_file (some text) = .error .MalformedRow) := by
  constructor
  · simp only [Database.load_from_file_checked, Database.load_from_file, run_checked_eq]
    cases run LoadState.init (getlines '\n' text) <;> rfl
  · cases hr : run LoadState.init (getlines '\n' text) with
    | error e =>
      rcases run_error _ _ _ hr with rfl | rfl
      · exact Or.inr (Or.inl (by simp only [Database.load_from_file, hr]))
      · exact Or.inr (Or.inr (by simp only [Database.load_from_file, hr]))
    | ok st =>
      exact Or.inl ⟨build_database (finalize st.catalog st.current_schema st.current_rel)
        st.tables, by simp only [Database.load_from_file, hr]⟩

theorem load_short_lines :
    Database.load_from_file_checked (some "[SCHEMA:\n[DATA:\n[RELATIONSHIP:\nLink:abc\nLink:\n".toList) =
      some (.ok ⟨⟨⟨[⟨[], []⟩]⟩,
        [⟨[], ⟨[], [(⟨"abc".toList⟩, [⟨"abc".toList⟩]), (⟨[]⟩, [])]⟩, ⟨[], []⟩⟩]⟩,
        [([], DataTable.empty)]⟩) := by
  decide

end Catalog
